import Mathlib

/-!
# The static Huffman codec of `src/main.cpp`

A shallow embedding of the codec and the properties proved about it.

Conventions of the embedding.

* A `char` is kept as its 8-bit pattern, a natural number below 256; on the
  patterns the C operators `|`, `&`, `<<`, `>>` of `write_bit` and `read_bit`
  act the same whether `char` is signed or not, because only the bits 0..7
  of the promoted value are stored or tested.
* A `short` is kept as its 16-bit pattern; `sshort` gives the signed value
  where the source compares one (`v < 256` in `extract`).
* `unsigned long long` arithmetic is taken modulo `2 ^ 64`.
* Global arrays are functions from the subscript to the element.  A
  subscript outside the array is a separate cell of that function: the
  embedding does not say which other object the cell overlaps in memory.
* The integers written with `fwrite` are laid out least significant byte
  first (the byte order of the machines the program was written for).
* A file opened for reading is its list of bytes; a `while (!feof(in))`
  loop around `fgetc` runs its body once for every byte and once more for
  the read that returns `EOF`.
-/

namespace Haffman

/-! ## Constants and types -/

/-- The constant `TSIZE = 256 * 2 - 1`, the number of tree nodes. -/
def TSIZE : Nat := 256 * 2 - 1

/-- The default of `#define BUF_SIZE 262144`. -/
def BUF_SIZE : Nat := 262144

/-- The characters of `HEADER[] = "HFMN"`, the terminating NUL left out. -/
def HEADER : List Nat := [72, 70, 77, 78]

/-- The value `EOF` that `fgetc` returns at the end of the file. -/
def EOF : Int := -1

/-- The struct `node_t`: `v`, the weight `k`, and the links `l`, `r`, `p`. -/
structure node_t where
  v : Nat
  k : Nat
  l : Nat
  r : Nat
  p : Nat

/-- The struct `code_t`: the length `k` (a `short`) and the bit array `c`. -/
structure code_t where
  k : Int
  c : Nat → Nat

/-- A bit cursor: the pair `(ptr, pos)` that `write_bit` and `read_bit`
advance, `ptr` counted in bytes from the start of the buffer. -/
structure cursor where
  ptr : Nat
  pos : Nat

/-- The signed value of a 16-bit pattern. -/
def sshort (x : Nat) : Int := if x < 32768 then (x : Int) else (x : Int) - 65536

/-- The signed value of a 64-bit pattern (`off64_t`). -/
def soff64 (x : Nat) : Int := if x < 2 ^ 63 then (x : Int) else (x : Int) - 2 ^ 64

/-- The bytes of an `n`-byte integer, least significant first. -/
def le_bytes : Nat → Nat → List Nat
  | 0, _ => []
  | n + 1, x => x % 256 :: le_bytes n (x / 256)

/-- The integer whose bytes, least significant first, are the list. -/
def le_value : List Nat → Nat
  | [] => 0
  | b :: bs => b + 256 * le_value bs

/-! ## init_htree -/

/-- The array `htree` after `init_htree`: everything zero, `v` the index,
and the last node its own parent. -/
def init_htree : Nat → node_t := fun i =>
  { v := i, k := 0, l := 0, r := 0, p := if i = TSIZE - 1 then TSIZE - 1 else 0 }

/-! ## Bit primitives -/

/-- The tail shared by `write_bit` and `read_bit`:
`++pos; if (pos >= 8) { pos = 0; ++ptr; }`. -/
def advance (c : cursor) : cursor :=
  if c.pos + 1 ≥ 8 then ⟨c.ptr + 1, 0⟩ else ⟨c.ptr, c.pos + 1⟩

/-- The function `write_bit`: `*ptr |= bit << pos`, then the cursor moves on. -/
def write_bit (m : Nat → Nat) (c : cursor) (bit : Nat) : (Nat → Nat) × cursor :=
  (fun a => if a = c.ptr then (m a ||| (bit <<< c.pos)) % 256 else m a, advance c)

/-- The function `read_bit`: `res = (*ptr & 1 << pos) >> pos`, then the
cursor moves on. -/
def read_bit (m : Nat → Nat) (c : cursor) : Nat × cursor :=
  ((m c.ptr &&& (1 <<< c.pos)) >>> c.pos, advance c)

/-- Calling `write_bit` for each bit of a list in order. -/
def write_bits (m : Nat → Nat) (c : cursor) : List Nat → (Nat → Nat) × cursor
  | [] => (m, c)
  | b :: bs => write_bits (write_bit m c b).1 (write_bit m c b).2 bs

/-- Calling `read_bit` `n` times: the bits returned, in order, and the
cursor reached. -/
def read_bits (m : Nat → Nat) : Nat → cursor → List Nat × cursor
  | 0, c => ([], c)
  | n + 1, c =>
    ((read_bit m c).1 :: (read_bits m n (read_bit m c).2).1,
     (read_bits m n (read_bit m c).2).2)

/-! ## Frequency table -/

/-- The statement `++htree[c].k`, on the weights as a function of the
subscript `c` (an `int`). -/
def incr_k (k : Int → Nat) (c : Int) : Int → Nat :=
  fun a => if a = c then (k a + 1) % 2 ^ 64 else k a

/-- The counting loop of `compress`,
`while(!feof(in)) { int c = fgetc(in); ++htree[c].k; }`:
one pass of the body per byte, and a last one with `c = EOF`. -/
def count_loop : List (Fin 256) → (Int → Nat) → (Int → Nat)
  | [], k => incr_k k EOF
  | c :: rest, k => count_loop rest (incr_k k (c.val : Int))

/-- The subscripts the counting loop uses, in order. -/
def count_subscripts : List (Fin 256) → List Int
  | [] => [EOF]
  | c :: rest => (c.val : Int) :: count_subscripts rest

/-- The value `ftell(in)` gives after the counting loop: the number of
bytes read, as an `off64_t` pattern. -/
def ftell_end (S : List (Fin 256)) : Nat := S.length % 2 ^ 64

/-- The array `htree` when the counting loop is done (after `init_htree`,
as `main` calls it). -/
def counted_htree (S : List (Fin 256)) : Nat → node_t := fun i =>
  { init_htree i with k := count_loop S (fun _ => 0) (i : Int) }

/-! ## The priority set and the tree builder -/

/-- The comparator `setcomp`: by weight, then by index. -/
def setcomp (htree : Nat → node_t) (a b : Nat) : Bool :=
  if (htree a).k ≠ (htree b).k then decide ((htree a).k < (htree b).k)
  else decide (a < b)

/-- The call `mintree.insert(x)` on the set kept as the list of its
elements in comparator order; an equivalent element blocks the insertion. -/
def set_insert (htree : Nat → node_t) (x : Nat) : List Nat → List Nat
  | [] => [x]
  | y :: ys =>
    if setcomp htree x y then x :: y :: ys
    else if setcomp htree y x then y :: set_insert htree x ys
    else y :: ys

/-- The globals the builder works on. -/
structure tree_state where
  htree : Nat → node_t
  mintree : List Nat

/-- Assignment to one element of `htree`. -/
def set_node (htree : Nat → node_t) (i : Nat) (n : node_t) : Nat → node_t :=
  fun a => if a = i then n else htree a

/-- The loop `for (short i = 0; i < 256; ++i) mintree.insert(i);`, its
first `n` passes. -/
def fill_set (htree : Nat → node_t) : Nat → List Nat
  | 0 => []
  | n + 1 => set_insert htree n (fill_set htree n)

/-- One pass of the builder loop, for node `i`: take the two first elements
of the set as `l` and `r`, sum their weights, set their parent, insert `i`.
(`*mintree.begin()` of an empty set does not occur: see `mintree_length`.) -/
def build_step (i : Nat) (s : tree_state) : tree_state :=
  let l := s.mintree.headD 0
  let m1 := s.mintree.tail
  let r := m1.headD 0
  let m2 := m1.tail
  let h0 := set_node s.htree i { s.htree i with l := l, r := r }
  let h1 := set_node h0 i { h0 i with k := ((h0 l).k + (h0 r).k) % 2 ^ 64 }
  let h2 := set_node h1 r { h1 r with p := i }
  let h3 := set_node h2 l { h2 l with p := i }
  ⟨h3, set_insert h3 i m2⟩

/-- The builder loop `for (short i = 256; i < TSIZE; ++i)`, its first `n`
passes (pass number `n` builds node `256 + n`). -/
def build_loop : Nat → tree_state → tree_state
  | 0, s => s
  | n + 1, s => build_step (256 + n) (build_loop n s)

/-- The tree built from a table of weights held in `htree`: the set is
filled with the 256 leaves and the builder loop runs its 255 passes. -/
def build (htree : Nat → node_t) : tree_state :=
  build_loop (TSIZE - 256) ⟨htree, fill_set htree 256⟩

/-- The array `htree` holding a table of 256 counts after `init_htree`. -/
def table_htree (cnt : Nat → Nat) : Nat → node_t := fun i =>
  { init_htree i with k := if i < 256 then cnt i % 2 ^ 64 else 0 }

/-- The tree the builder makes of a table of 256 counts. -/
def built (cnt : Nat → Nat) : Nat → node_t := (build (table_htree cnt)).htree

/-! ## Code table -/

/-- The three reference parameters of `hcode_rec`: the array `ptr` walks
over, the cursor `(ptr, pos)`, and the length `k`. -/
structure code_cur where
  c : Nat → Nat
  cur : cursor
  k : Int

/-- The function `hcode_rec`; the first argument bounds the depth of the
recursion, and `none` is returned when it is used up. -/
def hcode_rec (htree : Nat → node_t) : Nat → Nat → code_cur → Option code_cur
  | 0, _, _ => none
  | fuel + 1, v, s =>
    if v = TSIZE - 1 then some s
    else
      let t := (htree v).p
      match hcode_rec htree fuel (htree v).p s with
      | none => none
      | some s1 =>
        some ⟨(write_bit s1.c s1.cur (if (htree t).l = v then 0 else 1)).1,
              (write_bit s1.c s1.cur (if (htree t).l = v then 0 else 1)).2,
              s1.k + 1⟩

/-- The table `hcode` before the codes are computed: a zeroed global. -/
def hcode_zero : Nat → code_t := fun _ => ⟨0, fun _ => 0⟩

/-- The loop `for (short i = 0; i < 256; ++i) hcode_rec(i, ptr, pos, k)` with
`ptr = hcode[i].c`, `pos = 0`, `k = hcode[i].k`: its first `n` passes. -/
def precalc (htree : Nat → node_t) : Nat → Option (Nat → code_t)
  | 0 => some hcode_zero
  | n + 1 =>
    match precalc htree n with
    | none => none
    | some hcode =>
      match hcode_rec htree TSIZE n ⟨(hcode n).c, ⟨0, 0⟩, (hcode n).k⟩ with
      | none => none
      | some s => some (fun a => if a = n then ⟨s.k, s.c⟩ else hcode a)

/-! ## Archive encoder -/

/-- The header and tree table part: the first `n` entries of the loop
`for (short i = 256; i < TSIZE; ++i) { fwrite(&htree[i].l ..); fwrite(&htree[i].r ..); }`. -/
def tree_table (htree : Nat → node_t) : Nat → List Nat
  | 0 => []
  | n + 1 =>
    tree_table htree n ++ (le_bytes 2 (htree (256 + n)).l ++ le_bytes 2 (htree (256 + n)).r)

/-- The state of the encode loop: the block `buf`, the cursor
`(buf_ptr - buf, buf_pos)` and the bytes written to `out` by the loop. -/
structure enc_state where
  buf : Nat → Nat
  cur : cursor
  out : List Nat

/-- The inner loop `for (short i = 0; i < hcode[c].k; ++i)` with `n` passes
to go: copy one bit of the code, and flush and zero the block when the
byte cursor reaches the block size `bs`. -/
def emit_code (bs : Nat) (c : Nat → Nat) : Nat → cursor → enc_state → enc_state
  | 0, _, e => e
  | n + 1, cc, e =>
    let b := read_bit c cc
    let w := write_bit e.buf e.cur b.1
    if w.2.ptr ≥ bs then
      emit_code bs c n b.2 ⟨fun _ => 0, ⟨0, w.2.pos⟩, e.out ++ (List.range bs).map w.1⟩
    else
      emit_code bs c n b.2 ⟨w.1, w.2, e.out⟩

/-- The encode loop `while (!feof(in)) { int c = fgetc(in); ... }`: one
pass per byte with the code `hcode[c]`, and a last pass with `c = EOF`,
whose code is `hcode[-1]`, the memory in front of the table, here `oob`. -/
def encode_loop (bs : Nat) (hcode : Nat → code_t) (oob : code_t) :
    List (Fin 256) → enc_state → enc_state
  | [], e => emit_code bs oob.c oob.k.toNat ⟨0, 0⟩ e
  | c :: rest, e =>
    encode_loop bs hcode oob rest
      (emit_code bs (hcode c.val).c (hcode c.val).k.toNat ⟨0, 0⟩ e)

/-- The end of the encoder: `if (buf_pos > 0) ++buf_ptr;` and the write of
the `buf_ptr - buf` first bytes of the block. -/
def enc_finish (e : enc_state) : List Nat :=
  e.out ++ (List.range (if e.cur.pos > 0 then e.cur.ptr + 1 else e.cur.ptr)).map e.buf

/-- The payload written by the encode loop with block size `bs`: the lines
148 to 165 of `compress`.  No statement clears `buf` before the loop, so the
loop starts on what the block holds at that moment, here `buf0`, and
`write_bit` puts its bits onto it with `|=`. -/
def payload (bs : Nat) (buf0 : Nat → Nat) (hcode : Nat → code_t) (oob : code_t)
    (S : List (Fin 256)) : List Nat :=
  enc_finish (encode_loop bs hcode oob S ⟨buf0, ⟨0, 0⟩, []⟩)

/-- Where the eight bytes of `htree[-1].k` lie, the cell the counting loop
increments on its pass for `EOF`.  A `node_t` takes 24 bytes with `k` at
offset 8, so the cell is at `htree - 16`, and which global ends there is the
choice of the compiler.
`buf_end`: the array `buf` ends where `htree` begins, and the cell is
`buf[BUF_SIZE - 16 .. BUF_SIZE - 8)`.
`hcode_end`: the table `hcode` ends where `htree` begins (a `code_t` takes 36
bytes with `c` at offset 2), and the cell is `hcode[255].c[18 .. 26)`.
`apart`: the cell lies in neither of the two, and the increment is taken to
change nothing that `compress` reads. -/
inductive oob_cell where
  | buf_end : oob_cell
  | hcode_end : oob_cell
  | apart : oob_cell

/-- The array `buf` of `bs` bytes when the counting loop is done: the zeros
of static initialisation, and over them, where the cell `htree[-1].k` lies in
`buf`, the little-endian bytes of the value the loop has left in the cell. -/
def block_start (bs : Nat) (cell : oob_cell) (S : List (Fin 256)) : Nat → Nat :=
  match cell with
  | .buf_end => fun a =>
    if bs ≤ a + 16 ∧ a + 16 < bs + 8 then
      (le_bytes 8 (count_loop S (fun _ => 0) EOF)).getD (a + 16 - bs) 0
    else 0
  | .hcode_end => fun _ => 0
  | .apart => fun _ => 0

/-- The table `hcode` when the counting loop is done: the zeros of static
initialisation, and over them, where the cell `htree[-1].k` lies in `hcode`,
the little-endian bytes of the value the loop has left in the cell. -/
def hcode_start (cell : oob_cell) (S : List (Fin 256)) : Nat → code_t :=
  match cell with
  | .buf_end => hcode_zero
  | .hcode_end => fun i =>
    if i = 255 then
      ⟨0, fun a =>
        if 18 ≤ a ∧ a < 26 then (le_bytes 8 (count_loop S (fun _ => 0) EOF)).getD (a - 18) 0
        else 0⟩
    else hcode_zero i
  | .apart => hcode_zero

/-- The loop `for (short i = 0; i < 256; ++i) hcode_rec(i, ptr, pos, k)` of
`precalc` run on the table `h0`: its first `n` passes. -/
def precalc_from (h0 : Nat → code_t) (htree : Nat → node_t) : Nat → Option (Nat → code_t)
  | 0 => some h0
  | n + 1 =>
    match precalc_from h0 htree n with
    | none => none
    | some hcode =>
      match hcode_rec htree TSIZE n ⟨(hcode n).c, ⟨0, 0⟩, (hcode n).k⟩ with
      | none => none
      | some s => some (fun a => if a = n then ⟨s.k, s.c⟩ else hcode a)

/-- The function `compress`: the bytes written to `out` for the input `S`.
The counting loop comes first, and with it the increment of `htree[-1].k`:
`cell` says where that cell lies, so that the code table is computed on
`hcode` and the encode loop starts on `buf` as the counting loop has left
them.  The parameter `oob` is what the read of `hcode[-1]` finds.  The
result is `none` when `hcode_rec` does not return. -/
def compress (cell : oob_cell) (oob : code_t) (S : List (Fin 256)) : Option (List Nat) :=
  let st := build (counted_htree S)
  match precalc_from (hcode_start cell S) st.htree 256 with
  | none => none
  | some hcode =>
    some (HEADER ++ le_bytes 8 (ftell_end S) ++ tree_table st.htree (TSIZE - 256)
      ++ payload BUF_SIZE (block_start BUF_SIZE cell S) hcode oob S)

/-! ## Archive decoder -/

/-- A file open for reading: the bytes not yet read and the end-of-file
indicator. -/
structure file where
  data : List Nat
  eof : Bool

/-- The call `fread(dst, 1, n, f)` (or one item of `n` bytes): the bytes
obtained and the file afterwards; the indicator is set when fewer than `n`
bytes were left. -/
def fread (n : Nat) (f : file) : List Nat × file :=
  (f.data.take n, ⟨f.data.drop n, f.eof || decide (f.data.length < n)⟩)

/-- The characters `fgets(tmp_s, n + 1, in)` stores: at most `n`, stopping
after a newline or at the end of the file. -/
def fgets : Nat → List Nat → List Nat
  | 0, _ => []
  | _ + 1, [] => []
  | n + 1, c :: rest => if c = 10 then [c] else c :: fgets n rest

/-- The C string held in a zeroed array into which the characters were
stored: what comes before the first NUL. -/
def cstr (s : List Nat) : List Nat := s.takeWhile (fun c => c != 0)

/-- The loop `for (short i = 256; i < TSIZE; ++i) { fread(&htree[i].l ..);
fread(&htree[i].r ..); }`, its first `n` passes.  A short read leaves the
missing bytes of the zeroed field as they were. -/
def read_tree : Nat → (Nat → node_t) → file → (Nat → node_t) × file
  | 0, htree, f => (htree, f)
  | n + 1, htree, f =>
    let s := read_tree n htree f
    let a := fread 2 s.2
    let b := fread 2 a.2
    let h1 := set_node s.1 (256 + n) { s.1 (256 + n) with l := le_value a.1 }
    (set_node h1 (256 + n) { h1 (256 + n) with r := le_value b.1 }, b.2)

/-- The state of the decode loop: the node `v`, the counter `tsize`, the
bytes put to `out`, and whether `htree[v]` was read with `v` outside the
array (from where on the source has no defined behaviour). -/
structure dec_state where
  v : Nat
  tsize : Nat
  out : List Nat
  fault : Bool

/-- The inner loop `for (int i = 0; i < 8 * count; ++i)` with `n` passes to
go. -/
def decode_bits (htree : Nat → node_t) (fsize : Int) (buf : Nat → Nat) :
    Nat → cursor → dec_state → dec_state
  | 0, _, d => d
  | n + 1, c, d =>
    if TSIZE ≤ d.v then { d with fault := true }
    else
      let b := read_bit buf c
      let v := if b.1 = 0 then (htree d.v).l else (htree d.v).r
      if sshort v < 256 then
        if ((d.tsize + 1 : Nat) : Int) ≥ fsize then
          ⟨v, d.tsize + 1, d.out ++ [v % 256], d.fault⟩
        else
          decode_bits htree fsize buf n b.2 ⟨TSIZE - 1, d.tsize + 1, d.out ++ [v % 256], d.fault⟩
      else
        decode_bits htree fsize buf n b.2 { d with v := v }

/-- The loop `while (tsize < fsize && !feof(in))` of `extract` with block
size `bs`; the first argument bounds the number of passes and `none` is
returned when it is used up. -/
def extract_loop (bs : Nat) (htree : Nat → node_t) (fsize : Int) :
    Nat → file → (Nat → Nat) → dec_state → Option dec_state
  | 0, _, _, _ => none
  | fuel + 1, f, buf, d =>
    if ((d.tsize : Int) < fsize ∧ f.eof = false) ∧ d.fault = false then
      let blk := fread bs f
      let buf1 : Nat → Nat := fun a => if a < blk.1.length then blk.1.getD a 0 else buf a
      extract_loop bs htree fsize fuel blk.2 buf1
        (decode_bits htree fsize buf1 (8 * blk.1.length) ⟨0, 0⟩ d)
    else some d

/-- What a run of `extract` comes to. -/
inductive outcome where
  | format_error : outcome
  | finished (out : List Nat) : outcome
  | undefined_read (out : List Nat) : outcome
  deriving DecidableEq

/-- The value `extract` returns: `-1` on a format error; otherwise the
function ends without a return statement. -/
def outcome.ret : outcome → Option Int
  | .format_error => some (-1)
  | .finished _ => none
  | .undefined_read _ => none

/-- The bytes `extract` has put to `out`. -/
def outcome.out : outcome → List Nat
  | .format_error => []
  | .finished o => o
  | .undefined_read o => o

/-- The function `extract` on the archive bytes `A`, after `init_htree`.
When fewer than 8 bytes are left for `fsize` its value is indeterminate in
the source; the end-of-file indicator is then set and the loop, the only
place that uses it, does not run. -/
def extract (A : List Nat) : Option outcome :=
  let tmp_s := fgets 4 A
  if cstr tmp_s ≠ HEADER then some outcome.format_error
  else
    let f0 : file := ⟨A.drop tmp_s.length, false⟩
    let a := fread 8 f0
    let fsize := soff64 (le_value a.1)
    let t := read_tree (TSIZE - 256) init_htree a.2
    match extract_loop BUF_SIZE t.1 fsize (A.length + 2) t.2 (fun _ => 0)
        ⟨TSIZE - 1, 0, [], false⟩ with
    | none => none
    | some d => some (if d.fault then outcome.undefined_read d.out else outcome.finished d.out)

/-! ## Bit lists and packing -/

/-- The position of a cursor counted in bits. -/
def cursor.bitpos (c : cursor) : Nat := 8 * c.ptr + c.pos

/-- The cursor `(n / 8, n mod 8)` of bit number `n`. -/
def cursor_at (n : Nat) : cursor := ⟨n / 8, n % 8⟩

/-- Byte number `j` of a bit list packed least significant bit first, the
bits past the end of the list counting as zero. -/
def pack_byte (bits : List Nat) (j : Nat) : Nat :=
  bits.getD (8 * j) 0 + 2 * bits.getD (8 * j + 1) 0 + 4 * bits.getD (8 * j + 2) 0
    + 8 * bits.getD (8 * j + 3) 0 + 16 * bits.getD (8 * j + 4) 0
    + 32 * bits.getD (8 * j + 5) 0 + 64 * bits.getD (8 * j + 6) 0
    + 128 * bits.getD (8 * j + 7) 0

/-- A bit list packed into bytes, least significant bit first, padded with
zero bits to a whole byte. -/
def pack (bits : List Nat) : List Nat :=
  (List.range ((bits.length + 7) / 8)).map (pack_byte bits)

/-! ## Predicates on the tree -/

/-- The order of `setcomp` as a proposition: lighter first, and the lower
index first among equal weights. -/
def klt (htree : Nat → node_t) (a b : Nat) : Prop :=
  (htree a).k < (htree b).k ∨ ((htree a).k = (htree b).k ∧ a < b)

/-- What holds of the links after `n` passes of the builder loop started
from the array `h0`: the set is in comparator order and holds `256 - n`
nodes, every node below `256 + n` that has left the set has its parent, and
every node built so far has its two children. -/
structure tree_inv (h0 : Nat → node_t) (n : Nat) (s : tree_state) : Prop where
  sorted : s.mintree.Pairwise (klt s.htree)
  len : s.mintree.length + n = 256
  mem_lt : ∀ x ∈ s.mintree, x < 256 + n
  top : 0 < n → 255 + n ∈ s.mintree
  par : ∀ x, x < 256 + n → x ∉ s.mintree →
    256 ≤ (s.htree x).p ∧ (s.htree x).p < 256 + n ∧ x < (s.htree x).p ∧
      ((s.htree (s.htree x).p).l = x ∨ (s.htree (s.htree x).p).r = x)
  kids : ∀ j, 256 ≤ j → j < 256 + n →
    (s.htree j).l < j ∧ (s.htree j).r < j ∧ (s.htree j).l ≠ (s.htree j).r ∧
      (s.htree j).l ∉ s.mintree ∧ (s.htree j).r ∉ s.mintree ∧
      (s.htree (s.htree j).l).p = j ∧ (s.htree (s.htree j).r).p = j
  pkeep : ∀ x, (x ∈ s.mintree ∨ 256 + n ≤ x) → (s.htree x).p = (h0 x).p
  kkeep : ∀ x, (x < 256 ∨ 256 + n ≤ x) → (s.htree x).k = (h0 x).k
  order : ∀ a b, a < 256 → b < 256 → klt s.htree a b → b ∉ s.mintree →
    a ∉ s.mintree ∧ ((s.htree a).p < (s.htree b).p ∨
      ((s.htree a).p = (s.htree b).p ∧ (s.htree (s.htree a).p).l = a
        ∧ (s.htree (s.htree b).p).r = b))

/-! ## Paths in the tree -/

/-- The bits `hcode_rec` writes for node `v`, in the order it writes them:
the bits of the parent first, then 0 when `v` is the left child of its
parent and 1 otherwise.  The first argument bounds the number of links. -/
def path_bits (htree : Nat → node_t) : Nat → Nat → List Nat
  | 0, _ => []
  | fuel + 1, v =>
    if v = TSIZE - 1 then []
    else path_bits htree fuel (htree v).p
      ++ [if (htree (htree v).p).l = v then 0 else 1]

/-- The number of parent links from node `v` up to the root. -/
def depth (htree : Nat → node_t) : Nat → Nat → Nat
  | 0, _ => 0
  | fuel + 1, v => if v = TSIZE - 1 then 0 else depth htree fuel (htree v).p + 1

/-- The node reached from `v` by taking the left child on a bit 0 and the
right child on any other bit. -/
def walk (htree : Nat → node_t) : Nat → List Nat → Nat
  | v, [] => v
  | v, b :: bs => walk htree (if b = 0 then (htree v).l else (htree v).r) bs

/-- The nodes a walk stands on when it takes each bit. -/
def walk_nodes (htree : Nat → node_t) : Nat → List Nat → List Nat
  | _, [] => []
  | v, b :: bs => v :: walk_nodes htree (if b = 0 then (htree v).l else (htree v).r) bs

/-- The bits of a code, in the order the encode loop reads them:
`k` calls of `read_bit` from the start of `c`. -/
def code_bits (code : code_t) : List Nat := (read_bits code.c code.k.toNat ⟨0, 0⟩).1

/-- The links of a finished tree: every node below 510 has an internal
parent of larger index that has it as a child, and every internal node has
two different children of smaller index whose parent it is. -/
structure linked (htree : Nat → node_t) : Prop where
  par : ∀ x, x < 510 → 256 ≤ (htree x).p ∧ (htree x).p ≤ 510 ∧ x < (htree x).p ∧
    ((htree (htree x).p).l = x ∨ (htree (htree x).p).r = x)
  kids : ∀ j, 256 ≤ j → j ≤ 510 → (htree j).l < j ∧ (htree j).r < j ∧
    (htree j).l ≠ (htree j).r ∧ (htree (htree j).l).p = j ∧ (htree (htree j).r).p = j

/-- The entry of `hcode` for symbol `s`: the bits of its path written from
the start of a zeroed array, and their number. -/
def code_of (htree : Nat → node_t) (s : Nat) : code_t :=
  ⟨((path_bits htree TSIZE s).length : Int),
    (write_bits (fun _ => 0) ⟨0, 0⟩ (path_bits htree TSIZE s)).1⟩

/-- The sum of the 256 counts of a table. -/
def total_count (cnt : Nat → Nat) : Nat := ((List.range 256).map cnt).sum

/-- What holds of the weights after `n` passes of the builder loop when
the leaf weights add up to `total`, a value below `2 ^ 64`: the weights in
the set add up to `total`, every node that has left the set comes before
every node in it, nodes leave the set in comparator order, every node built
has the sum of the weights of its children, and the weights of the nodes
built do not decrease. -/
structure weight_inv (total : Nat) (n : Nat) (s : tree_state) : Prop where
  sum : (s.mintree.map (fun x => (s.htree x).k)).sum = total
  ext_le : ∀ x, x < 256 + n → x ∉ s.mintree → ∀ y ∈ s.mintree, klt s.htree x y
  mono_p : ∀ x y, x < 256 + n → y < 256 + n → x ∉ s.mintree → y ∉ s.mintree →
    klt s.htree x y → (s.htree x).p ≤ (s.htree y).p
  ksum : ∀ j, 256 ≤ j → j < 256 + n →
    (s.htree j).k = (s.htree (s.htree j).l).k + (s.htree (s.htree j).r).k
  kmono : ∀ j j2, 256 ≤ j → j ≤ j2 → j2 < 256 + n → (s.htree j).k ≤ (s.htree j2).k

/-! ## The bit stream of an archive -/

/-- The codes of the bytes of the input, one after the other. -/
def code_stream (hcode : Nat → code_t) : List (Fin 256) → List Nat
  | [] => []
  | c :: rest => code_bits (hcode c.val) ++ code_stream hcode rest

/-- The state of the encode loop with block size `bs` once the bits `all`
have been written: `out` holds the packed bytes flushed so far, the cursor
stands on bit number `all.length` of the stream, and the block holds the
packed bytes that follow `out`, zero past the last bit. -/
structure enc_inv (bs : Nat) (all : List Nat) (e : enc_state) : Prop where
  out_eq : e.out = (List.range e.out.length).map (pack_byte all)
  out_le : e.out.length ≤ all.length / 8
  cur_ptr : e.cur.ptr = all.length / 8 - e.out.length
  cur_pos : e.cur.pos = all.length % 8
  ptr_lt : e.cur.ptr < bs
  buf_eq : ∀ j, e.buf j = pack_byte all (e.out.length + j)

/-- The table of counts of an input: how often each byte value occurs. -/
def input_counts (S : List (Fin 256)) : Nat → Nat := fun b => (S.map Fin.val).count b

/-! ## The decoder on a bit list -/

/-- The bits of a byte list in the order `read_bit` returns them: bit
`i mod 8` of byte `i / 8`. -/
def bits_of (bytes : List Nat) : List Nat :=
  (List.range (8 * bytes.length)).map (fun i => bytes.getD (i / 8) 0 / 2 ^ (i % 8) % 2)

/-- The decode loop of `extract` run over a list of bits: the body of the
inner loop for every bit, as long as neither the declared length has been
reached nor a node outside the array has been read. -/
def decode_list (htree : Nat → node_t) (fsize : Int) : List Nat → dec_state → dec_state
  | [], d => d
  | b :: bs, d =>
    if fsize ≤ (d.tsize : Int) ∨ d.fault = true then d
    else if TSIZE ≤ d.v then { d with fault := true }
    else
      let v := if b = 0 then (htree d.v).l else (htree d.v).r
      if sshort v < 256 then
        if ((d.tsize + 1 : Nat) : Int) ≥ fsize then
          decode_list htree fsize bs ⟨v, d.tsize + 1, d.out ++ [v % 256], d.fault⟩
        else
          decode_list htree fsize bs ⟨TSIZE - 1, d.tsize + 1, d.out ++ [v % 256], d.fault⟩
      else
        decode_list htree fsize bs { d with v := v }

/-! ## Truncated archives, block-free packing, touched bytes -/

/-- The number of leading bytes of the input whose codes lie completely
inside the first `n` bits of the code stream. -/
def symbols_within (hcode : Nat → code_t) : List (Fin 256) → Nat → Nat
  | [], _ => 0
  | c :: rest, n =>
    if (code_bits (hcode c.val)).length ≤ n then
      symbols_within hcode rest (n - (code_bits (hcode c.val)).length) + 1
    else 0

/-- The payload as the spec words it: the whole bit stream packed with
`write_bit` into one unbounded zero-filled buffer, of which the bytes up to
the last one that holds a bit are written. -/
def unbounded_payload (bits : List Nat) : List Nat :=
  (List.range
      (if (write_bits (fun _ => 0) ⟨0, 0⟩ bits).2.pos > 0
        then (write_bits (fun _ => 0) ⟨0, 0⟩ bits).2.ptr + 1
        else (write_bits (fun _ => 0) ⟨0, 0⟩ bits).2.ptr)).map
    (write_bits (fun _ => 0) ⟨0, 0⟩ bits).1

/-- The byte offsets that `n` successive calls of `write_bit` (or of
`read_bit`) dereference, starting at the cursor `c`. -/
def touched_bytes : cursor → Nat → List Nat
  | _, 0 => []
  | c, n + 1 => c.ptr :: touched_bytes (advance c) n

/-! ## The builder step by step -/

/-- The globals when `n` passes of the builder loop are done for the table
`cnt`, that is when node `256 + n` is about to be built. -/
def build_state (cnt : Nat → Nat) (n : Nat) : tree_state :=
  build_loop n ⟨table_htree cnt, fill_set (table_htree cnt) 256⟩

/-- What holds of the choices made in `n` passes of the builder loop: the
left child of every node built comes, in comparator order, before every
node of smaller index that had no parent yet when the node was built, the
right child before every such node but the left child, and the left child
before the right child. -/
structure greedy_inv (n : Nat) (s : tree_state) : Prop where
  least : ∀ j, 256 ≤ j → j < 256 + n → ∀ x, x < j →
    (x ∈ s.mintree ∨ j ≤ (s.htree x).p) →
      x = (s.htree j).l ∨ klt s.htree (s.htree j).l x
  second : ∀ j, 256 ≤ j → j < 256 + n → ∀ x, x < j →
    (x ∈ s.mintree ∨ j ≤ (s.htree x).p) → x ≠ (s.htree j).l →
      x = (s.htree j).r ∨ klt s.htree (s.htree j).r x
  lr : ∀ j, 256 ≤ j → j < 256 + n → klt s.htree (s.htree j).l (s.htree j).r

/-- The sum of the counts of the leaves below node `v`, following the
child links; the first argument bounds the depth. -/
def subtree_count (htree : Nat → node_t) (cnt : Nat → Nat) : Nat → Nat → Nat
  | 0, _ => 0
  | fuel + 1, v =>
    if v < 256 then cnt v
    else subtree_count htree cnt fuel (htree v).l + subtree_count htree cnt fuel (htree v).r

/-! ## The flat table -/

/-- The weight of node `x`, in units of the common count, in the tree of a
table whose 256 counts are equal: 1 on the leaves and doubling from one
level of internal nodes to the next. -/
def flat_mult (x : Nat) : Nat :=
  if x < 256 then 1 else if x < 384 then 2 else if x < 448 then 4 else if x < 480 then 8
  else if x < 496 then 16 else if x < 504 then 32 else if x < 508 then 64
  else if x < 510 then 128 else 256

/-- What holds after `n` passes of the builder loop on a table whose 256
counts are all `c`: the set holds the nodes `2 n .. 255 + n` in index order,
node `x` weighs `c * flat_mult x`, and node `256 + j` has the children `2 j`
and `2 j + 1`. -/
structure flat_inv (c : Nat) (n : Nat) (s : tree_state) : Prop where
  mt : s.mintree = List.range' (2 * n) (256 - n)
  wt : ∀ x, x < 256 + n → (s.htree x).k = c * flat_mult x
  lr : ∀ j, j < n → (s.htree (256 + j)).l = 2 * j ∧ (s.htree (256 + j)).r = 2 * j + 1

/-! ## Weighted code length -/

/-- The weighted code length of a table of counts under a family of code
lengths: the sum over the 256 symbols of count times length. -/
def weighted_length (cnt : Nat → Nat) (len : Nat → Nat) : Nat :=
  ∑ s ∈ Finset.range 256, cnt s * len s

/-- A binary code with a word of 256 bits for every symbol: bit `s` set
and the others clear. -/
def one_hot_code (s : Nat) : List Bool := (List.range 256).map (fun i => decide (i = s))

/-! ## The block the encode loop starts on -/

/-- A byte list with the content `buf0` of a block of `bs` bytes put under
its first `bs` bytes with `|`. -/
def or_block (bs : Nat) (buf0 : Nat → Nat) (l : List Nat) : List Nat :=
  (List.range l.length).map
    (fun j => if j < bs then (l.getD j 0 ||| buf0 j) % 256 else l.getD j 0)

/-- The encode loop started on the block `buf0` (state `e2`) next to the
loop started on a zeroed block (state `e1`), after the same passes: the
cursors agree; before the first flush the block of `e2` is the block of `e1`
with `buf0` under it; after it the blocks agree and the bytes written agree
but for `buf0` under the first block. -/
structure enc_sim (bs : Nat) (buf0 : Nat → Nat) (e1 e2 : enc_state) : Prop where
  cur : e2.cur = e1.cur
  ptr_lt : e1.cur.ptr < bs
  fresh : e1.out = [] → e2.out = [] ∧ ∀ j, e2.buf j = (e1.buf j ||| buf0 j) % 256
  flushed : e1.out ≠ [] →
    bs ≤ e1.out.length ∧ e2.out = or_block bs buf0 e1.out ∧ ∀ j, e2.buf j = e1.buf j

/-- An input of 262144 bytes in which every byte value occurs 1024 times:
1023 times the bytes 0, 1, .., 255, then 16, .., 255, then 0, .., 15.  Its
byte number 262128 is 0. -/
def spill_input : List (Fin 256) :=
  (List.replicate 1023 (List.finRange 256)).flatten
    ++ ((List.finRange 256).drop 16 ++ (List.finRange 256).take 16)

/-- The input `spill_input` with 128 in the place of its byte number
262128. -/
def spill_output : List (Fin 256) :=
  (List.replicate 1023 (List.finRange 256)).flatten
    ++ ((List.finRange 256).drop 16 ++ (128 :: ((List.finRange 256).take 16).tail))

end Haffman

namespace Haffman

/-! ## Bit primitives: lemmas -/

theorem advance_cursor_at (n : Nat) : advance (cursor_at n) = cursor_at (n + 1) := by
  unfold advance cursor_at
  simp only []
  split
  · have h1 : (n + 1) / 8 = n / 8 + 1 := by omega
    have h2 : (n + 1) % 8 = 0 := by omega
    rw [h1, h2]
  · have h1 : (n + 1) / 8 = n / 8 := by omega
    have h2 : (n + 1) % 8 = n % 8 + 1 := by omega
    rw [h1, h2]

theorem read_bit_value (x pos : Nat) : (x &&& (1 <<< pos)) >>> pos = x / 2 ^ pos % 2 := by
  rw [Nat.one_shiftLeft, Nat.and_two_pow, Nat.shiftRight_eq_div_pow]
  have hp : 0 < 2 ^ pos := Nat.two_pow_pos pos
  rw [Nat.mul_div_cancel _ hp, Nat.testBit_to_div_mod]
  rcases Nat.mod_two_eq_zero_or_one (x / 2 ^ pos) with h | h <;> simp [h]

set_option maxRecDepth 100000 in
theorem write_bit_value : ∀ pos < 8, ∀ x < 2 ^ pos, ∀ b < 2,
    (x ||| (b <<< pos)) % 256 = x + b * 2 ^ pos := by decide

theorem getD_snoc (pre : List Nat) (b : Nat) (i : Nat) :
    (pre ++ [b]).getD i 0 = if i = pre.length then b else pre.getD i 0 := by
  rcases Nat.lt_trichotomy i pre.length with h | h | h
  · rw [List.getD_append _ _ _ _ h, if_neg (by omega)]
  · subst h; simp
  · rw [if_neg (by omega), List.getD_eq_default _ _ (by simp; omega),
      List.getD_eq_default _ _ (by omega)]

theorem getD_le_one (bits : List Nat) (h : ∀ b ∈ bits, b ≤ 1) (i : Nat) :
    bits.getD i 0 ≤ 1 := by
  by_cases hi : i < bits.length
  · rw [List.getD_eq_getElem _ _ hi]; exact h _ (List.getElem_mem _)
  · rw [List.getD_eq_default _ _ (by omega)]; omega

theorem pack_byte_lt (bits : List Nat) (h : ∀ b ∈ bits, b ≤ 1) (j : Nat) :
    pack_byte bits j < 256 := by
  unfold pack_byte
  have h0 := getD_le_one bits h (8 * j)
  have h1 := getD_le_one bits h (8 * j + 1)
  have h2 := getD_le_one bits h (8 * j + 2)
  have h3 := getD_le_one bits h (8 * j + 3)
  have h4 := getD_le_one bits h (8 * j + 4)
  have h5 := getD_le_one bits h (8 * j + 5)
  have h6 := getD_le_one bits h (8 * j + 6)
  have h7 := getD_le_one bits h (8 * j + 7)
  omega

theorem pack_byte_nil (j : Nat) : pack_byte [] j = 0 := by
  simp [pack_byte]

theorem pack_byte_beyond (bits : List Nat) (j : Nat) (h : bits.length ≤ 8 * j) :
    pack_byte bits j = 0 := by
  unfold pack_byte
  rw [List.getD_eq_default _ _ (by omega), List.getD_eq_default _ _ (by omega),
    List.getD_eq_default _ _ (by omega), List.getD_eq_default _ _ (by omega),
    List.getD_eq_default _ _ (by omega), List.getD_eq_default _ _ (by omega),
    List.getD_eq_default _ _ (by omega), List.getD_eq_default _ _ (by omega)]

/-- The bit `8 * q + r` of the packing is the bit of the list. -/
theorem pack_byte_bit (bits : List Nat) (h : ∀ b ∈ bits, b ≤ 1) (q r : Nat) (hr : r < 8) :
    pack_byte bits q / 2 ^ r % 2 = bits.getD (8 * q + r) 0 := by
  have h0 := getD_le_one bits h (8 * q)
  have h1 := getD_le_one bits h (8 * q + 1)
  have h2 := getD_le_one bits h (8 * q + 2)
  have h3 := getD_le_one bits h (8 * q + 3)
  have h4 := getD_le_one bits h (8 * q + 4)
  have h5 := getD_le_one bits h (8 * q + 5)
  have h6 := getD_le_one bits h (8 * q + 6)
  have h7 := getD_le_one bits h (8 * q + 7)
  unfold pack_byte
  interval_cases r <;> (try simp only [Nat.add_zero, Nat.pow_zero, Nat.div_one]) <;> omega

/-- Appending one bit changes only the byte the bit falls into. -/
theorem pack_byte_snoc (pre : List Nat) (b : Nat) (j : Nat) :
    pack_byte (pre ++ [b]) j =
      if j = pre.length / 8 then pack_byte pre j + b * 2 ^ (pre.length % 8)
      else pack_byte pre j := by
  obtain ⟨q, r, hr, hn⟩ : ∃ q r, r < 8 ∧ pre.length = 8 * q + r :=
    ⟨pre.length / 8, pre.length % 8, Nat.mod_lt _ (by decide), by omega⟩
  have hq : pre.length / 8 = q := by omega
  have hrr : pre.length % 8 = r := by omega
  rw [hq, hrr]
  unfold pack_byte
  simp only [getD_snoc, hn]
  by_cases hj : j = q
  · subst hj
    rw [if_pos rfl]
    have e0 : pre.getD (8 * j + r) 0 = 0 := List.getD_eq_default _ _ (by omega)
    interval_cases r <;> simp at e0 ⊢ <;> omega
  · rw [if_neg hj]
    have hne : ∀ i, i < 8 → ¬ (8 * j + i = 8 * q + r) := fun i hi => by omega
    have h0 := hne 0 (by decide)
    rw [Nat.add_zero] at h0
    simp only [h0, hne 1 (by decide), hne 2 (by decide), hne 3 (by decide), hne 4 (by decide),
      hne 5 (by decide), hne 6 (by decide), hne 7 (by decide), if_false]

/-- The byte a bit is about to be written into holds only the lower bits. -/
theorem pack_byte_low (pre : List Nat) (h : ∀ b ∈ pre, b ≤ 1) :
    pack_byte pre (pre.length / 8) < 2 ^ (pre.length % 8) := by
  obtain ⟨q, r, hr, hn⟩ : ∃ q r, r < 8 ∧ pre.length = 8 * q + r :=
    ⟨pre.length / 8, pre.length % 8, Nat.mod_lt _ (by decide), by omega⟩
  have hq : pre.length / 8 = q := by omega
  have hrr : pre.length % 8 = r := by omega
  rw [hq, hrr]
  have h0 := getD_le_one pre h (8 * q)
  have h1 := getD_le_one pre h (8 * q + 1)
  have h2 := getD_le_one pre h (8 * q + 2)
  have h3 := getD_le_one pre h (8 * q + 3)
  have h4 := getD_le_one pre h (8 * q + 4)
  have h5 := getD_le_one pre h (8 * q + 5)
  have h6 := getD_le_one pre h (8 * q + 6)
  have h7 := getD_le_one pre h (8 * q + 7)
  have z : ∀ i, r ≤ i → pre.getD (8 * q + i) 0 = 0 :=
    fun i hi => List.getD_eq_default _ _ (by omega)
  have z0 : r ≤ 0 → pre.getD (8 * q) 0 = 0 := z 0
  have z1 := z 1; have z2 := z 2; have z3 := z 3
  have z4 := z 4; have z5 := z 5; have z6 := z 6; have z7 := z 7
  unfold pack_byte
  interval_cases r <;> omega

end Haffman

namespace Haffman

/-- One `write_bit` on a block that holds the packing of `pre` from byte
`off` on adds the bit to the packing. -/
theorem write_bit_pack (pre : List Nat) (hpre : ∀ b ∈ pre, b ≤ 1) (b : Nat) (hb : b ≤ 1)
    (off : Nat) (hoff : off ≤ pre.length / 8) (m : Nat → Nat)
    (hm : ∀ j, m j = pack_byte pre (off + j)) (j : Nat) :
    (write_bit m ⟨pre.length / 8 - off, pre.length % 8⟩ b).1 j
      = pack_byte (pre ++ [b]) (off + j) := by
  unfold write_bit
  simp only []
  rw [pack_byte_snoc]
  by_cases hj : j = pre.length / 8 - off
  · have e : off + j = pre.length / 8 := by omega
    rw [if_pos hj, if_pos e, hm j, e]
    exact write_bit_value _ (Nat.mod_lt _ (by decide)) _ (pack_byte_low pre hpre) b
      (by omega)
  · rw [if_neg hj, if_neg (by omega), hm j]

theorem write_bit_cursor (m : Nat → Nat) (c : cursor) (b : Nat) :
    (write_bit m c b).2 = advance c := rfl

theorem read_bit_cursor (m : Nat → Nat) (c : cursor) :
    (read_bit m c).2 = advance c := rfl

theorem read_bit_fst (m : Nat → Nat) (c : cursor) :
    (read_bit m c).1 = m c.ptr / 2 ^ c.pos % 2 := by
  unfold read_bit
  exact read_bit_value _ _

theorem read_bit_le_one (m : Nat → Nat) (c : cursor) : (read_bit m c).1 ≤ 1 := by
  rw [read_bit_fst]; omega

theorem cursor_at_zero : cursor_at 0 = ⟨0, 0⟩ := rfl

/-- Writing the bits `bs` after the bits `pre` gives the packing of
`pre ++ bs`. -/
theorem write_bits_pack (bs : List Nat) : ∀ (pre : List Nat) (m : Nat → Nat),
    (∀ b ∈ pre, b ≤ 1) → (∀ b ∈ bs, b ≤ 1) → (∀ j, m j = pack_byte pre j) →
    (∀ j, (write_bits m (cursor_at pre.length) bs).1 j = pack_byte (pre ++ bs) j) ∧
    (write_bits m (cursor_at pre.length) bs).2 = cursor_at (pre.length + bs.length) := by
  induction bs with
  | nil =>
    intro pre m _ _ hm
    simp only [write_bits, List.append_nil, List.length_nil, Nat.add_zero]
    exact ⟨hm, trivial⟩
  | cons b bs ih =>
    intro pre m hpre hbs hm
    have hb : b ≤ 1 := hbs b (List.mem_cons_self _ _)
    have hbs2 : ∀ x ∈ bs, x ≤ 1 := fun x hx => hbs x (List.mem_cons_of_mem _ hx)
    have hpre2 : ∀ x ∈ pre ++ [b], x ≤ 1 := by
      intro x hx
      rcases List.mem_append.1 hx with h | h
      · exact hpre x h
      · rw [List.mem_singleton.1 h]; exact hb
    have hm2 : ∀ j, (write_bit m (cursor_at pre.length) b).1 j = pack_byte (pre ++ [b]) j := by
      intro j
      have := write_bit_pack pre hpre b hb 0 (Nat.zero_le _) m (by simpa using hm) j
      simpa [cursor_at] using this
    have hc : (write_bit m (cursor_at pre.length) b).2 = cursor_at ((pre ++ [b]).length) := by
      rw [write_bit_cursor, advance_cursor_at]; simp
    have := ih (pre ++ [b]) _ hpre2 hbs2 hm2
    simp only [write_bits]
    rw [hc]
    simpa [List.append_assoc, Nat.add_assoc, Nat.add_comm 1] using this

/-- Reading `n` bits from bit number `a` of a packed list returns its bits
`a .. a + n - 1`. -/
theorem read_bits_pack (bits : List Nat) (hbits : ∀ b ∈ bits, b ≤ 1) (m : Nat → Nat)
    (hm : ∀ j, m j = pack_byte bits j) : ∀ (n a : Nat),
    read_bits m n (cursor_at a)
      = ((List.range n).map (fun i => bits.getD (a + i) 0), cursor_at (a + n)) := by
  intro n
  induction n with
  | zero => intro a; simp [read_bits]
  | succ n ih =>
    intro a
    have hv : (read_bit m (cursor_at a)).1 = bits.getD a 0 := by
      rw [read_bit_fst]
      simp only [cursor_at]
      rw [hm, pack_byte_bit bits hbits _ _ (Nat.mod_lt _ (by decide))]
      congr 1
      omega
    simp only [read_bits, read_bit_cursor, advance_cursor_at, ih, hv]
    rw [List.range_succ_eq_map]
    simp only [List.map_cons, List.map_map, Nat.add_zero]
    refine Prod.ext ?_ ?_
    · simp only [List.cons.injEq, true_and]
      apply List.map_congr_left
      intro i _
      simp only [Function.comp, Nat.succ_eq_add_one]
      congr 1
      omega
    · simp only []
      congr 1
      omega

theorem map_getD_range (bits : List Nat) :
    (List.range bits.length).map (fun i => bits.getD (0 + i) 0) = bits := by
  apply List.ext_getElem
  · simp
  · intro i h1 h2
    simp only [List.getElem_map, List.getElem_range, Nat.zero_add]
    exact List.getD_eq_getElem _ _ h2

/-- C7. Bit primitive symmetry: writing a sequence of bits with `write_bit`
into a zero-filled buffer from cursor (0, 0) and reading as many bits back
with `read_bit` from cursor (0, 0) returns the sequence; bit `i` sits in byte
`i / 8` at position `i mod 8` (position 7 included, every byte being an
8-bit pattern), and both cursors end at `(N / 8, N mod 8)`. -/
theorem C7_bit_primitive_symmetry (bits : List Nat) (h : ∀ b ∈ bits, b ≤ 1) :
    read_bits (write_bits (fun _ => 0) ⟨0, 0⟩ bits).1 bits.length ⟨0, 0⟩
        = (bits, ⟨bits.length / 8, bits.length % 8⟩)
      ∧ (write_bits (fun _ => 0) ⟨0, 0⟩ bits).2 = ⟨bits.length / 8, bits.length % 8⟩
      ∧ (∀ i, i < bits.length →
          (write_bits (fun _ => 0) ⟨0, 0⟩ bits).1 (i / 8) / 2 ^ (i % 8) % 2 = bits.getD i 0)
      ∧ (∀ j, (write_bits (fun _ => 0) ⟨0, 0⟩ bits).1 j < 256) := by
  have hw := write_bits_pack bits [] (fun _ => 0) (by simp) h
    (fun j => (pack_byte_nil j).symm)
  simp only [List.length_nil, cursor_at_zero, List.nil_append, Nat.zero_add] at hw
  obtain ⟨hw1, hw2⟩ := hw
  refine ⟨?_, ?_, ?_, ?_⟩
  · have hr := read_bits_pack bits h _ hw1 bits.length 0
    rw [cursor_at_zero, map_getD_range] at hr
    rw [hr]; simp [cursor_at]
  · rw [hw2]; rfl
  · intro i _
    rw [hw1, pack_byte_bit bits h _ _ (Nat.mod_lt _ (by decide))]
    congr 1
    omega
  · intro j
    rw [hw1]
    exact pack_byte_lt bits h j

/-- C7 at the nine bits 1,0,1,1,0,0,0,1,1 (the eighth goes to position 7). -/
theorem C7_bit_primitive_symmetry_witness :
    read_bits (write_bits (fun _ => 0) ⟨0, 0⟩ [1, 0, 1, 1, 0, 0, 0, 1, 1]).1
          [1, 0, 1, 1, 0, 0, 0, 1, 1].length ⟨0, 0⟩
        = ([1, 0, 1, 1, 0, 0, 0, 1, 1],
            ⟨[1, 0, 1, 1, 0, 0, 0, 1, 1].length / 8, [1, 0, 1, 1, 0, 0, 0, 1, 1].length % 8⟩)
      ∧ (write_bits (fun _ => 0) ⟨0, 0⟩ [1, 0, 1, 1, 0, 0, 0, 1, 1]).2
        = ⟨[1, 0, 1, 1, 0, 0, 0, 1, 1].length / 8, [1, 0, 1, 1, 0, 0, 0, 1, 1].length % 8⟩
      ∧ (∀ i, i < [1, 0, 1, 1, 0, 0, 0, 1, 1].length →
          (write_bits (fun _ => 0) ⟨0, 0⟩ [1, 0, 1, 1, 0, 0, 0, 1, 1]).1 (i / 8) / 2 ^ (i % 8) % 2
            = [1, 0, 1, 1, 0, 0, 0, 1, 1].getD i 0)
      ∧ (∀ j, (write_bits (fun _ => 0) ⟨0, 0⟩ [1, 0, 1, 1, 0, 0, 0, 1, 1]).1 j < 256) :=
  C7_bit_primitive_symmetry [1, 0, 1, 1, 0, 0, 0, 1, 1] (by decide)

end Haffman

namespace Haffman

/-! ## Frequency table -/

theorem incr_k_lt (k : Int → Nat) (hk : ∀ a, k a < 2 ^ 64) (c a : Int) :
    incr_k k c a < 2 ^ 64 := by
  unfold incr_k
  split
  · exact Nat.mod_lt _ (by decide)
  · exact hk a

theorem count_subscripts_eq (S : List (Fin 256)) :
    count_subscripts S = S.map (fun c => (c.val : Int)) ++ [EOF] := by
  induction S with
  | nil => rfl
  | cons c rest ih => simp [count_subscripts, ih]

/-- The counting loop adds to each element the number of times its
subscript was used, modulo `2 ^ 64`. -/
theorem count_loop_apply (S : List (Fin 256)) : ∀ (k : Int → Nat), (∀ a, k a < 2 ^ 64) →
    ∀ a, count_loop S k a = (k a + (count_subscripts S).count a) % 2 ^ 64 := by
  induction S with
  | nil =>
    intro k hk a
    simp only [count_loop, count_subscripts, incr_k]
    by_cases h : a = EOF
    · subst h; simp
    · have : ¬ (EOF = a) := fun e => h e.symm
      rw [if_neg h]
      have e : List.count a [EOF] = 0 := by simp [List.count_cons, this]
      rw [e, Nat.add_zero, Nat.mod_eq_of_lt (hk a)]
  | cons c rest ih =>
    intro k hk a
    simp only [count_loop, count_subscripts]
    rw [ih _ (incr_k_lt k hk _)]
    unfold incr_k
    by_cases h : a = (c.val : Int)
    · subst h
      simp only [if_true, List.count_cons_self]
      omega
    · have : ¬ ((c.val : Int) = a) := fun e => h e.symm
      rw [if_neg h]
      simp [List.count_cons, this]

theorem count_subscripts_count_nat (S : List (Fin 256)) (b : Nat) :
    (count_subscripts S).count (b : Int) = (S.map Fin.val).count b := by
  induction S with
  | nil =>
    simp only [count_subscripts, List.map_nil, List.count_nil, EOF]
    rw [List.count_eq_zero]
    simp only [List.mem_singleton]
    omega
  | cons c rest ih =>
    simp only [count_subscripts, List.map_cons, List.count_cons, ih]
    congr 1
    by_cases h : c.val = b
    · simp [h]
    · have : ¬ ((c.val : Int) = (b : Int)) := by omega
      simp [h, this]

theorem count_subscripts_count_eof (S : List (Fin 256)) :
    (count_subscripts S).count EOF = 1 := by
  induction S with
  | nil => simp [count_subscripts]
  | cons c rest ih =>
    have : ¬ ((c.val : Int) = EOF) := by unfold EOF; omega
    simp [count_subscripts, List.count_cons, ih, this]

/-- The weights after the counting loop: the occurrence counts modulo
`2 ^ 64` on the leaves. -/
theorem counted_htree_k (S : List (Fin 256)) (i : Nat) :
    (counted_htree S i).k = (S.map Fin.val).count i % 2 ^ 64 := by
  unfold counted_htree
  simp only []
  rw [count_loop_apply S _ (fun _ => by decide), count_subscripts_count_nat]
  simp

theorem count_map_val_ge (S : List (Fin 256)) (i : Nat) (hi : 256 ≤ i) :
    (S.map Fin.val).count i = 0 := by
  rw [List.count_eq_zero]
  intro h
  obtain ⟨c, _, hc⟩ := List.mem_map.1 h
  have := c.isLt
  omega

/-- After the counting loop `htree` holds the table of occurrence counts. -/
theorem counted_htree_eq (S : List (Fin 256)) :
    counted_htree S = table_htree (fun b => (S.map Fin.val).count b) := by
  funext i
  have hk := counted_htree_k S i
  unfold table_htree
  unfold counted_htree at hk ⊢
  simp only [] at hk ⊢
  rw [hk]
  by_cases hi : i < 256
  · rw [if_pos hi]
  · rw [if_neg hi, count_map_val_ge S i (by omega), Nat.zero_mod]

/-- C8 (what the code does). After the counting loop the leaf weights are
the occurrence counts and `ftell` gives the length, both as 64-bit values;
but the pass that reads `EOF` runs `++htree[-1].k`: the last subscript used
is `-1`, outside `0..255`, and the element `htree[-1].k`, which is not one
of the 256 leaf weights, has been incremented. -/
theorem C8_count_loop_uses_eof_subscript (S : List (Fin 256)) :
    (∀ b, b < 256 → (counted_htree S b).k = (S.map Fin.val).count b % 2 ^ 64)
      ∧ ftell_end S = S.length % 2 ^ 64
      ∧ count_subscripts S = S.map (fun c => (c.val : Int)) ++ [-1]
      ∧ count_loop S (fun _ => 0) (-1) = 1 := by
  refine ⟨fun b _ => counted_htree_k S b, rfl, count_subscripts_eq S, ?_⟩
  rw [count_loop_apply S _ (fun _ => by decide)]
  have := count_subscripts_count_eof S
  unfold EOF at this
  rw [this]
  rfl

/-- C8 at the empty input: the only pass of the loop increments
`htree[-1].k`. -/
theorem C8_empty_input :
    count_subscripts [] = [-1] ∧ count_loop [] (fun _ => 0) (-1) = 1
      ∧ ∀ b : Nat, count_loop [] (fun _ => 0) (b : Int) = 0 := by
  refine ⟨rfl, rfl, ?_⟩
  intro b
  simp only [count_loop, incr_k, EOF]
  rw [if_neg (by omega)]

end Haffman

namespace Haffman

/-! ## The comparator and the ordered set -/

theorem setcomp_iff (ht : Nat → node_t) (a b : Nat) : setcomp ht a b = true ↔ klt ht a b := by
  unfold setcomp klt
  split
  · rename_i h
    simp only [decide_eq_true_eq]
    constructor
    · intro h1; exact Or.inl h1
    · rintro (h1 | ⟨h1, _⟩)
      · exact h1
      · exact absurd h1 h
  · rename_i h
    simp only [ne_eq, Decidable.not_not] at h
    simp only [decide_eq_true_eq]
    constructor
    · intro h1; exact Or.inr ⟨h, h1⟩
    · rintro (h1 | ⟨_, h1⟩)
      · omega
      · exact h1

theorem klt_irrefl (ht : Nat → node_t) (a : Nat) : ¬ klt ht a a := by
  unfold klt; omega

theorem klt_asymm (ht : Nat → node_t) {a b : Nat} (h : klt ht a b) : ¬ klt ht b a := by
  unfold klt at *; omega

theorem klt_trans (ht : Nat → node_t) {a b c : Nat} (h1 : klt ht a b) (h2 : klt ht b c) :
    klt ht a c := by
  unfold klt at *; omega

theorem klt_total (ht : Nat → node_t) (a b : Nat) : klt ht a b ∨ a = b ∨ klt ht b a := by
  unfold klt; omega

theorem klt_le (ht : Nat → node_t) {a b : Nat} (h : klt ht a b) : (ht a).k ≤ (ht b).k := by
  unfold klt at h; omega

theorem klt_congr (h h2 : Nat → node_t) (a b : Nat) (ha : (h2 a).k = (h a).k)
    (hb : (h2 b).k = (h b).k) : klt h2 a b ↔ klt h a b := by
  unfold klt; rw [ha, hb]

theorem set_insert_mem (ht : Nat → node_t) (x : Nat) (m : List Nat) (y : Nat) :
    y ∈ set_insert ht x m ↔ y = x ∨ y ∈ m := by
  induction m with
  | nil => simp [set_insert]
  | cons z zs ih =>
    unfold set_insert
    split
    · simp
    · rename_i h1
      split
      · simp only [List.mem_cons, ih]
        constructor
        · rintro (h | h | h)
          · exact Or.inr (Or.inl h)
          · exact Or.inl h
          · exact Or.inr (Or.inr h)
        · rintro (h | h | h)
          · exact Or.inr (Or.inl h)
          · exact Or.inl h
          · exact Or.inr (Or.inr h)
      · rename_i h2
        have e : x = z := by
          rcases klt_total ht x z with h | h | h
          · exact absurd ((setcomp_iff _ _ _).2 h) h1
          · exact h
          · exact absurd ((setcomp_iff _ _ _).2 h) h2
        subst e
        simp

theorem set_insert_sorted (ht : Nat → node_t) (x : Nat) (m : List Nat)
    (hm : m.Pairwise (klt ht)) : (set_insert ht x m).Pairwise (klt ht) := by
  induction m with
  | nil => simp [set_insert]
  | cons z zs ih =>
    unfold set_insert
    have hz := List.pairwise_cons.1 hm
    split
    · rename_i h1
      have h1 := (setcomp_iff _ _ _).1 h1
      refine List.pairwise_cons.2 ⟨?_, hm⟩
      intro y hy
      rcases List.mem_cons.1 hy with h | h
      · rw [h]; exact h1
      · exact klt_trans ht h1 (hz.1 y h)
    · split
      · rename_i h2
        have h2 := (setcomp_iff _ _ _).1 h2
        refine List.pairwise_cons.2 ⟨?_, ih hz.2⟩
        intro y hy
        rcases (set_insert_mem ht x zs y).1 hy with h | h
        · rw [h]; exact h2
        · exact hz.1 y h
      · exact hm

theorem set_insert_perm (ht : Nat → node_t) (x : Nat) (m : List Nat) (hx : x ∉ m) :
    (set_insert ht x m).Perm (x :: m) := by
  induction m with
  | nil => simp [set_insert]
  | cons z zs ih =>
    have hxz : x ≠ z := fun e => hx (by rw [e]; exact List.mem_cons_self _ _)
    have hxzs : x ∉ zs := fun h => hx (List.mem_cons_of_mem _ h)
    unfold set_insert
    split
    · exact List.Perm.refl _
    · rename_i h1
      split
      · exact ((ih hxzs).cons z).trans (List.Perm.swap x z zs)
      · rename_i h2
        exfalso
        rcases klt_total ht x z with h | h | h
        · exact h1 ((setcomp_iff _ _ _).2 h)
        · exact hxz h
        · exact h2 ((setcomp_iff _ _ _).2 h)

theorem set_insert_length (ht : Nat → node_t) (x : Nat) (m : List Nat) (hx : x ∉ m) :
    (set_insert ht x m).length = m.length + 1 := by
  rw [(set_insert_perm ht x m hx).length_eq]; rfl

/-- The set after the leaves were inserted: in order, and holding exactly
the indices below `n`. -/
theorem fill_set_spec (ht : Nat → node_t) (n : Nat) :
    (fill_set ht n).Pairwise (klt ht) ∧ (fill_set ht n).length = n ∧
      (∀ x, x ∈ fill_set ht n ↔ x < n) ∧ (fill_set ht n).Perm (List.range n) := by
  induction n with
  | zero => simp [fill_set]
  | succ n ih =>
    obtain ⟨h1, h2, h3, h4⟩ := ih
    have hn : n ∉ fill_set ht n := fun h => Nat.lt_irrefl _ ((h3 n).1 h)
    refine ⟨set_insert_sorted ht n _ h1, ?_, ?_, ?_⟩
    · simp only [fill_set]; rw [set_insert_length ht n _ hn, h2]
    · intro x
      simp only [fill_set]
      rw [set_insert_mem, h3]
      omega
    · simp only [fill_set]
      rw [List.range_succ]
      refine (set_insert_perm ht n _ hn).trans ?_
      refine (List.Perm.cons n h4).trans ?_
      exact (List.perm_append_singleton n (List.range n)).symm

/-! ## One pass of the builder: the fields afterwards -/

theorem build_step_mintree (i : Nat) (s : tree_state) :
    (build_step i s).mintree
      = set_insert (build_step i s).htree i s.mintree.tail.tail := rfl

theorem build_step_k (i : Nat) (s : tree_state) (a : Nat) :
    ((build_step i s).htree a).k =
      if a = i then ((s.htree (s.mintree.headD 0)).k + (s.htree (s.mintree.tail.headD 0)).k) % 2 ^ 64
      else (s.htree a).k := by
  simp only [build_step, set_node]
  split_ifs <;> simp_all

theorem build_step_l (i : Nat) (s : tree_state) (a : Nat) :
    ((build_step i s).htree a).l = if a = i then s.mintree.headD 0 else (s.htree a).l := by
  simp only [build_step, set_node]
  split_ifs <;> simp_all

theorem build_step_r (i : Nat) (s : tree_state) (a : Nat) :
    ((build_step i s).htree a).r = if a = i then s.mintree.tail.headD 0 else (s.htree a).r := by
  simp only [build_step, set_node]
  split_ifs <;> simp_all

theorem build_step_p (i : Nat) (s : tree_state) (a : Nat) :
    ((build_step i s).htree a).p =
      if a = s.mintree.headD 0 ∨ a = s.mintree.tail.headD 0 then i else (s.htree a).p := by
  simp only [build_step, set_node]
  split_ifs <;> simp_all

end Haffman

namespace Haffman

/-! ## The builder loop keeps the links well formed -/

theorem tree_inv_init (h0 : Nat → node_t) : tree_inv h0 0 ⟨h0, fill_set h0 256⟩ := by
  obtain ⟨f1, f2, f3, _⟩ := fill_set_spec h0 256
  generalize fill_set h0 256 = m at f1 f2 f3
  refine ⟨f1, by rw [f2], ?_, ?_, ?_, ?_, ?_, ?_, ?_⟩
  · intro x hx; exact (f3 x).1 hx
  · intro h; exact absurd h (Nat.lt_irrefl 0)
  · intro x hx hnx; exact absurd ((f3 x).2 hx) hnx
  · intro j h1 h2; omega
  · intro x _; rfl
  · intro x _; rfl
  · intro a b _ hb _ hnb; exact absurd ((f3 b).2 hb) hnb

/-- The facts about one pass that the invariants are proved from. -/
theorem build_step_facts (i l r : Nat) (m2 : List Nat) (s : tree_state)
    (hmt : s.mintree = l :: r :: m2) :
    (∀ a, a ≠ i → ((build_step i s).htree a).k = (s.htree a).k)
    ∧ ((build_step i s).htree i).k = ((s.htree l).k + (s.htree r).k) % 2 ^ 64
    ∧ (∀ a, a ≠ i → ((build_step i s).htree a).l = (s.htree a).l)
    ∧ ((build_step i s).htree i).l = l
    ∧ (∀ a, a ≠ i → ((build_step i s).htree a).r = (s.htree a).r)
    ∧ ((build_step i s).htree i).r = r
    ∧ (∀ a, a ≠ l → a ≠ r → ((build_step i s).htree a).p = (s.htree a).p)
    ∧ ((build_step i s).htree l).p = i
    ∧ ((build_step i s).htree r).p = i
    ∧ (∀ y, y ∈ (build_step i s).mintree ↔ y = i ∨ y ∈ m2)
    ∧ (build_step i s).mintree = set_insert (build_step i s).htree i m2 := by
  have e1 : s.mintree.headD 0 = l := by rw [hmt]; rfl
  have e2 : s.mintree.tail.headD 0 = r := by rw [hmt]; rfl
  have e3 : s.mintree.tail.tail = m2 := by rw [hmt]; rfl
  refine ⟨?_, ?_, ?_, ?_, ?_, ?_, ?_, ?_, ?_, ?_, ?_⟩
  · intro a ha; rw [build_step_k, if_neg ha]
  · rw [build_step_k, if_pos rfl, e1, e2]
  · intro a ha; rw [build_step_l, if_neg ha]
  · rw [build_step_l, if_pos rfl, e1]
  · intro a ha; rw [build_step_r, if_neg ha]
  · rw [build_step_r, if_pos rfl, e2]
  · intro a h1 h2; rw [build_step_p, e1, e2, if_neg (by simp [h1, h2])]
  · rw [build_step_p, e1, if_pos (Or.inl rfl)]
  · rw [build_step_p, e2, if_pos (Or.inr rfl)]
  · intro y; rw [build_step_mintree, e3, set_insert_mem]
  · rw [build_step_mintree, e3]

theorem tree_inv_two (h0 : Nat → node_t) (n : Nat) (s : tree_state) (hn : n < 255)
    (inv : tree_inv h0 n s) : ∃ l r m2, s.mintree = l :: r :: m2 := by
  have hlen := inv.len
  rcases hmt : s.mintree with _ | ⟨l, _ | ⟨r, m2⟩⟩
  · rw [hmt] at hlen; simp at hlen; omega
  · rw [hmt] at hlen; simp at hlen; omega
  · exact ⟨l, r, m2, rfl⟩

theorem tree_inv_step (h0 : Nat → node_t) (n : Nat) (s : tree_state) (hn : n < 255)
    (inv : tree_inv h0 n s) : tree_inv h0 (n + 1) (build_step (256 + n) s) := by
  obtain ⟨l, r, m2, hmt⟩ := tree_inv_two h0 n s hn inv
  obtain ⟨hk, -, hL, hLi, hR, hRi, hP, hPl, hPr, hmem, hmt2⟩ :=
    build_step_facts (256 + n) l r m2 s hmt
  have hsorted := inv.sorted
  rw [hmt] at hsorted
  obtain ⟨hl_all, hsorted2⟩ := List.pairwise_cons.1 hsorted
  obtain ⟨hr_all, hsorted3⟩ := List.pairwise_cons.1 hsorted2
  have hlr : klt s.htree l r := hl_all r (List.mem_cons_self _ _)
  have hlm : ∀ y ∈ m2, klt s.htree l y := fun y hy => hl_all y (List.mem_cons_of_mem _ hy)
  have hl : l < 256 + n := inv.mem_lt l (by rw [hmt]; simp)
  have hr : r < 256 + n := inv.mem_lt r (by rw [hmt]; simp)
  have hm2lt : ∀ y ∈ m2, y < 256 + n := fun y hy => inv.mem_lt y (by rw [hmt]; simp [hy])
  have hne : l ≠ r := fun e => klt_irrefl s.htree l (by rw [e] at hlr ⊢; exact hlr)
  have hl2 : l ∉ m2 := fun h => klt_irrefl s.htree l (hlm l h)
  have hr2 : r ∉ m2 := fun h => klt_irrefl s.htree r (hr_all r h)
  have hi2 : 256 + n ∉ m2 := fun h => Nat.lt_irrefl _ (hm2lt _ h)
  have hin : ∀ x, x ∈ s.mintree ↔ x = l ∨ x = r ∨ x ∈ m2 := by
    intro x; rw [hmt]; simp
  have hklt : ∀ a b, a ≠ 256 + n → b ≠ 256 + n →
      (klt (build_step (256 + n) s).htree a b ↔ klt s.htree a b) :=
    fun a b ha hb => klt_congr _ _ a b (hk a ha) (hk b hb)
  refine ⟨?_, ?_, ?_, ?_, ?_, ?_, ?_, ?_, ?_⟩
  · -- sorted
    rw [hmt2]
    apply set_insert_sorted
    refine hsorted3.imp_of_mem ?_
    intro a b ha hb hab
    exact (hklt a b (fun e => hi2 (e ▸ ha)) (fun e => hi2 (e ▸ hb))).2 hab
  · -- len
    rw [hmt2, set_insert_length _ _ _ hi2]
    have := inv.len
    rw [hmt] at this
    simp at this
    omega
  · -- mem_lt
    intro x hx
    rcases (hmem x).1 hx with h | h
    · omega
    · have := hm2lt x h; omega
  · -- top
    intro _
    exact (hmem _).2 (Or.inl (by omega))
  · -- par
    intro x hx hnx
    have hxi : x ≠ 256 + n := fun e => hnx ((hmem x).2 (Or.inl e))
    have hxm : x ∉ m2 := fun h => hnx ((hmem x).2 (Or.inr h))
    by_cases hxl : x = l
    · subst hxl
      rw [hPl, hLi]
      exact ⟨by omega, by omega, hl, Or.inl rfl⟩
    by_cases hxr : x = r
    · subst hxr
      rw [hPr, hRi]
      exact ⟨by omega, by omega, hr, Or.inr rfl⟩
    have hxs : x ∉ s.mintree := by rw [hin]; simp [hxl, hxr, hxm]
    obtain ⟨p1, p2, p3, p4⟩ := inv.par x (by omega) hxs
    rw [hP x hxl hxr, hL _ (by omega), hR _ (by omega)]
    exact ⟨p1, by omega, p3, p4⟩
  · -- kids
    intro j hj1 hj2
    by_cases hji : j = 256 + n
    · subst hji
      rw [hLi, hRi, hPl, hPr]
      refine ⟨hl, hr, hne, ?_, ?_, rfl, rfl⟩
      · intro h; rcases (hmem l).1 h with h | h
        · omega
        · exact hl2 h
      · intro h; rcases (hmem r).1 h with h | h
        · omega
        · exact hr2 h
    · obtain ⟨k1, k2, k3, k4, k5, k6, k7⟩ := inv.kids j hj1 (by omega)
      rw [hL j hji, hR j hji]
      have k4a := (not_congr (hin _)).1 k4
      have k5a := (not_congr (hin _)).1 k5
      simp only [not_or] at k4a k5a
      refine ⟨k1, k2, k3, ?_, ?_, ?_, ?_⟩
      · intro h; rcases (hmem _).1 h with h | h
        · omega
        · exact k4a.2.2 h
      · intro h; rcases (hmem _).1 h with h | h
        · omega
        · exact k5a.2.2 h
      · rw [hP _ k4a.1 k4a.2.1]; exact k6
      · rw [hP _ k5a.1 k5a.2.1]; exact k7
  · -- pkeep
    intro x hx
    have hx1 : x ≠ l := by
      rintro rfl
      rcases hx with h | h
      · rcases (hmem _).1 h with h | h
        · omega
        · exact hl2 h
      · omega
    have hx2 : x ≠ r := by
      rintro rfl
      rcases hx with h | h
      · rcases (hmem _).1 h with h | h
        · omega
        · exact hr2 h
      · omega
    rw [hP x hx1 hx2]
    apply inv.pkeep
    rcases hx with h | h
    · rcases (hmem _).1 h with h | h
      · right; omega
      · left; rw [hin]; exact Or.inr (Or.inr h)
    · right; omega
  · -- kkeep
    intro x hx
    rw [hk x (by omega)]
    apply inv.kkeep
    omega
  · -- order
    intro a b ha hb hab hnb
    have hai : a ≠ 256 + n := by omega
    have hbi : b ≠ 256 + n := by omega
    have hab2 : klt s.htree a b := (hklt a b hai hbi).1 hab
    have hbm : b ∉ m2 := fun h => hnb ((hmem b).2 (Or.inr h))
    have hnotin : ∀ x, x ≠ 256 + n → x ∉ m2 → x ∉ (build_step (256 + n) s).mintree := by
      intro x h1 h2 h
      rcases (hmem x).1 h with h | h
      · exact h1 h
      · exact h2 h
    by_cases hbl : b = l
    · subst hbl
      have has : a ∉ s.mintree := by
        rw [hin]
        rintro (h | h | h)
        · subst h; exact klt_irrefl _ _ hab2
        · subst h; exact klt_asymm _ hab2 hlr
        · exact klt_asymm _ hab2 (hlm a h)
      have has2 := (not_congr (hin a)).1 has
      simp only [not_or] at has2
      refine ⟨hnotin a hai has2.2.2, Or.inl ?_⟩
      rw [hPl, hP a has2.1 has2.2.1]
      exact (inv.par a (by omega) has).2.1
    by_cases hbr : b = r
    · subst hbr
      by_cases hal : a = l
      · subst hal
        refine ⟨hnotin a hai hl2, Or.inr ?_⟩
        rw [hPl, hPr, hLi, hRi]
        exact ⟨rfl, rfl, rfl⟩
      · have has : a ∉ s.mintree := by
          rw [hin]
          rintro (h | h | h)
          · exact hal h
          · subst h; exact klt_irrefl _ _ hab2
          · exact klt_asymm _ hab2 (hr_all a h)
        have has2 := (not_congr (hin a)).1 has
        simp only [not_or] at has2
        refine ⟨hnotin a hai has2.2.2, Or.inl ?_⟩
        rw [hPr, hP a has2.1 has2.2.1]
        exact (inv.par a (by omega) has).2.1
    · have hbs : b ∉ s.mintree := by rw [hin]; simp [hbl, hbr, hbm]
      obtain ⟨o1, o2⟩ := inv.order a b ha hb hab2 hbs
      have o1a := (not_congr (hin a)).1 o1
      simp only [not_or] at o1a
      refine ⟨hnotin a hai o1a.2.2, ?_⟩
      rw [hP a o1a.1 o1a.2.1, hP b hbl hbr]
      have pa := (inv.par a (by omega) o1).2.1
      have pb := (inv.par b (by omega) hbs).2.1
      rw [hL _ (by omega), hR _ (by omega)]
      exact o2

theorem tree_inv_loop (h0 : Nat → node_t) (n : Nat) (hn : n ≤ 255) :
    tree_inv h0 n (build_loop n ⟨h0, fill_set h0 256⟩) := by
  induction n with
  | zero => exact tree_inv_init h0
  | succ n ih => exact tree_inv_step h0 n _ (by omega) (ih (by omega))

theorem tree_inv_build (h0 : Nat → node_t) : tree_inv h0 255 (build h0) :=
  tree_inv_loop h0 255 (Nat.le_refl _)

theorem build_mintree (h0 : Nat → node_t) : (build h0).mintree = [510] := by
  have inv := tree_inv_build h0
  have hlen := inv.len
  have htop := inv.top (by decide)
  rcases hmt : (build h0).mintree with _ | ⟨a, _ | ⟨b, m⟩⟩
  · rw [hmt] at hlen; simp at hlen
  · rw [hmt] at htop; simp at htop; rw [← htop]
  · rw [hmt] at hlen; simp at hlen

/-- At every pass of the builder loop the set holds `256 - n` elements,
two at least: `*mintree.begin()` is never taken of an empty set. -/
theorem mintree_length (h0 : Nat → node_t) (n : Nat) (hn : n < 255) :
    2 ≤ (build_loop n ⟨h0, fill_set h0 256⟩).mintree.length := by
  have := (tree_inv_loop h0 n (by omega)).len
  omega

end Haffman

namespace Haffman

/-! ## The finished tree -/

/-- The links of the finished tree. -/
theorem build_links (h0 : Nat → node_t) :
    (∀ x, x < 510 → 256 ≤ ((build h0).htree x).p ∧ ((build h0).htree x).p ≤ 510
        ∧ x < ((build h0).htree x).p
        ∧ (((build h0).htree ((build h0).htree x).p).l = x
            ∨ ((build h0).htree ((build h0).htree x).p).r = x))
    ∧ (∀ j, 256 ≤ j → j ≤ 510 → ((build h0).htree j).l < j ∧ ((build h0).htree j).r < j
        ∧ ((build h0).htree j).l ≠ ((build h0).htree j).r
        ∧ ((build h0).htree ((build h0).htree j).l).p = j
        ∧ ((build h0).htree ((build h0).htree j).r).p = j)
    ∧ ((build h0).htree 510).p = (h0 510).p := by
  have inv := tree_inv_build h0
  have hm := build_mintree h0
  refine ⟨?_, ?_, ?_⟩
  · intro x hx
    have := inv.par x (by omega) (by rw [hm]; simp; omega)
    exact ⟨this.1, by omega, this.2.2.1, this.2.2.2⟩
  · intro j h1 h2
    have := inv.kids j h1 (by omega)
    exact ⟨this.1, this.2.1, this.2.2.1, this.2.2.2.2.2.1, this.2.2.2.2.2.2⟩
  · exact inv.pkeep 510 (Or.inl (by rw [hm]; simp))

theorem table_htree_root (cnt : Nat → Nat) : (table_htree cnt 510).p = 510 := rfl

/-- Following parent links from any node reaches the root. -/
theorem parent_chain (ht : Nat → node_t)
    (hp : ∀ x, x < 510 → x < (ht x).p ∧ (ht x).p ≤ 510) :
    ∀ n x, x ≤ 510 → 510 - x ≤ n → ∃ d, d ≤ 510 - x ∧ (fun y => (ht y).p)^[d] x = 510 := by
  intro n
  induction n with
  | zero =>
    intro x h1 h2
    exact ⟨0, Nat.zero_le _, by simp; omega⟩
  | succ n ih =>
    intro x h1 h2
    by_cases hx : x = 510
    · exact ⟨0, Nat.zero_le _, by simp [hx]⟩
    · have := hp x (by omega)
      obtain ⟨d, hd1, hd2⟩ := ih (ht x).p this.2 (by omega)
      refine ⟨d + 1, by omega, ?_⟩
      rw [Function.iterate_succ_apply]
      exact hd2

/-- C4. Tree completeness: in the tree built from any table of 256 counts,
every node 0..509 is a child of exactly one internal node 256..510, which
is the node its parent link names; every internal node has two different
children, both of smaller index; node 510 is nobody's child and is its own
parent; and the parent links lead from every node to node 510. -/
theorem C4_tree_completeness (cnt : Nat → Nat) :
    (∀ x, x < 510 →
        ∃! j, (256 ≤ j ∧ j ≤ 510) ∧ ((built cnt j).l = x ∨ (built cnt j).r = x))
    ∧ (∀ x, x < 510 → 256 ≤ (built cnt x).p ∧ (built cnt x).p ≤ 510
        ∧ x < (built cnt x).p
        ∧ ((built cnt (built cnt x).p).l = x ∨ (built cnt (built cnt x).p).r = x))
    ∧ (∀ j, 256 ≤ j → j ≤ 510 →
        (built cnt j).l < j ∧ (built cnt j).r < j ∧ (built cnt j).l ≠ (built cnt j).r)
    ∧ (∀ j, 256 ≤ j → j ≤ 510 → (built cnt j).l ≠ 510 ∧ (built cnt j).r ≠ 510)
    ∧ (built cnt 510).p = 510
    ∧ (∀ x, x ≤ 510 → ∃ d, d ≤ 510 - x ∧ (fun y => (built cnt y).p)^[d] x = 510) := by
  obtain ⟨hpar, hkids, hroot⟩ := build_links (table_htree cnt)
  unfold built
  refine ⟨?_, hpar, ?_, ?_, ?_, ?_⟩
  · intro x hx
    have hx2 := hpar x hx
    refine ⟨_, ⟨⟨hx2.1, hx2.2.1⟩, hx2.2.2.2⟩, ?_⟩
    rintro j ⟨⟨h1, h2⟩, h3⟩
    have hj := hkids j h1 h2
    rcases h3 with h3 | h3
    · rw [← h3]; exact hj.2.2.2.1.symm
    · rw [← h3]; exact hj.2.2.2.2.symm
  · intro j h1 h2
    have hj := hkids j h1 h2
    exact ⟨hj.1, hj.2.1, hj.2.2.1⟩
  · intro j h1 h2
    have hj := hkids j h1 h2
    constructor
    · have := hj.1; omega
    · have := hj.2.1; omega
  · exact hroot
  · intro x hx
    exact parent_chain _ (fun y hy => ⟨(hpar y hy).2.2.1, (hpar y hy).2.1⟩) (510 - x) x hx
      (Nat.le_refl _)

end Haffman

namespace Haffman

/-! ## Code table -/

theorem build_linked (h0 : Nat → node_t) : linked (build h0).htree :=
  ⟨(build_links h0).1, (build_links h0).2.1⟩

theorem built_linked (cnt : Nat → Nat) : linked (built cnt) := build_linked _

theorem TSIZE_pred : TSIZE - 1 = 510 := rfl

theorem write_bits_append (a b : List Nat) : ∀ (m : Nat → Nat) (c : cursor),
    write_bits m c (a ++ b) = write_bits (write_bits m c a).1 (write_bits m c a).2 b := by
  induction a with
  | nil => intro m c; rfl
  | cons x xs ih => intro m c; rw [List.cons_append]; simp only [write_bits]; exact ih _ _

theorem path_bits_le_one (ht : Nat → node_t) : ∀ fuel v, ∀ b ∈ path_bits ht fuel v, b ≤ 1 := by
  intro fuel
  induction fuel with
  | zero => intro v b hb; simp [path_bits] at hb
  | succ fuel ih =>
    intro v b hb
    simp only [path_bits] at hb
    split at hb
    · simp at hb
    · rcases List.mem_append.1 hb with h | h
      · exact ih _ b h
      · rw [List.mem_singleton.1 h]; split <;> omega

theorem depth_eq_length (ht : Nat → node_t) : ∀ fuel v,
    depth ht fuel v = (path_bits ht fuel v).length := by
  intro fuel
  induction fuel with
  | zero => intro v; rfl
  | succ fuel ih =>
    intro v
    simp only [depth, path_bits]
    split
    · rfl
    · simp [ih]

/-- With enough fuel the bits of a path do not depend on the fuel. -/
theorem path_bits_fuel (ht : Nat → node_t) (hl : linked ht) : ∀ f1 f2 v, v ≤ 510 →
    510 - v < f1 → 510 - v < f2 → path_bits ht f1 v = path_bits ht f2 v := by
  intro f1
  induction f1 with
  | zero => intro f2 v _ h; omega
  | succ f1 ih =>
    intro f2 v hv h1 h2
    cases f2 with
    | zero => omega
    | succ f2 =>
      simp only [path_bits, TSIZE_pred]
      by_cases h : v = 510
      · rw [if_pos h, if_pos h]
      · rw [if_neg h, if_neg h]
        have := hl.par v (by omega)
        rw [ih f2 (ht v).p this.2.1 (by omega) (by omega)]

theorem path_bits_root (ht : Nat → node_t) (fuel : Nat) : path_bits ht fuel 510 = [] := by
  cases fuel with
  | zero => rfl
  | succ fuel => simp [path_bits, TSIZE_pred]

theorem path_bits_succ (ht : Nat → node_t) (fuel v : Nat) :
    path_bits ht (fuel + 1) v
      = if v = 510 then []
        else path_bits ht fuel (ht v).p ++ [if (ht (ht v).p).l = v then 0 else 1] := rfl

/-- A node below the root has the path of its parent followed by its own
bit. -/
theorem path_bits_step (ht : Nat → node_t) (hl : linked ht) (v : Nat) (hv : v < 510) :
    path_bits ht TSIZE v
      = path_bits ht TSIZE (ht v).p ++ [if (ht (ht v).p).l = v then 0 else 1] := by
  have hp := hl.par v hv
  have e : TSIZE = 510 + 1 := rfl
  rw [e, path_bits_succ, if_neg (by omega)]
  rw [path_bits_fuel ht hl 510 (510 + 1) _ hp.2.1 (by omega) (by omega)]

/-- The function `hcode_rec` returns when the fuel exceeds the number of
nodes above `v`, having written the path bits of `v` and counted them. -/
theorem hcode_rec_eq (ht : Nat → node_t) (hl : linked ht) : ∀ fuel v (s : code_cur),
    v ≤ 510 → 510 - v < fuel →
    hcode_rec ht fuel v s
      = some ⟨(write_bits s.c s.cur (path_bits ht fuel v)).1,
              (write_bits s.c s.cur (path_bits ht fuel v)).2,
              s.k + ((path_bits ht fuel v).length : Int)⟩ := by
  intro fuel
  induction fuel with
  | zero => intro v s _ h; omega
  | succ fuel ih =>
    intro v s hv hf
    simp only [hcode_rec, path_bits, TSIZE_pred]
    by_cases h : v = 510
    · rw [if_pos h, if_pos h]
      simp [write_bits]
    · rw [if_neg h, if_neg h]
      have hp := hl.par v (by omega)
      rw [ih (ht v).p s hp.2.1 (by omega)]
      simp only [write_bits_append, write_bits, List.length_append, List.length_singleton]
      congr 2
      push_cast
      omega

theorem walk_append (ht : Nat → node_t) (a b : List Nat) : ∀ v,
    walk ht v (a ++ b) = walk ht (walk ht v a) b := by
  induction a with
  | nil => intro v; rfl
  | cons x xs ih => intro v; rw [List.cons_append]; simp only [walk]; exact ih _

theorem walk_nodes_append (ht : Nat → node_t) (a b : List Nat) : ∀ v,
    walk_nodes ht v (a ++ b) = walk_nodes ht v a ++ walk_nodes ht (walk ht v a) b := by
  induction a with
  | nil => intro v; rfl
  | cons x xs ih =>
    intro v; rw [List.cons_append]; simp only [walk_nodes, walk, List.cons_append]; rw [ih]

/-- Walking down from the root along the path bits of `v` stands on
internal nodes only and ends on `v`. -/
theorem walk_path (ht : Nat → node_t) (hl : linked ht) : ∀ n v, v ≤ 510 → 510 - v ≤ n →
    walk ht 510 (path_bits ht TSIZE v) = v ∧
      ∀ u ∈ walk_nodes ht 510 (path_bits ht TSIZE v), 256 ≤ u ∧ u ≤ 510 := by
  intro n
  induction n with
  | zero =>
    intro v hv h
    have e : v = 510 := by omega
    subst e
    rw [path_bits_root]
    exact ⟨rfl, by simp [walk_nodes]⟩
  | succ n ih =>
    intro v hv h
    by_cases e : v = 510
    · subst e
      rw [path_bits_root]
      exact ⟨rfl, by simp [walk_nodes]⟩
    · have hp := hl.par v (by omega)
      obtain ⟨w1, w2⟩ := ih (ht v).p hp.2.1 (by omega)
      rw [path_bits_step ht hl v (by omega), walk_append, walk_nodes_append, w1]
      constructor
      · simp only [walk]
        rcases hp.2.2.2 with h1 | h1
        · rw [if_pos h1, if_pos rfl]; exact h1
        · by_cases h2 : (ht (ht v).p).l = v
          · rw [if_pos h2, if_pos rfl]; exact h2
          · rw [if_neg h2, if_neg (by decide)]; exact h1
      · intro u hu
        rcases List.mem_append.1 hu with h1 | h1
        · exact w2 u h1
        · simp only [walk_nodes, List.mem_singleton] at h1
          rw [h1]; exact ⟨hp.1, hp.2.1⟩

/-- Following as many parent links as the path has bits leads to the root. -/
theorem depth_iterate (ht : Nat → node_t) (hl : linked ht) : ∀ n v, v ≤ 510 → 510 - v ≤ n →
    (fun y => (ht y).p)^[(path_bits ht TSIZE v).length] v = 510 := by
  intro n
  induction n with
  | zero =>
    intro v hv h
    have e : v = 510 := by omega
    subst e
    rw [path_bits_root]; rfl
  | succ n ih =>
    intro v hv h
    by_cases e : v = 510
    · subst e
      rw [path_bits_root]; rfl
    · have hp := hl.par v (by omega)
      rw [path_bits_step ht hl v (by omega), List.length_append, List.length_singleton,
        Function.iterate_succ_apply]
      exact ih (ht v).p hp.2.1 (by omega)

theorem path_bits_pos (ht : Nat → node_t) (hl : linked ht) (v : Nat) (hv : v < 510) :
    0 < (path_bits ht TSIZE v).length := by
  rw [path_bits_step ht hl v hv]; simp

/-- The table `precalc` computes: the code of every symbol below `n`. -/
theorem precalc_eq (ht : Nat → node_t) (hl : linked ht) : ∀ n, n ≤ 256 →
    precalc ht n = some (fun a => if a < n then code_of ht a else hcode_zero a) := by
  intro n
  induction n with
  | zero => intro _; simp [precalc]
  | succ n ih =>
    intro hn
    simp only [precalc]
    rw [ih (by omega)]
    simp only [Nat.lt_irrefl, if_false, hcode_zero]
    rw [hcode_rec_eq ht hl TSIZE n _ (by omega) (by unfold TSIZE; omega)]
    simp only [Option.some.injEq]
    funext a
    by_cases h1 : a = n
    · subst h1
      rw [if_pos rfl, if_pos (by omega)]
      simp [code_of]
    · rw [if_neg h1]
      by_cases h2 : a < n
      · rw [if_pos h2, if_pos (by omega)]
      · rw [if_neg h2, if_neg (by omega)]

/-- Reading a code back gives the bits of the path. -/
theorem code_bits_code_of (ht : Nat → node_t) (s : Nat) :
    code_bits (code_of ht s) = path_bits ht TSIZE s := by
  unfold code_bits code_of
  simp only [Int.toNat_ofNat]
  have hb := path_bits_le_one ht TSIZE s
  have hw := write_bits_pack (path_bits ht TSIZE s) [] (fun _ => 0) (by simp) hb
    (fun j => (pack_byte_nil j).symm)
  simp only [List.length_nil, cursor_at_zero, List.nil_append] at hw
  have hr := read_bits_pack (path_bits ht TSIZE s) hb _ hw.1 (path_bits ht TSIZE s).length 0
  rw [cursor_at_zero, map_getD_range] at hr
  rw [hr]

/-- C5. Code table validity: for every table of 256 counts `precalc`
returns, and for every symbol `s` the code `hcode[s]` is not empty, its
length `k` is the depth of leaf `s` (the number of parent links up to node
510), its `k` bits read in order are zeros and ones, and walking from node
510, left on 0 and right on 1, stands on internal nodes at every bit and
ends on leaf `s`. -/
theorem C5_code_table_validity (cnt : Nat → Nat) (s : Nat) (hs : s < 256) :
    ∃ hcode, precalc (built cnt) 256 = some hcode
      ∧ 0 < (hcode s).k
      ∧ (hcode s).k = (depth (built cnt) TSIZE s : Int)
      ∧ (code_bits (hcode s)).length = depth (built cnt) TSIZE s
      ∧ (fun y => (built cnt y).p)^[depth (built cnt) TSIZE s] s = 510
      ∧ (∀ b ∈ code_bits (hcode s), b = 0 ∨ b = 1)
      ∧ walk (built cnt) 510 (code_bits (hcode s)) = s
      ∧ (∀ u ∈ walk_nodes (built cnt) 510 (code_bits (hcode s)), 256 ≤ u ∧ u ≤ 510) := by
  have hl := built_linked cnt
  refine ⟨_, precalc_eq _ hl 256 (Nat.le_refl _), ?_⟩
  simp only [if_pos hs, code_bits_code_of, depth_eq_length]
  have hw := walk_path _ hl (510 - s) s (by omega) (Nat.le_refl _)
  have hpos := path_bits_pos _ hl s (by omega)
  refine ⟨?_, rfl, trivial, ?_, ?_, hw.1, hw.2⟩
  · simp only [code_of]; exact_mod_cast hpos
  · exact depth_iterate _ hl (510 - s) s (by omega) (Nat.le_refl _)
  · intro b hb
    have := path_bits_le_one _ _ _ b hb
    omega

/-- C5 for the all-zero table and the symbol 65. -/
theorem C5_code_table_validity_witness :
    ∃ hcode, precalc (built (fun _ => 0)) 256 = some hcode
      ∧ 0 < (hcode 65).k
      ∧ (hcode 65).k = (depth (built (fun _ => 0)) TSIZE 65 : Int)
      ∧ (code_bits (hcode 65)).length = depth (built (fun _ => 0)) TSIZE 65
      ∧ (fun y => (built (fun _ => 0) y).p)^[depth (built (fun _ => 0)) TSIZE 65] 65 = 510
      ∧ (∀ b ∈ code_bits (hcode 65), b = 0 ∨ b = 1)
      ∧ walk (built (fun _ => 0)) 510 (code_bits (hcode 65)) = 65
      ∧ (∀ u ∈ walk_nodes (built (fun _ => 0)) 510 (code_bits (hcode 65)), 256 ≤ u ∧ u ≤ 510) :=
  C5_code_table_validity (fun _ => 0) 65 (by decide)

end Haffman

namespace Haffman

/-! ## Tie-break -/

theorem built_leaf_k (cnt : Nat → Nat) (a : Nat) (ha : a < 256) :
    (built cnt a).k = cnt a % 2 ^ 64 := by
  have := (tree_inv_build (table_htree cnt)).kkeep a (Or.inl ha)
  unfold built
  rw [this]
  simp [table_htree, ha]

/-- Leaves leave the set in comparator order: of two leaves the one that
comes first in the order gets a parent of smaller index, or the same parent
with the first as left child and the second as right child. -/
theorem built_leaf_order (cnt : Nat → Nat) (a b : Nat) (ha : a < 256) (hb : b < 256)
    (hab : klt (built cnt) a b) :
    (built cnt a).p < (built cnt b).p ∨
      ((built cnt a).p = (built cnt b).p ∧ (built cnt (built cnt a).p).l = a
        ∧ (built cnt (built cnt b).p).r = b) := by
  have inv := tree_inv_build (table_htree cnt)
  have hm := build_mintree (table_htree cnt)
  exact (inv.order a b ha hb hab (by rw [hm]; simp; omega)).2

/-- C6. Tie-break law: of two symbols `a < b` with equal count, `a` leaves
the priority set first: the parent of `a` has an index not above that of the
parent of `b`, and if they have the same parent then `a` is its left child
and `b` its right child. -/
theorem C6_tie_break (cnt : Nat → Nat) (a b : Nat) (hab : a < b) (hb : b < 256)
    (heq : cnt a = cnt b) :
    (built cnt a).p ≤ (built cnt b).p ∧
      ((built cnt a).p = (built cnt b).p →
        (built cnt (built cnt a).p).l = a ∧ (built cnt (built cnt b).p).r = b) := by
  have hk : klt (built cnt) a b := by
    right
    rw [built_leaf_k cnt a (by omega), built_leaf_k cnt b hb, heq]
    exact ⟨rfl, hab⟩
  rcases built_leaf_order cnt a b (by omega) hb hk with h | h
  · exact ⟨by omega, fun e => by omega⟩
  · exact ⟨by omega, fun _ => h.2⟩

/-- C6 for the symbols 97 and 98 of the all-zero table. -/
theorem C6_tie_break_witness :
    (built (fun _ => 0) 97).p ≤ (built (fun _ => 0) 98).p ∧
      ((built (fun _ => 0) 97).p = (built (fun _ => 0) 98).p →
        (built (fun _ => 0) (built (fun _ => 0) 97).p).l = 97
          ∧ (built (fun _ => 0) (built (fun _ => 0) 98).p).r = 98) :=
  C6_tie_break (fun _ => 0) 97 98 (by decide) (by decide) rfl

/-! ## Weights without wraparound -/

theorem weight_inv_init (h0 : Nat → node_t) :
    weight_inv ((List.range 256).map (fun x => (h0 x).k)).sum 0 ⟨h0, fill_set h0 256⟩ := by
  obtain ⟨_, _, f3, f4⟩ := fill_set_spec h0 256
  generalize fill_set h0 256 = m at f3 f4
  refine ⟨?_, ?_, ?_, ?_, ?_⟩
  · exact (f4.map _).sum_eq
  · intro x hx hnx; exact absurd ((f3 x).2 hx) hnx
  · intro x y hx _ hnx; exact absurd ((f3 x).2 hx) hnx
  · intro j h1 h2; omega
  · intro j j2 h1 h2 h3; omega

theorem weight_inv_step (h0 : Nat → node_t) (total : Nat) (htot : total < 2 ^ 64)
    (n : Nat) (s : tree_state) (hn : n < 255)
    (inv : tree_inv h0 n s) (w : weight_inv total n s) :
    weight_inv total (n + 1) (build_step (256 + n) s) := by
  obtain ⟨l, r, m2, hmt⟩ := tree_inv_two h0 n s hn inv
  obtain ⟨hk, hki, hL, hLi, hR, hRi, hP, hPl, hPr, hmem, hmt2⟩ :=
    build_step_facts (256 + n) l r m2 s hmt
  have hsorted := inv.sorted
  rw [hmt] at hsorted
  obtain ⟨hl_all, hsorted2⟩ := List.pairwise_cons.1 hsorted
  obtain ⟨hr_all, _⟩ := List.pairwise_cons.1 hsorted2
  have hlr : klt s.htree l r := hl_all r (List.mem_cons_self _ _)
  have hlm : ∀ y ∈ m2, klt s.htree l y := fun y hy => hl_all y (List.mem_cons_of_mem _ hy)
  have hl : l < 256 + n := inv.mem_lt l (by rw [hmt]; simp)
  have hr : r < 256 + n := inv.mem_lt r (by rw [hmt]; simp)
  have hm2lt : ∀ y ∈ m2, y < 256 + n := fun y hy => inv.mem_lt y (by rw [hmt]; simp [hy])
  have hl2 : l ∉ m2 := fun h => klt_irrefl s.htree l (hlm l h)
  have hr2 : r ∉ m2 := fun h => klt_irrefl s.htree r (hr_all r h)
  have hi2 : 256 + n ∉ m2 := fun h => Nat.lt_irrefl _ (hm2lt _ h)
  have hin : ∀ x, x ∈ s.mintree ↔ x = l ∨ x = r ∨ x ∈ m2 := by
    intro x; rw [hmt]; simp
  have hls : l ∈ s.mintree := (hin l).2 (Or.inl rfl)
  have hrs : r ∈ s.mintree := (hin r).2 (Or.inr (Or.inl rfl))
  have hklt : ∀ a b, a ≠ 256 + n → b ≠ 256 + n →
      (klt (build_step (256 + n) s).htree a b ↔ klt s.htree a b) :=
    fun a b ha hb => klt_congr _ _ a b (hk a ha) (hk b hb)
  have hsum := w.sum
  rw [hmt] at hsum
  simp only [List.map_cons, List.sum_cons] at hsum
  have hnowrap : ((build_step (256 + n) s).htree (256 + n)).k
      = (s.htree l).k + (s.htree r).k := by
    rw [hki]; apply Nat.mod_eq_of_lt; omega
  have hkl : ((build_step (256 + n) s).htree l).k = (s.htree l).k := hk l (by omega)
  have hkr : ((build_step (256 + n) s).htree r).k = (s.htree r).k := hk r (by omega)
  have hnotin : ∀ x, x ∉ (build_step (256 + n) s).mintree → x ≠ 256 + n ∧ x ∉ m2 :=
    fun x hx => ⟨fun e => hx ((hmem x).2 (Or.inl e)), fun h => hx ((hmem x).2 (Or.inr h))⟩
  have hnew : ∀ x, x < 256 + n → klt s.htree x l ∨ x = l ∨ x = r →
      klt (build_step (256 + n) s).htree x (256 + n) := by
    intro x hx hxl
    have hle : (s.htree x).k ≤ (s.htree l).k + (s.htree r).k := by
      rcases hxl with h | h | h
      · have := klt_le _ h; omega
      · rw [h]; omega
      · rw [h]; omega
    unfold klt
    rw [hnowrap, hk x (by omega)]
    omega
  refine ⟨?_, ?_, ?_, ?_, ?_⟩
  · -- sum
    rw [hmt2, ((set_insert_perm _ _ _ hi2).map _).sum_eq]
    simp only [List.map_cons, List.sum_cons]
    rw [hnowrap]
    have : m2.map (fun x => ((build_step (256 + n) s).htree x).k)
        = m2.map (fun x => (s.htree x).k) := by
      apply List.map_congr_left
      intro y hy
      exact hk y (fun e => hi2 (e ▸ hy))
    rw [this]
    omega
  · -- ext_le
    intro x hx hnx y hy
    obtain ⟨hxi, hxm⟩ := hnotin x hnx
    have hxlt : x < 256 + n := by omega
    have hxcase : klt s.htree x l ∨ x = l ∨ x = r := by
      by_cases h1 : x = l
      · exact Or.inr (Or.inl h1)
      by_cases h2 : x = r
      · exact Or.inr (Or.inr h2)
      left
      exact w.ext_le x hxlt (by rw [hin]; simp [h1, h2, hxm]) l hls
    rcases (hmem y).1 hy with h | h
    · rw [h]; exact hnew x hxlt hxcase
    · have hyi : y ≠ 256 + n := fun e => hi2 (e ▸ h)
      rw [hklt x y hxi hyi]
      rcases hxcase with h1 | h1 | h1
      · exact klt_trans _ h1 (hlm y h)
      · rw [h1]; exact hlm y h
      · rw [h1]; exact hr_all y h
  · -- mono_p
    intro x y hx hy hnx hny hxy
    obtain ⟨hxi, hxm⟩ := hnotin x hnx
    obtain ⟨hyi, hym⟩ := hnotin y hny
    have hxy2 := (hklt x y hxi hyi).1 hxy
    have hpx : ((build_step (256 + n) s).htree x).p ≤ 256 + n := by
      by_cases h1 : x = l
      · rw [h1, hPl]
      by_cases h2 : x = r
      · rw [h2, hPr]
      rw [hP x h1 h2]
      have := (inv.par x (by omega) (by rw [hin]; simp [h1, h2, hxm])).2.1
      omega
    by_cases h1 : y = l
    · rw [h1, hPl]; rw [h1] at hxy2; exact hpx
    by_cases h2 : y = r
    · rw [h2, hPr]; exact hpx
    have hys : y ∉ s.mintree := by rw [hin]; simp [h1, h2, hym]
    have hxs : x ∉ s.mintree := by
      intro h
      exact klt_asymm _ hxy2 (w.ext_le y (by omega) hys x h)
    have hxs2 := (not_congr (hin x)).1 hxs
    simp only [not_or] at hxs2
    rw [hP x hxs2.1 hxs2.2.1, hP y h1 h2]
    exact w.mono_p x y (by omega) (by omega) hxs hys hxy2
  · -- ksum
    intro j h1 h2
    by_cases hj : j = 256 + n
    · subst hj
      rw [hLi, hRi, hkl, hkr, hnowrap]
    · have kd := inv.kids j h1 (by omega)
      rw [hk j hj, hL j hj, hR j hj, hk _ (by omega), hk _ (by omega)]
      exact w.ksum j h1 (by omega)
  · -- kmono
    intro j j2 h1 h2 h3
    by_cases hj2 : j2 = 256 + n
    · subst hj2
      by_cases hj : j = 256 + n
      · rw [hj]
      · rw [hk j hj, hnowrap, w.ksum j h1 (by omega)]
        have kd := inv.kids j h1 (by omega)
        have e1 := klt_le _ (w.ext_le _ (by omega) kd.2.2.2.1 l hls)
        have e2 := klt_le _ (w.ext_le _ (by omega) kd.2.2.2.2.1 r hrs)
        omega
    · rw [hk j (by omega), hk j2 hj2]
      exact w.kmono j j2 h1 h2 (by omega)

theorem weight_inv_loop (h0 : Nat → node_t)
    (htot : ((List.range 256).map (fun x => (h0 x).k)).sum < 2 ^ 64) (n : Nat) (hn : n ≤ 255) :
    weight_inv ((List.range 256).map (fun x => (h0 x).k)).sum n
      (build_loop n ⟨h0, fill_set h0 256⟩) := by
  induction n with
  | zero => exact weight_inv_init h0
  | succ n ih =>
    exact weight_inv_step h0 _ htot n _ (by omega) (tree_inv_loop h0 n (by omega))
      (ih (by omega))

theorem table_total_le (cnt : Nat → Nat) :
    ((List.range 256).map (fun x => (table_htree cnt x).k)).sum ≤ total_count cnt := by
  unfold total_count
  apply List.sum_le_sum
  intro x hx
  have hx2 : x < 256 := List.mem_range.1 hx
  simp only [table_htree, if_pos hx2]
  exact Nat.mod_le _ _

theorem weight_inv_built (cnt : Nat → Nat) (htot : total_count cnt < 2 ^ 64) :
    weight_inv ((List.range 256).map (fun x => (table_htree cnt x).k)).sum 255
      (build (table_htree cnt)) :=
  weight_inv_loop _ (Nat.lt_of_le_of_lt (table_total_le cnt) htot) 255 (Nat.le_refl _)

end Haffman

namespace Haffman

/-! ## Code lengths and weights -/

theorem count_le_total (cnt : Nat → Nat) (a : Nat) (ha : a < 256) : cnt a ≤ total_count cnt := by
  unfold total_count
  apply List.single_le_sum (fun x _ => Nat.zero_le x)
  exact List.mem_map.2 ⟨a, List.mem_range.2 ha, rfl⟩

/-- Without wraparound the internal nodes get their parents in index
order. -/
theorem built_internal_mono (cnt : Nat → Nat) (htot : total_count cnt < 2 ^ 64) (i j : Nat)
    (hi : 256 ≤ i) (hij : i ≤ j) (hj : j < 510) :
    (built cnt i).p ≤ (built cnt j).p := by
  have w := weight_inv_built cnt htot
  have hm := build_mintree (table_htree cnt)
  by_cases e : i = j
  · rw [e]
  · have hk := w.kmono i j hi hij (by omega)
    apply w.mono_p i j (by omega) (by omega) (by rw [hm]; simp; omega) (by rw [hm]; simp; omega)
    unfold klt
    omega

/-- Without wraparound an internal node of larger index is not deeper. -/
theorem depth_internal_mono (cnt : Nat → Nat) (htot : total_count cnt < 2 ^ 64) :
    ∀ n i j, 256 ≤ i → i ≤ j → j ≤ 510 → 510 - i ≤ n →
      (path_bits (built cnt) TSIZE j).length ≤ (path_bits (built cnt) TSIZE i).length := by
  have hl := built_linked cnt
  intro n
  induction n with
  | zero =>
    intro i j hi hij hj h
    have e : i = j := by omega
    rw [e]
  | succ n ih =>
    intro i j hi hij hj h
    by_cases e : i = j
    · rw [e]
    by_cases e2 : j = 510
    · rw [e2, path_bits_root]; exact Nat.zero_le _
    have hpi := hl.par i (by omega)
    have hpj := hl.par j (by omega)
    rw [path_bits_step _ hl i (by omega), path_bits_step _ hl j (by omega)]
    simp only [List.length_append, List.length_singleton]
    have := ih (built cnt i).p (built cnt j).p hpi.1
      (built_internal_mono cnt htot i j hi hij (by omega)) hpj.2.1 (by omega)
    omega

/-- C10. Code lengths follow frequencies: when the counts add up to less
than `2 ^ 64` and symbol `a` has a larger count than symbol `b`, the code of
`a` is not longer than the code of `b`. -/
theorem C10_lengths_follow_counts (cnt : Nat → Nat) (htot : total_count cnt < 2 ^ 64)
    (a b : Nat) (ha : a < 256) (hb : b < 256) (hab : cnt b < cnt a) :
    ∃ hcode, precalc (built cnt) 256 = some hcode ∧ (hcode a).k ≤ (hcode b).k := by
  have hl := built_linked cnt
  refine ⟨_, precalc_eq _ hl 256 (Nat.le_refl _), ?_⟩
  simp only [if_pos ha, if_pos hb, code_of]
  have ha2 := count_le_total cnt a ha
  have hb2 := count_le_total cnt b hb
  have hk : klt (built cnt) b a := by
    left
    rw [built_leaf_k cnt a ha, built_leaf_k cnt b hb, Nat.mod_eq_of_lt (by omega),
      Nat.mod_eq_of_lt (by omega)]
    exact hab
  have hp : (built cnt b).p ≤ (built cnt a).p := by
    rcases built_leaf_order cnt b a hb ha hk with h | h <;> omega
  have hpa := hl.par a (by omega)
  have hpb := hl.par b (by omega)
  have hd := depth_internal_mono cnt htot (510 - (built cnt b).p) (built cnt b).p
    (built cnt a).p hpb.1 hp hpa.2.1 (Nat.le_refl _)
  rw [path_bits_step _ hl a (by omega), path_bits_step _ hl b (by omega)]
  simp only [List.length_append, List.length_singleton]
  exact_mod_cast Nat.succ_le_succ hd

set_option maxRecDepth 100000 in
/-- The table of counts of the input "aaaabbbccd". -/
theorem aaaabbbccd_total :
    total_count (fun x => ([97, 97, 97, 97, 98, 98, 98, 99, 99, 100] : List Nat).count x)
      < 2 ^ 64 := by
  have h : total_count (fun x => ([97, 97, 97, 97, 98, 98, 98, 99, 99, 100] : List Nat).count x)
      = 10 := by
    unfold total_count
    decide
  rw [h]; decide

/-- C10 at the counts of the input "aaaabbbccd" (a:4, b:3, c:2, d:1, all
others 0): `len(a) ≤ len(b) ≤ len(c) ≤ len(d)`. -/
theorem C10_lengths_follow_counts_witness :
    (∃ hcode,
        precalc (built (fun x => ([97, 97, 97, 97, 98, 98, 98, 99, 99, 100] : List Nat).count x))
          256 = some hcode ∧ (hcode 97).k ≤ (hcode 98).k)
    ∧ (∃ hcode,
        precalc (built (fun x => ([97, 97, 97, 97, 98, 98, 98, 99, 99, 100] : List Nat).count x))
          256 = some hcode ∧ (hcode 98).k ≤ (hcode 99).k)
    ∧ (∃ hcode,
        precalc (built (fun x => ([97, 97, 97, 97, 98, 98, 98, 99, 99, 100] : List Nat).count x))
          256 = some hcode ∧ (hcode 99).k ≤ (hcode 100).k) :=
  ⟨C10_lengths_follow_counts _ aaaabbbccd_total 97 98 (by decide) (by decide) (by decide),
   C10_lengths_follow_counts _ aaaabbbccd_total 98 99 (by decide) (by decide) (by decide),
   C10_lengths_follow_counts _ aaaabbbccd_total 99 100 (by decide) (by decide) (by decide)⟩

end Haffman

namespace Haffman

/-! ## Archive encoder -/

theorem pack_byte_snoc_ne (pre : List Nat) (b j : Nat) (hj : j ≠ pre.length / 8) :
    pack_byte (pre ++ [b]) j = pack_byte pre j := by
  rw [pack_byte_snoc, if_neg hj]

theorem map_pack_byte_snoc (pre : List Nat) (b L : Nat) (hL : L ≤ pre.length / 8) :
    (List.range L).map (pack_byte (pre ++ [b])) = (List.range L).map (pack_byte pre) := by
  apply List.map_congr_left
  intro j hj
  have := List.mem_range.1 hj
  exact pack_byte_snoc_ne pre b j (by omega)

theorem range_map_add (f : Nat → Nat) (L m : Nat) :
    (List.range L).map f ++ (List.range m).map (fun j => f (L + j))
      = (List.range (L + m)).map f := by
  rw [List.range_add, List.map_append, List.map_map]
  rfl

theorem enc_inv_init (bs : Nat) (hbs : 1 ≤ bs) : enc_inv bs [] ⟨fun _ => 0, ⟨0, 0⟩, []⟩ := by
  refine ⟨rfl, Nat.le_refl _, rfl, rfl, ?_, ?_⟩
  · exact hbs
  · intro j; exact (pack_byte_nil _).symm

/-- One pass of the inner loop of the encoder adds its bit to the stream. -/
theorem enc_inv_bit (bs : Nat) (all : List Nat) (hall : ∀ x ∈ all, x ≤ 1)
    (e : enc_state) (inv : enc_inv bs all e) (b : Nat) (hb : b ≤ 1) :
    enc_inv bs (all ++ [b])
      (if (write_bit e.buf e.cur b).2.ptr ≥ bs then
        ⟨fun _ => 0, ⟨0, (write_bit e.buf e.cur b).2.pos⟩,
          e.out ++ (List.range bs).map (write_bit e.buf e.cur b).1⟩
      else ⟨(write_bit e.buf e.cur b).1, (write_bit e.buf e.cur b).2, e.out⟩) := by
  obtain ⟨o1, o2, o3, o4, o5, o6⟩ := inv
  have hcur : e.cur = ⟨all.length / 8 - e.out.length, all.length % 8⟩ := by
    cases hc : e.cur with
    | mk p q => rw [hc] at o3 o4; simp only at o3 o4; rw [o3, o4]
  have hw := write_bit_pack all hall b hb e.out.length o2 e.buf o6
  rw [← hcur] at hw
  have hadv : (write_bit e.buf e.cur b).2 = advance e.cur := rfl
  have hlen : (all ++ [b]).length = all.length + 1 := by simp
  have hmod : all.length % 8 < 8 := Nat.mod_lt _ (by decide)
  have ho : e.out = (List.range e.out.length).map (pack_byte (all ++ [b])) := by
    rw [map_pack_byte_snoc all b _ o2]; exact o1
  rw [hadv]
  unfold advance
  rw [o3, o4]
  by_cases h7 : all.length % 8 + 1 ≥ 8
  · rw [if_pos h7]
    have hd : (all.length + 1) / 8 = all.length / 8 + 1 := by omega
    have hm : (all.length + 1) % 8 = 0 := by omega
    by_cases hf : all.length / 8 - e.out.length + 1 ≥ bs
    · rw [if_pos hf]
      have hbs : all.length / 8 - e.out.length + 1 = bs := by omega
      refine ⟨?_, ?_, ?_, ?_, ?_, ?_⟩
      · simp only [List.length_append, List.length_map, List.length_range]
        rw [← range_map_add]
        congr 1
        apply List.map_congr_left
        intro j _
        exact hw j
      · simp only [List.length_append, List.length_map, List.length_range, hlen]; omega
      · simp only [List.length_append, List.length_map, List.length_range, hlen]; omega
      · simp only [hlen]; omega
      · simp only []; omega
      · intro j
        simp only [List.length_append, List.length_map, List.length_range]
        rw [pack_byte_beyond _ _ (by rw [hlen]; omega)]
    · rw [if_neg hf]
      refine ⟨ho, ?_, ?_, ?_, ?_, hw⟩
      · simp only [hlen]; omega
      · simp only [hlen]; omega
      · simp only [hlen]; omega
      · simp only []; omega
  · rw [if_neg h7]
    have hd : (all.length + 1) / 8 = all.length / 8 := by omega
    have hm : (all.length + 1) % 8 = all.length % 8 + 1 := by omega
    rw [if_neg (by dsimp only; omega)]
    refine ⟨ho, ?_, ?_, ?_, ?_, hw⟩
    · simp only [hlen]; omega
    · simp only [hlen]; omega
    · simp only [hlen]; omega
    · simp only []; omega

theorem read_bits_le_one (c : Nat → Nat) : ∀ n cc, ∀ x ∈ (read_bits c n cc).1, x ≤ 1 := by
  intro n
  induction n with
  | zero => intro cc x hx; simp [read_bits] at hx
  | succ n ih =>
    intro cc x hx
    simp only [read_bits, List.mem_cons] at hx
    rcases hx with h | h
    · rw [h]; exact read_bit_le_one _ _
    · exact ih _ x h

theorem read_bits_length (c : Nat → Nat) : ∀ n cc, (read_bits c n cc).1.length = n := by
  intro n
  induction n with
  | zero => intro cc; rfl
  | succ n ih => intro cc; simp [read_bits, ih]

theorem code_bits_le_one (code : code_t) : ∀ x ∈ code_bits code, x ≤ 1 :=
  read_bits_le_one _ _ _

theorem code_bits_length (code : code_t) : (code_bits code).length = code.k.toNat :=
  read_bits_length _ _ _

theorem mem_append_le_one (a b : List Nat) (ha : ∀ x ∈ a, x ≤ 1) (hb : ∀ x ∈ b, x ≤ 1) :
    ∀ x ∈ a ++ b, x ≤ 1 := by
  intro x hx
  rcases List.mem_append.1 hx with h | h
  · exact ha x h
  · exact hb x h

/-- The inner loop of the encoder adds the bits it reads from the code. -/
theorem emit_code_inv (bs : Nat) (c : Nat → Nat) : ∀ n cc (all : List Nat) (e : enc_state),
    (∀ x ∈ all, x ≤ 1) → enc_inv bs all e →
    enc_inv bs (all ++ (read_bits c n cc).1) (emit_code bs c n cc e) := by
  intro n
  induction n with
  | zero => intro cc all e _ inv; simpa [read_bits, emit_code] using inv
  | succ n ih =>
    intro cc all e hall inv
    have hb := read_bit_le_one c cc
    have h1 := enc_inv_bit bs all hall e inv (read_bit c cc).1 hb
    have hall2 : ∀ x ∈ all ++ [(read_bit c cc).1], x ≤ 1 :=
      mem_append_le_one _ _ hall (by simp [hb])
    simp only [emit_code, read_bits]
    have e2 : all ++ (read_bit c cc).1 :: (read_bits c n (read_bit c cc).2).1
        = (all ++ [(read_bit c cc).1]) ++ (read_bits c n (read_bit c cc).2).1 := by simp
    rw [e2]
    split
    · rename_i hf
      rw [if_pos hf] at h1
      exact ih _ _ _ hall2 h1
    · rename_i hf
      rw [if_neg hf] at h1
      exact ih _ _ _ hall2 h1

theorem code_stream_le_one (hcode : Nat → code_t) (S : List (Fin 256)) :
    ∀ x ∈ code_stream hcode S, x ≤ 1 := by
  induction S with
  | nil => intro x hx; simp [code_stream] at hx
  | cons c rest ih =>
    exact mem_append_le_one _ _ (code_bits_le_one _) ih

/-- The encode loop adds the codes of the bytes and then the bits of the
pass for `EOF`. -/
theorem encode_loop_inv (bs : Nat) (hcode : Nat → code_t) (oob : code_t)
    (S : List (Fin 256)) : ∀ (all : List Nat) (e : enc_state),
    (∀ x ∈ all, x ≤ 1) → enc_inv bs all e →
    enc_inv bs (all ++ (code_stream hcode S ++ code_bits oob))
      (encode_loop bs hcode oob S e) := by
  induction S with
  | nil =>
    intro all e hall inv
    simp only [code_stream, List.nil_append, encode_loop]
    exact emit_code_inv bs _ _ _ all e hall inv
  | cons c rest ih =>
    intro all e hall inv
    simp only [code_stream, encode_loop]
    have h1 := emit_code_inv bs (hcode c.val).c (hcode c.val).k.toNat ⟨0, 0⟩ all e hall inv
    have h2 := ih _ _ (mem_append_le_one _ _ hall (read_bits_le_one _ _ _)) h1
    have e2 : all ++ (code_bits (hcode c.val) ++ code_stream hcode rest ++ code_bits oob)
        = all ++ (read_bits (hcode c.val).c (hcode c.val).k.toNat ⟨0, 0⟩).1
            ++ (code_stream hcode rest ++ code_bits oob) := by
      simp [code_bits]
    rw [e2]
    exact h2

theorem enc_finish_eq (bs : Nat) (all : List Nat) (e : enc_state) (inv : enc_inv bs all e) :
    enc_finish e = pack all := by
  obtain ⟨o1, o2, o3, o4, _, o6⟩ := inv
  unfold enc_finish pack
  have hb : (List.range (if e.cur.pos > 0 then e.cur.ptr + 1 else e.cur.ptr)).map e.buf
      = (List.range (if e.cur.pos > 0 then e.cur.ptr + 1 else e.cur.ptr)).map
          (fun j => pack_byte all (e.out.length + j)) :=
    List.map_congr_left (fun j _ => o6 j)
  rw [hb]
  conv => lhs; rw [o1]
  rw [List.length_map, List.length_range, range_map_add]
  congr 2
  rw [o3, o4]
  split <;> omega

/-- Started on a zeroed block, the payload written with any block size
`bs ≥ 1` is the packing of the codes of the bytes followed by the bits of the
pass for `EOF`. -/
theorem payload_eq (bs : Nat) (hbs : 1 ≤ bs) (hcode : Nat → code_t) (oob : code_t)
    (S : List (Fin 256)) :
    payload bs (fun _ => 0) hcode oob S = pack (code_stream hcode S ++ code_bits oob) := by
  unfold payload
  have := encode_loop_inv bs hcode oob S [] _ (by simp) (enc_inv_init bs hbs)
  rw [List.nil_append] at this
  exact enc_finish_eq bs _ _ this

/-! ## The encode loop on a block that is not zero -/

theorem lor_mod_swap (u b x : Nat) :
    ((u ||| b) % 256 ||| x) % 256 = ((u ||| x) % 256 ||| b) % 256 := by
  apply Nat.eq_of_testBit_eq
  intro i
  have e : (256 : Nat) = 2 ^ 8 := by norm_num
  rw [e]
  simp only [Nat.testBit_mod_two_pow, Nat.testBit_or]
  by_cases hi : i < 8
  · simp only [hi, decide_True, Bool.true_and]
    rw [Bool.or_assoc, Bool.or_assoc, Bool.or_comm (b.testBit i)]
  · simp only [hi, decide_False, Bool.false_and]

theorem write_bit_under (buf0 m1 m2 : Nat → Nat) (c : cursor) (b : Nat)
    (h : ∀ j, m2 j = (m1 j ||| buf0 j) % 256) :
    ∀ j, (write_bit m2 c b).1 j = ((write_bit m1 c b).1 j ||| buf0 j) % 256 := by
  intro j
  simp only [write_bit]
  by_cases hj : j = c.ptr
  · rw [if_pos hj, if_pos hj, h j]
    exact lor_mod_swap _ _ _
  · rw [if_neg hj, if_neg hj, h j]

theorem write_bit_same (m1 m2 : Nat → Nat) (c : cursor) (b : Nat) (h : ∀ j, m2 j = m1 j) :
    ∀ j, (write_bit m2 c b).1 j = (write_bit m1 c b).1 j := by
  intro j
  simp only [write_bit, h]

theorem or_block_length (bs : Nat) (buf0 : Nat → Nat) (l : List Nat) :
    (or_block bs buf0 l).length = l.length := by
  simp only [or_block, List.length_map, List.length_range]

theorem or_block_append (bs : Nat) (buf0 : Nat → Nat) (o blk : List Nat)
    (h : bs ≤ o.length) : or_block bs buf0 (o ++ blk) = or_block bs buf0 o ++ blk := by
  apply List.ext_getElem
  · simp only [or_block_length, List.length_append]
  · intro i h1 h2
    simp only [or_block, List.getElem_map, List.getElem_range]
    by_cases hi : i < o.length
    · rw [List.getElem_append_left (by simp only [List.length_map, List.length_range]; exact hi)]
      simp only [List.getElem_map, List.getElem_range]
      rw [List.getD_append _ _ _ _ hi]
    · rw [List.getElem_append_right (by simp only [List.length_map, List.length_range]; omega)]
      simp only [List.length_map, List.length_range]
      rw [if_neg (by omega), List.getD_append_right _ _ _ _ (by omega)]
      simp only [or_block_length, List.length_append] at h1
      rw [List.getD_eq_getElem _ _ (by omega)]

theorem or_block_map (bs n : Nat) (buf0 f : Nat → Nat) (hn : n ≤ bs) :
    or_block bs buf0 ((List.range n).map f)
      = (List.range n).map (fun j => (f j ||| buf0 j) % 256) := by
  apply List.ext_getElem
  · simp only [or_block_length, List.length_map, List.length_range]
  · intro i h1 h2
    simp only [List.length_map, List.length_range] at h2
    simp only [or_block, List.getElem_map, List.getElem_range]
    rw [if_pos (by omega),
      List.getD_eq_getElem _ _ (by simp only [List.length_map, List.length_range]; exact h2)]
    simp only [List.getElem_map, List.getElem_range]

theorem enc_sim_init (bs : Nat) (hbs : 1 ≤ bs) (buf0 : Nat → Nat) (h0 : ∀ a, buf0 a < 256) :
    enc_sim bs buf0 ⟨fun _ => 0, ⟨0, 0⟩, []⟩ ⟨buf0, ⟨0, 0⟩, []⟩ := by
  refine ⟨rfl, hbs, ?_, ?_⟩
  · intro _
    refine ⟨rfl, ?_⟩
    intro j
    simp only [Nat.zero_or]
    exact (Nat.mod_eq_of_lt (h0 j)).symm
  · intro h; exact absurd rfl h

/-- One pass of the inner loop of the encoder keeps the two runs
together. -/
theorem enc_sim_bit (bs : Nat) (hbs : 1 ≤ bs) (buf0 : Nat → Nat) (e1 e2 : enc_state)
    (sim : enc_sim bs buf0 e1 e2) (b : Nat) :
    enc_sim bs buf0
      (if (write_bit e1.buf e1.cur b).2.ptr ≥ bs then
        ⟨fun _ => 0, ⟨0, (write_bit e1.buf e1.cur b).2.pos⟩,
          e1.out ++ (List.range bs).map (write_bit e1.buf e1.cur b).1⟩
      else ⟨(write_bit e1.buf e1.cur b).1, (write_bit e1.buf e1.cur b).2, e1.out⟩)
      (if (write_bit e2.buf e2.cur b).2.ptr ≥ bs then
        ⟨fun _ => 0, ⟨0, (write_bit e2.buf e2.cur b).2.pos⟩,
          e2.out ++ (List.range bs).map (write_bit e2.buf e2.cur b).1⟩
      else ⟨(write_bit e2.buf e2.cur b).1, (write_bit e2.buf e2.cur b).2, e2.out⟩) := by
  obtain ⟨s1, s2, s3, s4⟩ := sim
  rw [s1]
  have hc : (write_bit e2.buf e1.cur b).2 = (write_bit e1.buf e1.cur b).2 := rfl
  rw [hc]
  by_cases hf : (write_bit e1.buf e1.cur b).2.ptr ≥ bs
  · rw [if_pos hf, if_pos hf]
    have hne : e1.out ++ (List.range bs).map (write_bit e1.buf e1.cur b).1 ≠ [] := by
      intro h
      have := congrArg List.length h
      simp only [List.length_append, List.length_map, List.length_range, List.length_nil] at this
      omega
    refine ⟨rfl, hbs, fun h => absurd h hne, ?_⟩
    intro _
    refine ⟨?_, ?_, fun _ => rfl⟩
    · simp only [List.length_append, List.length_map, List.length_range]; omega
    · by_cases ho : e1.out = []
      · obtain ⟨t1, t2⟩ := s3 ho
        simp only [t1, ho, List.nil_append]
        rw [or_block_map bs bs buf0 _ (Nat.le_refl _)]
        exact List.map_congr_left (fun j _ => write_bit_under buf0 _ _ _ _ t2 j)
      · obtain ⟨t1, t2, t3⟩ := s4 ho
        simp only []
        rw [or_block_append _ _ _ _ t1, t2]
        congr 1
        exact List.map_congr_left (fun j _ => write_bit_same _ _ _ _ t3 j)
  · rw [if_neg hf, if_neg hf]
    refine ⟨rfl, by simp only []; omega, ?_, ?_⟩
    · intro ho
      obtain ⟨t1, t2⟩ := s3 ho
      exact ⟨t1, write_bit_under buf0 _ _ _ _ t2⟩
    · intro ho
      obtain ⟨t1, t2, t3⟩ := s4 ho
      exact ⟨t1, t2, write_bit_same _ _ _ _ t3⟩

theorem emit_code_sim (bs : Nat) (hbs : 1 ≤ bs) (buf0 : Nat → Nat) (c : Nat → Nat) :
    ∀ n cc (e1 e2 : enc_state), enc_sim bs buf0 e1 e2 →
      enc_sim bs buf0 (emit_code bs c n cc e1) (emit_code bs c n cc e2) := by
  intro n
  induction n with
  | zero => intro cc e1 e2 sim; simpa [emit_code] using sim
  | succ n ih =>
    intro cc e1 e2 sim
    have h1 := enc_sim_bit bs hbs buf0 e1 e2 sim (read_bit c cc).1
    simp only [emit_code]
    have hcur : (write_bit e2.buf e2.cur (read_bit c cc).1).2
        = (write_bit e1.buf e1.cur (read_bit c cc).1).2 := by
      simp only [write_bit, sim.cur]
    by_cases hf : (write_bit e1.buf e1.cur (read_bit c cc).1).2.ptr ≥ bs
    · have hf2 : (write_bit e2.buf e2.cur (read_bit c cc).1).2.ptr ≥ bs := by rw [hcur]; exact hf
      rw [if_pos hf, if_pos hf2] at h1
      rw [if_pos hf, if_pos hf2]
      exact ih _ _ _ h1
    · have hf2 : ¬ (write_bit e2.buf e2.cur (read_bit c cc).1).2.ptr ≥ bs := by
        rw [hcur]; exact hf
      rw [if_neg hf, if_neg hf2] at h1
      rw [if_neg hf, if_neg hf2]
      exact ih _ _ _ h1

theorem encode_loop_sim (bs : Nat) (hbs : 1 ≤ bs) (buf0 : Nat → Nat) (hcode : Nat → code_t)
    (oob : code_t) (S : List (Fin 256)) : ∀ (e1 e2 : enc_state), enc_sim bs buf0 e1 e2 →
      enc_sim bs buf0 (encode_loop bs hcode oob S e1) (encode_loop bs hcode oob S e2) := by
  induction S with
  | nil =>
    intro e1 e2 sim
    simp only [encode_loop]
    exact emit_code_sim bs hbs buf0 _ _ _ e1 e2 sim
  | cons c rest ih =>
    intro e1 e2 sim
    simp only [encode_loop]
    exact ih _ _ (emit_code_sim bs hbs buf0 _ _ _ e1 e2 sim)

/-- The payload of the encode loop started on the block `buf0`: the
packing of the codes of the bytes followed by the bits of the pass for `EOF`,
with `buf0` under its first `bs` bytes. -/
theorem payload_under (bs : Nat) (hbs : 1 ≤ bs) (buf0 : Nat → Nat) (h0 : ∀ a, buf0 a < 256)
    (hcode : Nat → code_t) (oob : code_t) (S : List (Fin 256)) :
    payload bs buf0 hcode oob S
      = or_block bs buf0 (pack (code_stream hcode S ++ code_bits oob)) := by
  rw [← payload_eq bs hbs]
  unfold payload
  have sim := encode_loop_sim bs hbs buf0 hcode oob S _ _ (enc_sim_init bs hbs buf0 h0)
  generalize encode_loop bs hcode oob S ⟨fun _ => 0, ⟨0, 0⟩, []⟩ = e1 at sim
  generalize encode_loop bs hcode oob S ⟨buf0, ⟨0, 0⟩, []⟩ = e2 at sim
  obtain ⟨s1, s2, s3, s4⟩ := sim
  unfold enc_finish
  rw [s1]
  by_cases ho : e1.out = []
  · obtain ⟨t1, t2⟩ := s3 ho
    rw [t1, ho, List.nil_append, List.nil_append, or_block_map bs _ buf0 _ (by split <;> omega)]
    exact List.map_congr_left (fun j _ => t2 j)
  · obtain ⟨t1, t2, t3⟩ := s4 ho
    rw [or_block_append _ _ _ _ t1, t2]
    congr 1
    exact List.map_congr_left (fun j _ => t3 j)

end Haffman

namespace Haffman

/-! ## The archive written by compress -/

theorem le_bytes_length : ∀ n x, (le_bytes n x).length = n := by
  intro n
  induction n with
  | zero => intro x; rfl
  | succ n ih => intro x; simp [le_bytes, ih]

theorem le_value_le_bytes : ∀ n x, le_value (le_bytes n x) = x % 256 ^ n := by
  intro n
  induction n with
  | zero => intro x; simp [le_bytes, le_value, Nat.mod_one]
  | succ n ih =>
    intro x
    simp only [le_bytes, le_value, ih]
    rw [pow_succ', Nat.mod_mul]

theorem tree_table_length (ht : Nat → node_t) : ∀ n, (tree_table ht n).length = 4 * n := by
  intro n
  induction n with
  | zero => rfl
  | succ n ih => simp only [tree_table, List.length_append, le_bytes_length, ih]; omega

theorem code_stream_congr (h1 h2 : Nat → code_t) (h : ∀ a, a < 256 → h1 a = h2 a)
    (S : List (Fin 256)) : code_stream h1 S = code_stream h2 S := by
  induction S with
  | nil => rfl
  | cons c rest ih => simp only [code_stream, ih, h c.val c.isLt]

theorem precalc_from_zero (ht : Nat → node_t) :
    ∀ n, precalc_from hcode_zero ht n = precalc ht n := by
  intro n
  induction n with
  | zero => rfl
  | succ n ih => simp only [precalc_from, precalc, ih]

/-- The loop that computes the code table returns on every table it is
started on. -/
theorem precalc_from_some (h0 : Nat → code_t) (ht : Nat → node_t) (hl : linked ht) :
    ∀ n, n ≤ 256 → ∃ hcode, precalc_from h0 ht n = some hcode := by
  intro n
  induction n with
  | zero => intro _; exact ⟨h0, rfl⟩
  | succ n ih =>
    intro hn
    obtain ⟨hc, e⟩ := ih (by omega)
    simp only [precalc_from, e]
    rw [hcode_rec_eq ht hl TSIZE n _ (by omega) (by unfold TSIZE; omega)]
    exact ⟨_, rfl⟩

/-- The counting loop leaves 1 in the cell `htree[-1].k`. -/
theorem count_loop_eof (S : List (Fin 256)) : count_loop S (fun _ => 0) EOF = 1 := by
  rw [count_loop_apply S _ (fun _ => by decide), count_subscripts_count_eof]
  rfl

theorem le_bytes_one_getD (i : Nat) : (le_bytes 8 1).getD i 0 = if i = 0 then 1 else 0 := by
  have e : le_bytes 8 1 = [1, 0, 0, 0, 0, 0, 0, 0] := by decide
  rw [e]
  rcases i with _ | _ | _ | _ | _ | _ | _ | _ | i <;> rfl

/-- When the cell `htree[-1].k` is the end of `buf`, the counting loop
leaves the byte 1 in `buf[bs - 16]` and zeros in the other bytes. -/
theorem block_start_buf_end (bs : Nat) (S : List (Fin 256)) :
    block_start bs oob_cell.buf_end S = fun a => if a + 16 = bs then 1 else 0 := by
  funext a
  simp only [block_start]
  rw [count_loop_eof, le_bytes_one_getD]
  split_ifs <;> omega

theorem block_start_lt (bs : Nat) (cell : oob_cell) (S : List (Fin 256)) (a : Nat) :
    block_start bs cell S a < 256 := by
  cases cell with
  | buf_end => rw [block_start_buf_end]; simp only []; split <;> omega
  | hcode_end => simp only [block_start]; omega
  | apart => simp only [block_start]; omega

theorem compress_tree_eq (S : List (Fin 256)) :
    (build (counted_htree S)).htree = built (input_counts S) := by
  rw [counted_htree_eq]; rfl

/-- The archive `compress` writes, wherever the cell `htree[-1].k` lies: the
tag, the length, the 255 pairs of child indices of the tree built from the
counts of the input, and the payload of the encode loop.  In particular
`compress` returns. -/
theorem compress_shape (cell : oob_cell) (oob : code_t) (S : List (Fin 256)) :
    ∃ hcode, precalc_from (hcode_start cell S) (built (input_counts S)) 256 = some hcode
      ∧ compress cell oob S = some (HEADER ++ le_bytes 8 (ftell_end S)
          ++ tree_table (built (input_counts S)) (TSIZE - 256)
          ++ payload BUF_SIZE (block_start BUF_SIZE cell S) hcode oob S) := by
  obtain ⟨hc, e⟩ := precalc_from_some (hcode_start cell S) _ (built_linked (input_counts S)) 256
    (Nat.le_refl _)
  refine ⟨hc, e, ?_⟩
  unfold compress
  simp only [compress_tree_eq, e]

theorem BUF_SIZE_pos : 1 ≤ BUF_SIZE := by unfold BUF_SIZE; omega

/-- The archive `compress` writes when the cell `htree[-1].k` lies apart
from `buf` and `hcode`: the payload is the packing of the codes of the bytes
followed by the bits of the pass for `EOF`. -/
theorem compress_eq (oob : code_t) (S : List (Fin 256)) :
    compress oob_cell.apart oob S = some (HEADER ++ le_bytes 8 (ftell_end S)
      ++ tree_table (built (input_counts S)) (TSIZE - 256)
      ++ pack (code_stream (code_of (built (input_counts S))) S ++ code_bits oob)) := by
  have hl := built_linked (input_counts S)
  unfold compress
  simp only [compress_tree_eq, hcode_start, block_start]
  rw [precalc_from_zero, precalc_eq _ hl 256 (Nat.le_refl _)]
  simp only [payload_eq BUF_SIZE BUF_SIZE_pos]
  rw [code_stream_congr _ (code_of (built (input_counts S)))
    (fun a ha => by simp only [if_pos ha])]

/-- The archive `compress` writes when the cell `htree[-1].k` is the end of
`buf`: the payload is the packing of the codes of the bytes followed by the
bits of the pass for `EOF`, with the byte 1 put under its byte number
`BUF_SIZE - 16`. -/
theorem compress_buf_end (oob : code_t) (S : List (Fin 256)) :
    compress oob_cell.buf_end oob S = some (HEADER ++ le_bytes 8 (ftell_end S)
      ++ tree_table (built (input_counts S)) (TSIZE - 256)
      ++ or_block BUF_SIZE (fun a => if a + 16 = BUF_SIZE then 1 else 0)
          (pack (code_stream (code_of (built (input_counts S))) S ++ code_bits oob))) := by
  have hl := built_linked (input_counts S)
  unfold compress
  simp only [compress_tree_eq, hcode_start]
  rw [precalc_from_zero, precalc_eq _ hl 256 (Nat.le_refl _)]
  simp only []
  rw [payload_under BUF_SIZE BUF_SIZE_pos _ (block_start_lt _ _ _), block_start_buf_end]
  rw [code_stream_congr _ (code_of (built (input_counts S)))
    (fun a ha => by simp only [if_pos ha])]

theorem header_length (S : List (Fin 256)) (ht : Nat → node_t) :
    (HEADER ++ le_bytes 8 (ftell_end S) ++ tree_table ht (TSIZE - 256)).length = 1032 := by
  simp only [List.length_append, le_bytes_length, tree_table_length]
  rfl

/-- C2. Header: wherever the cell `htree[-1].k` lies, the archive written
for an input of fewer than `2 ^ 63` bytes begins with the 4 bytes
'H','F','M','N' (72, 70, 77, 78), followed at once by 8 bytes whose value as
an integer is the length of the input. -/
theorem C2_header (cell : oob_cell) (oob : code_t) (S : List (Fin 256))
    (hlen : S.length < 2 ^ 63) :
    ∃ A, compress cell oob S = some A
      ∧ A.take 4 = [72, 70, 77, 78]
      ∧ ((A.drop 4).take 8).length = 8
      ∧ (A.drop 4).take 8 = le_bytes 8 S.length
      ∧ le_value ((A.drop 4).take 8) = S.length
      ∧ soff64 (le_value ((A.drop 4).take 8)) = (S.length : Int) := by
  obtain ⟨hc, -, hA⟩ := compress_shape cell oob S
  refine ⟨_, hA, ?_⟩
  have hf : ftell_end S = S.length := by
    unfold ftell_end; apply Nat.mod_eq_of_lt; omega
  have e1 : ∀ (X Y : List Nat), (HEADER ++ le_bytes 8 (ftell_end S) ++ X ++ Y).take 4
      = [72, 70, 77, 78] := by
    intro X Y; simp [HEADER]
  have e2 : ∀ (X Y : List Nat),
      ((HEADER ++ le_bytes 8 (ftell_end S) ++ X ++ Y).drop 4).take 8
        = le_bytes 8 S.length := by
    intro X Y
    rw [hf]
    simp only [HEADER, List.append_assoc, List.cons_append, List.nil_append, List.drop_succ_cons,
      List.drop_zero]
    rw [List.take_left' (le_bytes_length 8 _)]
  have e3 : le_value (le_bytes 8 S.length) = S.length := by
    rw [le_value_le_bytes]; apply Nat.mod_eq_of_lt
    have : (256 : Nat) ^ 8 = 2 ^ 64 := by norm_num
    omega
  rw [e1, e2, e3]
  refine ⟨rfl, le_bytes_length _ _, rfl, rfl, ?_⟩
  unfold soff64
  rw [if_pos hlen]

/-- C2 at the input "ab", with the cell `htree[-1].k` at the end of
`buf`. -/
theorem C2_header_witness :
    ∃ A, compress oob_cell.buf_end ⟨0, fun _ => 0⟩ [97, 98] = some A
      ∧ A.take 4 = [72, 70, 77, 78]
      ∧ ((A.drop 4).take 8).length = 8
      ∧ (A.drop 4).take 8 = le_bytes 8 ([97, 98] : List (Fin 256)).length
      ∧ le_value ((A.drop 4).take 8) = ([97, 98] : List (Fin 256)).length
      ∧ soff64 (le_value ((A.drop 4).take 8)) = (([97, 98] : List (Fin 256)).length : Int) :=
  C2_header oob_cell.buf_end ⟨0, fun _ => 0⟩ [97, 98] (by decide)

/-- The payload of the archive, the bytes from offset 1032 on, when the
cell `htree[-1].k` lies apart from `buf` and `hcode`. -/
theorem compress_payload (oob : code_t) (S : List (Fin 256)) :
    ∃ A, compress oob_cell.apart oob S = some A
      ∧ A.drop 1032
        = pack (code_stream (code_of (built (input_counts S))) S ++ code_bits oob) := by
  refine ⟨_, compress_eq oob S, ?_⟩
  exact List.drop_left' (header_length S _)

/-- C9 (the code at a failing input). For the empty input, when the memory
in front of `hcode` reads as a code of length 1 with bit 1, the pass of the
encode loop for `EOF` emits that bit, wherever the cell `htree[-1].k` lies:
the payload is the byte 1, whereas the packing of the codes of the bytes of
the input is empty. -/
theorem C9_eof_pass_emits_bits (cell : oob_cell) :
    ∃ A, compress cell ⟨1, fun _ => 1⟩ [] = some A
      ∧ A.drop 1032 = [1]
      ∧ pack (code_stream (code_of (built (input_counts []))) []) = [] := by
  obtain ⟨hc, -, hA⟩ := compress_shape cell ⟨1, fun _ => 1⟩ []
  refine ⟨_, hA, ?_, ?_⟩
  · rw [List.drop_left' (header_length [] _),
      payload_under BUF_SIZE BUF_SIZE_pos _ (block_start_lt _ _ _)]
    have hb : block_start BUF_SIZE cell [] 0 = 0 := by
      cases cell with
      | buf_end => rw [block_start_buf_end]; simp only [BUF_SIZE]; decide
      | hcode_end => rfl
      | apart => rfl
    have hp : pack (code_stream hc [] ++ code_bits ⟨1, fun _ => 1⟩) = [1] := by
      simp only [code_stream, List.nil_append]
      decide
    rw [hp]
    have e : List.range ([1] : List Nat).length = [0] := rfl
    simp only [or_block, e, List.map_cons, List.map_nil, hb]
    decide
  · simp only [code_stream]
    decide

/-- The payload when the pass for `EOF` finds a code of length zero or
less: the packing of the codes of the bytes, `ceil(B / 8)` bytes for `B`
bits. -/
theorem compress_payload_clean (oob : code_t) (hoob : oob.k ≤ 0) (S : List (Fin 256)) :
    ∃ A, compress oob_cell.apart oob S = some A
      ∧ A.drop 1032 = pack (code_stream (code_of (built (input_counts S))) S)
      ∧ (A.drop 1032).length
        = ((code_stream (code_of (built (input_counts S))) S).length + 7) / 8 := by
  obtain ⟨A, h1, h2⟩ := compress_payload oob S
  have e : code_bits oob = [] := by
    apply List.eq_nil_of_length_eq_zero
    rw [code_bits_length]
    omega
  rw [e, List.append_nil] at h2
  refine ⟨A, h1, h2, ?_⟩
  rw [h2]
  simp [pack]

end Haffman

namespace Haffman

/-! ## Archive decoder: the magic tag -/

theorem fgets_split : ∀ n A, ∃ t, A = fgets n A ++ t := by
  intro n
  induction n with
  | zero => intro A; exact ⟨A, by simp [fgets]⟩
  | succ n ih =>
    intro A
    cases A with
    | nil => exact ⟨[], by simp [fgets]⟩
    | cons c rest =>
      simp only [fgets]
      split
      · exact ⟨rest, rfl⟩
      · obtain ⟨t, ht⟩ := ih rest
        exact ⟨t, by rw [List.cons_append, ← ht]⟩

theorem cstr_split (s : List Nat) : ∃ t, s = cstr s ++ t :=
  ⟨s.dropWhile (fun c => c != 0), (List.takeWhile_append_dropWhile _ s).symm⟩

/-- The tag check of `extract` passes exactly when the archive starts with
the four bytes of `HEADER`; four characters have then been read. -/
theorem header_check (A : List Nat) :
    (cstr (fgets 4 A) = HEADER ↔ A.take 4 = HEADER)
      ∧ (A.take 4 = HEADER → (fgets 4 A).length = 4) := by
  have hfwd : A.take 4 = HEADER → fgets 4 A = HEADER := by
    intro h
    have e : A = HEADER ++ A.drop 4 := by
      conv => lhs; rw [← List.take_append_drop 4 A]
      rw [h]
    rw [e]
    simp [HEADER, fgets]
  refine ⟨⟨?_, ?_⟩, ?_⟩
  · intro h
    obtain ⟨t1, h1⟩ := cstr_split (fgets 4 A)
    obtain ⟨t2, h2⟩ := fgets_split 4 A
    rw [h] at h1
    rw [h1] at h2
    rw [h2]
    simp [HEADER]
  · intro h
    rw [hfwd h]
    decide
  · intro h
    rw [hfwd h]
    rfl

/-! ## Archive decoder: the loops as a run over the bit list -/

theorem decode_list_stopped (ht : Nat → node_t) (fsize : Int) (l : List Nat) (d : dec_state)
    (h : fsize ≤ (d.tsize : Int) ∨ d.fault = true) : decode_list ht fsize l d = d := by
  cases l with
  | nil => rfl
  | cons b bs => simp only [decode_list]; rw [if_pos h]

theorem decode_list_append (ht : Nat → node_t) (fsize : Int) (a b : List Nat) :
    ∀ d, decode_list ht fsize (a ++ b) d = decode_list ht fsize b (decode_list ht fsize a d) := by
  induction a with
  | nil => intro d; rfl
  | cons x xs ih =>
    intro d
    rw [List.cons_append]
    simp only [decode_list]
    by_cases h1 : fsize ≤ (d.tsize : Int) ∨ d.fault = true
    · rw [if_pos h1, if_pos h1, decode_list_stopped _ _ _ _ h1]
    · rw [if_neg h1, if_neg h1]
      by_cases h2 : TSIZE ≤ d.v
      · rw [if_pos h2, if_pos h2, decode_list_stopped]; exact Or.inr rfl
      · rw [if_neg h2, if_neg h2]
        generalize (if x = 0 then (ht d.v).l else (ht d.v).r) = v
        by_cases h3 : sshort v < 256
        · rw [if_pos h3, if_pos h3]
          by_cases h4 : ((d.tsize + 1 : Nat) : Int) ≥ fsize
          · rw [if_pos h4, if_pos h4]; exact ih _
          · rw [if_neg h4, if_neg h4]; exact ih _
        · rw [if_neg h3, if_neg h3]; exact ih _

/-- The inner loop of `extract` is the run over the bits it reads. -/
theorem decode_bits_eq (ht : Nat → node_t) (fsize : Int) (buf : Nat → Nat) :
    ∀ n c (d : dec_state), (d.tsize : Int) < fsize → d.fault = false →
      decode_bits ht fsize buf n c d = decode_list ht fsize (read_bits buf n c).1 d := by
  intro n
  induction n with
  | zero => intro c d _ _; rfl
  | succ n ih =>
    intro c d h1 h2
    simp only [decode_bits, read_bits, decode_list]
    have hg : ¬ (fsize ≤ (d.tsize : Int) ∨ d.fault = true) := by
      rw [h2]; simp only [Bool.false_eq_true, or_false]; omega
    by_cases h3 : TSIZE ≤ d.v
    · rw [if_pos h3, if_neg hg, if_pos h3]
    · rw [if_neg h3, if_neg hg, if_neg h3]
      generalize (if (read_bit buf c).1 = 0 then (ht d.v).l else (ht d.v).r) = v
      by_cases h4 : sshort v < 256
      · rw [if_pos h4, if_pos h4]
        by_cases h5 : ((d.tsize + 1 : Nat) : Int) ≥ fsize
        · rw [if_pos h5, if_pos h5, decode_list_stopped]
          left
          simp only []
          exact h5
        · rw [if_neg h5, if_neg h5]
          exact ih _ _ (by simp only []; omega) h2
      · rw [if_neg h4, if_neg h4]
        exact ih _ _ h1 h2

theorem read_bits_generic (m : Nat → Nat) : ∀ (n a : Nat),
    read_bits m n (cursor_at a)
      = ((List.range n).map (fun i => m ((a + i) / 8) / 2 ^ ((a + i) % 8) % 2),
          cursor_at (a + n)) := by
  intro n
  induction n with
  | zero => intro a; simp [read_bits]
  | succ n ih =>
    intro a
    simp only [read_bits, read_bit_cursor, advance_cursor_at, ih, read_bit_fst]
    rw [List.range_succ_eq_map]
    simp only [List.map_cons, List.map_map, Nat.add_zero]
    refine Prod.ext ?_ ?_
    · simp only [cursor_at, List.cons.injEq, true_and]
      apply List.map_congr_left
      intro i _
      simp only [Function.comp, Nat.succ_eq_add_one]
      have e : a + 1 + i = a + (i + 1) := by omega
      rw [e]
    · simp only []
      congr 1
      omega

/-- The bits read from a block that was filled by `fread`. -/
theorem read_bits_block (blk : List Nat) (buf : Nat → Nat) :
    (read_bits (fun a => if a < blk.length then blk.getD a 0 else buf a)
      (8 * blk.length) ⟨0, 0⟩).1 = bits_of blk := by
  have := read_bits_generic (fun a => if a < blk.length then blk.getD a 0 else buf a)
    (8 * blk.length) 0
  rw [cursor_at_zero] at this
  rw [this]
  unfold bits_of
  apply List.map_congr_left
  intro i hi
  have hi2 := List.mem_range.1 hi
  simp only [Nat.zero_add]
  rw [if_pos (by omega)]

theorem bits_of_append (a b : List Nat) : bits_of (a ++ b) = bits_of a ++ bits_of b := by
  unfold bits_of
  rw [List.length_append, Nat.mul_add, List.range_add, List.map_append, List.map_map]
  congr 1
  · apply List.map_congr_left
    intro i hi
    have hi2 := List.mem_range.1 hi
    rw [List.getD_append _ _ _ _ (by omega)]
  · apply List.map_congr_left
    intro i hi
    have hi2 := List.mem_range.1 hi
    simp only [Function.comp]
    have e1 : (8 * a.length + i) / 8 = a.length + i / 8 := by omega
    have e2 : (8 * a.length + i) % 8 = i % 8 := by omega
    rw [e1, e2, List.getD_append_right _ _ _ _ (by omega)]
    congr 3
    omega

theorem bits_of_nil : bits_of [] = [] := rfl

/-- The outer loop of `extract` returns, with the state of the run over
the bits of the bytes left in the file. -/
theorem extract_loop_eq (bs : Nat) (hbs : 1 ≤ bs) (ht : Nat → node_t) (fsize : Int) :
    ∀ fuel (f : file) (buf : Nat → Nat) (d : dec_state),
      f.data.length + 1 < fuel + (if f.eof then 1 else 0) →
      (f.eof = true → f.data = []) →
      extract_loop bs ht fsize fuel f buf d
        = some (decode_list ht fsize (bits_of f.data) d) := by
  intro fuel
  induction fuel with
  | zero =>
    intro f buf d h1 h2
    exfalso
    split at h1 <;> omega
  | succ fuel ih =>
    intro f buf d h1 h2
    simp only [extract_loop]
    split
    · rename_i hc
      obtain ⟨⟨c1, c2⟩, c3⟩ := hc
      rw [c2] at h1
      simp only [Bool.false_eq_true, if_false, Nat.add_zero] at h1
      rw [decode_bits_eq ht fsize _ _ _ d c1 c3, read_bits_block]
      rw [ih]
      · simp only [fread]
        rw [← decode_list_append, ← bits_of_append, List.take_append_drop]
      · simp only [fread, List.length_drop, c2, Bool.false_or]
        by_cases hlt : f.data.length < bs
        · simp only [hlt, decide_True, if_true]; omega
        · simp only [hlt, decide_False, Bool.false_eq_true, if_false]; omega
      · simp only [fread, c2, Bool.false_or, decide_eq_true_eq]
        intro hlt
        exact List.drop_eq_nil_of_le (by omega)
    · rename_i hc
      by_cases he : f.eof = true
      · rw [h2 he, bits_of_nil]; rfl
      · rw [decode_list_stopped]
        simp only [Bool.not_eq_true] at he
        simp only [he, and_true] at hc
        by_cases hf : d.fault = true
        · exact Or.inr hf
        · left
          simp only [Bool.not_eq_true] at hf
          simp only [hf, and_true, not_lt] at hc
          exact hc

theorem fread_eof_nil (n : Nat) (f : file) (h : f.eof = true → f.data = []) :
    (fread n f).2.eof = true → (fread n f).2.data = [] := by
  simp only [fread, Bool.or_eq_true, decide_eq_true_eq]
  rintro (h1 | h1)
  · rw [h h1]; simp
  · exact List.drop_eq_nil_of_le (by omega)

theorem fread_length_le (n : Nat) (f : file) : (fread n f).2.data.length ≤ f.data.length := by
  simp only [fread, List.length_drop]; omega

theorem read_tree_file (n : Nat) : ∀ (ht : Nat → node_t) (f : file),
    (f.eof = true → f.data = []) →
    ((read_tree n ht f).2.eof = true → (read_tree n ht f).2.data = [])
      ∧ (read_tree n ht f).2.data.length ≤ f.data.length := by
  induction n with
  | zero => intro ht f h; exact ⟨h, Nat.le_refl _⟩
  | succ n ih =>
    intro ht f h
    obtain ⟨i1, i2⟩ := ih ht f h
    simp only [read_tree]
    have a1 := fread_eof_nil 2 _ i1
    have a2 := fread_length_le 2 (read_tree n ht f).2
    have b1 := fread_eof_nil 2 _ a1
    have b2 := fread_length_le 2 (fread 2 (read_tree n ht f).2).2
    exact ⟨b1, by omega⟩

/-- The function `extract` returns on every archive. -/
theorem extract_returns (A : List Nat) (h : A.take 4 = HEADER) :
    ∃ d : dec_state, extract A = some (if d.fault then outcome.undefined_read d.out
      else outcome.finished d.out) := by
  have hc := header_check A
  unfold extract
  simp only []
  rw [if_neg (by rw [not_not]; exact hc.1.2 h)]
  have hf0 : (fread 8 ⟨A.drop (fgets 4 A).length, false⟩).2.eof = true →
      (fread 8 ⟨A.drop (fgets 4 A).length, false⟩).2.data = [] :=
    fread_eof_nil 8 _ (by simp)
  have hl0 := fread_length_le 8 ⟨A.drop (fgets 4 A).length, false⟩
  obtain ⟨t1, t2⟩ := read_tree_file (TSIZE - 256) init_htree _ hf0
  simp only [List.length_drop] at hl0
  rw [extract_loop_eq BUF_SIZE BUF_SIZE_pos _ _ _ _ _ _ (by split <;> omega) t1]
  exact ⟨_, rfl⟩

/-- C3. Format error: on every archive `extract` returns; it returns `-1`
having written nothing exactly when the first four bytes are not 'HFMN'
(in particular when there are fewer than four bytes), and with the first
four bytes 'HFMN' the result is not the format error. -/
theorem C3_format_error (A : List Nat) :
    ∃ o, extract A = some o
      ∧ ((o.ret = some (-1) ∧ o.out = []) ↔ A.take 4 ≠ [72, 70, 77, 78])
      ∧ (o = outcome.format_error ↔ A.take 4 ≠ [72, 70, 77, 78])
      ∧ (A.length < 4 → o = outcome.format_error) := by
  have hH : HEADER = [72, 70, 77, 78] := rfl
  rw [← hH]
  by_cases h : A.take 4 = HEADER
  · obtain ⟨d, hd⟩ := extract_returns A h
    refine ⟨_, hd, ?_, ?_, ?_⟩
    · cases d.fault <;> simp [outcome.ret, h]
    · cases d.fault <;> simp [h]
    · intro hlt
      exfalso
      have := congrArg List.length h
      simp [HEADER] at this
      omega
  · have hc := header_check A
    have e : extract A = some outcome.format_error := by
      unfold extract
      simp only []
      rw [if_pos (fun hh => h (hc.1.1 hh))]
    refine ⟨_, e, ?_, ?_, ?_⟩
    · simp [outcome.ret, outcome.out, h]
    · simp [h]
    · intro _; rfl

end Haffman

namespace Haffman

/-! ## Decoding the codes -/

theorem sshort_small (v : Nat) (h : v ≤ 510) : sshort v = (v : Int) := by
  unfold sshort; rw [if_pos (by omega)]

/-- From an internal node, the bits of a downward path to a leaf make the
decoder put that leaf and go back to the root, or stop there when the
declared length is reached. -/
theorem decode_symbol (ht : Nat → node_t) (fsize : Int) : ∀ (p : List Nat) (u : Nat)
    (rest : List Nat) (t : Nat) (o : List Nat),
    p ≠ [] → (∀ x ∈ walk_nodes ht u p, 256 ≤ x ∧ x ≤ 510) → walk ht u p < 256 →
    (t : Int) < fsize →
    decode_list ht fsize (p ++ rest) ⟨u, t, o, false⟩
      = decode_list ht fsize rest
          (if ((t + 1 : Nat) : Int) ≥ fsize then ⟨walk ht u p, t + 1, o ++ [walk ht u p], false⟩
           else ⟨TSIZE - 1, t + 1, o ++ [walk ht u p], false⟩) := by
  intro p
  induction p with
  | nil => intro u rest t o h; exact absurd rfl h
  | cons b p ih =>
    intro u rest t o _ hn hw ht1
    have hu := hn u (by simp [walk_nodes])
    rw [List.cons_append]
    simp only [decode_list, walk]
    have hg : ¬ (fsize ≤ (t : Int) ∨ false = true) := by
      simp only [Bool.false_eq_true, or_false]; omega
    have hT : ¬ TSIZE ≤ u := by unfold TSIZE; omega
    rw [if_neg hg, if_neg hT]
    simp only [walk, walk_nodes] at hw hn
    generalize (if b = 0 then (ht u).l else (ht u).r) = v at hw hn ⊢
    cases p with
    | nil =>
      simp only [walk] at hw ⊢
      have hs : sshort v < 256 := by rw [sshort_small v (by omega)]; omega
      rw [if_pos hs, Nat.mod_eq_of_lt hw]
      simp only [List.nil_append]
      split <;> rfl
    | cons b2 p2 =>
      have hv := hn v (by simp [walk_nodes])
      have hs : ¬ sshort v < 256 := by rw [sshort_small v hv.2]; omega
      rw [if_neg hs]
      exact ih v rest t o (by simp) (fun x hx => hn x (List.mem_cons_of_mem _ hx)) hw ht1

/-- The decoder run over the codes of the bytes of `S`, whatever bits
follow, with the declared length reached after the last byte: it puts the
bytes of `S` and reads no node outside the array. -/
theorem decode_stream (ht : Nat → node_t) (hcode : Nat → code_t)
    (hc : ∀ c, c < 256 → code_bits (hcode c) ≠ []
      ∧ (∀ x ∈ walk_nodes ht 510 (code_bits (hcode c)), 256 ≤ x ∧ x ≤ 510)
      ∧ walk ht 510 (code_bits (hcode c)) = c) :
    ∀ (S : List (Fin 256)) (rest : List Nat) (t : Nat) (o : List Nat), S ≠ [] →
      (decode_list ht ((t + S.length : Nat) : Int) (code_stream hcode S ++ rest)
          ⟨510, t, o, false⟩).out = o ++ S.map Fin.val
      ∧ (decode_list ht ((t + S.length : Nat) : Int) (code_stream hcode S ++ rest)
          ⟨510, t, o, false⟩).fault = false := by
  intro S
  induction S with
  | nil => intro rest t o h; exact absurd rfl h
  | cons c S ih =>
    intro rest t o _
    obtain ⟨h1, h2, h3⟩ := hc c.val c.isLt
    simp only [code_stream, List.append_assoc]
    rw [decode_symbol ht _ _ 510 _ t o h1 h2 (by rw [h3]; exact c.isLt)
      (by simp only [List.length_cons]; omega)]
    rw [h3]
    cases S with
    | nil =>
      rw [if_pos (by simp)]
      rw [decode_list_stopped _ _ _ _ (Or.inl (by simp))]
      simp
    | cons c2 S2 =>
      rw [if_neg (by simp only [List.length_cons]; omega)]
      have := ih rest (t + 1) (o ++ [c.val]) (by simp)
      have e : t + 1 + (c2 :: S2).length = t + (c :: c2 :: S2).length := by
        simp only [List.length_cons]; omega
      rw [e] at this
      simpa [TSIZE_pred, List.append_assoc] using this

theorem walk_congr (h1 h2 : Nat → node_t)
    (h : ∀ j, 256 ≤ j → j ≤ 510 → (h1 j).l = (h2 j).l ∧ (h1 j).r = (h2 j).r) :
    ∀ (p : List Nat) (u : Nat), (∀ x ∈ walk_nodes h2 u p, 256 ≤ x ∧ x ≤ 510) →
      walk h1 u p = walk h2 u p ∧ walk_nodes h1 u p = walk_nodes h2 u p := by
  intro p
  induction p with
  | nil => intro u _; exact ⟨rfl, rfl⟩
  | cons b p ih =>
    intro u hn
    have hu := hn u (by simp [walk_nodes])
    obtain ⟨hl, hr⟩ := h u hu.1 hu.2
    simp only [walk, walk_nodes, hl, hr]
    simp only [walk_nodes] at hn
    have := ih _ (fun x hx => hn x (List.mem_cons_of_mem _ hx))
    exact ⟨this.1, by rw [this.2]⟩

/-! ## The bits of a packed stream -/

theorem bits_of_length (bytes : List Nat) : (bits_of bytes).length = 8 * bytes.length := by
  simp [bits_of]

theorem pack_length (bits : List Nat) : (pack bits).length = (bits.length + 7) / 8 := by
  simp [pack]

theorem pack_getD (bits : List Nat) (j : Nat) : (pack bits).getD j 0 = pack_byte bits j := by
  by_cases h : j < (bits.length + 7) / 8
  · rw [List.getD_eq_getElem _ _ (by rw [pack_length]; exact h)]
    simp [pack]
  · rw [List.getD_eq_default _ _ (by rw [pack_length]; omega),
      pack_byte_beyond _ _ (by omega)]

/-- Unpacking a packed bit list gives the list back, followed by padding. -/
theorem bits_of_pack (all : List Nat) (hall : ∀ x ∈ all, x ≤ 1) :
    ∃ pad, bits_of (pack all) = all ++ pad := by
  refine ⟨(bits_of (pack all)).drop all.length, ?_⟩
  have hlen : all.length ≤ (bits_of (pack all)).length := by
    rw [bits_of_length, pack_length]; omega
  have ht : (bits_of (pack all)).take all.length = all := by
    apply List.ext_getElem
    · rw [List.length_take]; omega
    · intro i h1 h2
      rw [List.getElem_take]
      simp only [bits_of, List.getElem_map, List.getElem_range]
      rw [pack_getD, pack_byte_bit all hall _ _ (Nat.mod_lt _ (by decide))]
      have e : 8 * (i / 8) + i % 8 = i := by omega
      rw [e, List.getD_eq_getElem _ _ h2]
  conv => lhs; rw [← List.take_append_drop all.length (bits_of (pack all))]
  rw [ht]

/-! ## Reading the header and the tree table back -/

theorem set_node_same (ht : Nat → node_t) (i : Nat) (n : node_t) : set_node ht i n i = n := by
  simp [set_node]

theorem set_node_other (ht : Nat → node_t) (i : Nat) (n : node_t) (a : Nat) (h : a ≠ i) :
    set_node ht i n a = ht a := by
  simp [set_node, h]

theorem le_value_le_bytes_two (x : Nat) (h : x < 65536) : le_value (le_bytes 2 x) = x := by
  rw [le_value_le_bytes]; apply Nat.mod_eq_of_lt
  have : (256 : Nat) ^ 2 = 65536 := by norm_num
  omega

theorem fread_append (n : Nat) (a rest : List Nat) (h : a.length = n) :
    fread n ⟨a ++ rest, false⟩ = (a, ⟨rest, false⟩) := by
  unfold fread
  simp only [List.take_left' h, List.drop_left' h, Bool.false_or, List.length_append]
  congr 2
  simp only [decide_eq_false_iff_not]
  omega

/-- Reading the tree table that was written for the tree `src` gives the
child indices of `src` and leaves the file at the payload. -/
theorem read_tree_table (src : Nat → node_t) : ∀ (n : Nat) (ht : Nat → node_t)
    (rest : List Nat),
    (∀ j, 256 ≤ j → j < 256 + n → (src j).l < 65536 ∧ (src j).r < 65536) →
    (read_tree n ht ⟨tree_table src n ++ rest, false⟩).2 = ⟨rest, false⟩
      ∧ ∀ j, 256 ≤ j → j < 256 + n →
          ((read_tree n ht ⟨tree_table src n ++ rest, false⟩).1 j).l = (src j).l
          ∧ ((read_tree n ht ⟨tree_table src n ++ rest, false⟩).1 j).r = (src j).r := by
  intro n
  induction n with
  | zero =>
    intro ht rest _
    refine ⟨rfl, ?_⟩
    intro j h1 h2; omega
  | succ n ih =>
    intro ht rest hsrc
    have hn := hsrc (256 + n) (by omega) (by omega)
    obtain ⟨i1, i2⟩ := ih ht (le_bytes 2 (src (256 + n)).l ++ (le_bytes 2 (src (256 + n)).r ++ rest))
      (fun j h1 h2 => hsrc j h1 (by omega))
    have e : tree_table src (n + 1) ++ rest
        = tree_table src n ++ (le_bytes 2 (src (256 + n)).l
            ++ (le_bytes 2 (src (256 + n)).r ++ rest)) := by
      simp only [tree_table, List.append_assoc]
    rw [e]
    simp only [read_tree]
    rw [i1, fread_append 2 _ _ (le_bytes_length 2 _), fread_append 2 _ _ (le_bytes_length 2 _)]
    simp only []
    refine ⟨trivial, ?_⟩
    intro j h1 h2
    by_cases hj : j = 256 + n
    · subst hj
      rw [set_node_same]
      simp only [set_node_same]
      exact ⟨le_value_le_bytes_two _ hn.1, le_value_le_bytes_two _ hn.2⟩
    · rw [set_node_other _ _ _ _ hj, set_node_other _ _ _ _ hj]
      exact i2 j h1 (by omega)

/-- The function `extract` on an archive laid out as `compress` writes it,
for any tree `src` with child indices below `2 ^ 16`, any length field and
any payload: the run of the decoder over the bits of the payload, in a tree
with the child indices of `src`. -/
theorem extract_archive (x : Nat) (src : Nat → node_t)
    (hsrc : ∀ j, 256 ≤ j → j ≤ 510 → (src j).l < 65536 ∧ (src j).r < 65536)
    (pl : List Nat) :
    ∃ ht : Nat → node_t,
      (∀ j, 256 ≤ j → j ≤ 510 → (ht j).l = (src j).l ∧ (ht j).r = (src j).r)
      ∧ extract (HEADER ++ le_bytes 8 x ++ tree_table src (TSIZE - 256) ++ pl)
        = some
          (if (decode_list ht (soff64 (x % 2 ^ 64)) (bits_of pl)
                ⟨TSIZE - 1, 0, [], false⟩).fault
           then outcome.undefined_read
             (decode_list ht (soff64 (x % 2 ^ 64)) (bits_of pl) ⟨TSIZE - 1, 0, [], false⟩).out
           else outcome.finished
             (decode_list ht (soff64 (x % 2 ^ 64)) (bits_of pl)
                ⟨TSIZE - 1, 0, [], false⟩).out) := by
  have hA : (HEADER ++ le_bytes 8 x ++ tree_table src (TSIZE - 256) ++ pl).take 4 = HEADER := by
    simp [HEADER]
  have hc := header_check _ |>.2 hA
  have hc2 := (header_check (HEADER ++ le_bytes 8 x ++ tree_table src (TSIZE - 256) ++ pl)).1.2 hA
  have hd : (HEADER ++ le_bytes 8 x ++ tree_table src (TSIZE - 256) ++ pl).drop 4
      = le_bytes 8 x ++ (tree_table src (TSIZE - 256) ++ pl) := by
    simp [HEADER]
  obtain ⟨r1, r2⟩ := read_tree_table src (TSIZE - 256) init_htree pl
    (fun j h1 h2 => hsrc j h1 (by unfold TSIZE at h2; omega))
  refine ⟨(read_tree (TSIZE - 256) init_htree ⟨tree_table src (TSIZE - 256) ++ pl, false⟩).1,
    fun j h1 h2 => r2 j h1 (by unfold TSIZE; omega), ?_⟩
  have hlenA : pl.length + 1 < (HEADER ++ le_bytes 8 x ++ tree_table src (TSIZE - 256) ++ pl).length + 2 := by
    rw [List.length_append]; omega
  generalize (HEADER ++ le_bytes 8 x ++ tree_table src (TSIZE - 256) ++ pl) = A at hA hc hc2 hd hlenA ⊢
  unfold extract
  simp only []
  rw [if_neg (by rw [not_not]; exact hc2), hc, hd,
    fread_append 8 _ _ (le_bytes_length 8 _)]
  simp only []
  rw [le_value_le_bytes]
  have e8 : (256 : Nat) ^ 8 = 2 ^ 64 := by norm_num
  rw [e8, r1]
  rw [extract_loop_eq BUF_SIZE BUF_SIZE_pos _ _ _ _ _ _
    (by simp only [Bool.false_eq_true, if_false]; omega) (by simp)]

end Haffman

namespace Haffman

/-! ## Round trip -/

/-- In a tree with the child indices of the built tree, the code of every
symbol is a downward path from the root to its leaf. -/
theorem code_walk (cnt : Nat → Nat) (ht : Nat → node_t)
    (h : ∀ j, 256 ≤ j → j ≤ 510 → (ht j).l = (built cnt j).l ∧ (ht j).r = (built cnt j).r)
    (c : Nat) (hc : c < 256) :
    code_bits (code_of (built cnt) c) ≠ []
      ∧ (∀ x ∈ walk_nodes ht 510 (code_bits (code_of (built cnt) c)), 256 ≤ x ∧ x ≤ 510)
      ∧ walk ht 510 (code_bits (code_of (built cnt) c)) = c := by
  have hl := built_linked cnt
  rw [code_bits_code_of]
  have hw := walk_path _ hl (510 - c) c (by omega) (Nat.le_refl _)
  have hpos := path_bits_pos _ hl c (by omega)
  obtain ⟨g1, g2⟩ := walk_congr ht (built cnt) h _ 510 hw.2
  refine ⟨?_, ?_, ?_⟩
  · intro e; rw [e] at hpos; simp at hpos
  · rw [g2]; exact hw.2
  · rw [g1]; exact hw.1

end Haffman

namespace Haffman

/-! ## Bytes after the payload, and truncated payloads -/

theorem ftell_soff64 (S : List (Fin 256)) (hlen : S.length < 2 ^ 63) :
    soff64 (ftell_end S % 2 ^ 64) = (S.length : Int) := by
  unfold ftell_end soff64
  rw [Nat.mod_mod, Nat.mod_eq_of_lt (by omega), if_pos hlen]

theorem built_child_small (cnt : Nat → Nat) (j : Nat) (h1 : 256 ≤ j) (h2 : j ≤ 510) :
    (built cnt j).l < 65536 ∧ (built cnt j).r < 65536 := by
  have := (built_linked cnt).kids j h1 h2
  exact ⟨by omega, by omega⟩

theorem stream_le_one (hcode : Nat → code_t) (oob : code_t) (S : List (Fin 256)) :
    ∀ x ∈ code_stream hcode S ++ code_bits oob, x ≤ 1 :=
  mem_append_le_one _ _ (code_stream_le_one _ _) (code_bits_le_one _)

/-- The function `extract` on an archive that holds the length of `S`, the
tree built from the counts `cnt` and, as payload, the packing of the codes of
the bytes of `S` in that tree followed by any bits, and then any bytes: it
writes the bytes of `S`. -/
theorem extract_codes (cnt : Nat → Nat) (S : List (Fin 256)) (x : Nat)
    (hx : soff64 (x % 2 ^ 64) = (S.length : Int)) (rest : List Nat)
    (hrest : ∀ b ∈ rest, b ≤ 1) (T : List Nat) :
    extract (HEADER ++ le_bytes 8 x ++ tree_table (built cnt) (TSIZE - 256)
        ++ (pack (code_stream (code_of (built cnt)) S ++ rest) ++ T))
      = some (outcome.finished (S.map Fin.val)) := by
  obtain ⟨ht, h1, h2⟩ := extract_archive x (built cnt) (built_child_small _)
    (pack (code_stream (code_of (built cnt)) S ++ rest) ++ T)
  rw [h2, hx]
  obtain ⟨pad, hp⟩ := bits_of_pack _
    (mem_append_le_one _ _ (code_stream_le_one (code_of (built cnt)) S) hrest)
  rw [bits_of_append, hp, List.append_assoc, List.append_assoc]
  by_cases hS : S = []
  · subst hS
    rw [decode_list_stopped _ _ _ _ (Or.inl (by simp))]
    simp
  · have hd := decode_stream ht (code_of (built cnt))
      (fun c hc => code_walk cnt ht h1 c hc) S (rest ++ (pad ++ bits_of T)) 0 [] hS
    rw [Nat.zero_add] at hd
    rw [TSIZE_pred, hd.1, hd.2]
    simp

/-- Round trip and stop at the declared length when the cell `htree[-1].k`
lies apart from `buf` and `hcode`: for every input `S` of fewer than `2 ^ 63`
bytes and every byte sequence `T`, `extract` on the archive of `S` followed
by `T` writes exactly the bytes of `S`. -/
theorem round_trip_apart (oob : code_t) (S : List (Fin 256)) (T : List Nat)
    (hlen : S.length < 2 ^ 63) :
    ∃ A, compress oob_cell.apart oob S = some A
      ∧ extract (A ++ T) = some (outcome.finished (S.map Fin.val)) := by
  refine ⟨_, compress_eq oob S, ?_⟩
  rw [List.append_assoc]
  exact extract_codes _ S _ (ftell_soff64 S hlen) _ (code_bits_le_one _) T

theorem bits_of_take (l : List Nat) (j : Nat) :
    bits_of (l.take j) = (bits_of l).take (8 * j) := by
  conv => rhs; rw [← List.take_append_drop j l, bits_of_append]
  by_cases h : j ≤ l.length
  · rw [List.take_left' (by rw [bits_of_length, List.length_take]; omega)]
  · have hd : l.drop j = [] := List.drop_eq_nil_of_le (by omega)
    rw [hd, bits_of_nil, List.append_nil]
    exact (List.take_of_length_le (by rw [bits_of_length, List.length_take]; omega)).symm

/-- On a proper part of a downward path to a leaf the decoder stays on
internal nodes and puts nothing. -/
theorem decode_part (ht : Nat → node_t) (fsize : Int) : ∀ (p : List Nat) (u : Nat)
    (n t : Nat) (o : List Nat),
    (∀ x ∈ walk_nodes ht u p, 256 ≤ x ∧ x ≤ 510) → n < p.length → (t : Int) < fsize →
    (decode_list ht fsize (p.take n) ⟨u, t, o, false⟩).out = o
      ∧ (decode_list ht fsize (p.take n) ⟨u, t, o, false⟩).fault = false := by
  intro p
  induction p with
  | nil => intro u n t o _ hn; simp at hn
  | cons b p ih =>
    intro u n t o hn hlt ht1
    cases n with
    | zero => exact ⟨rfl, rfl⟩
    | succ n =>
      have hu := hn u (by simp [walk_nodes])
      rw [List.take_succ_cons]
      simp only [decode_list]
      have hg : ¬ (fsize ≤ (t : Int) ∨ false = true) := by
        simp only [Bool.false_eq_true, or_false]; omega
      have hT : ¬ TSIZE ≤ u := by unfold TSIZE; omega
      rw [if_neg hg, if_neg hT]
      simp only [walk_nodes] at hn
      generalize (if b = 0 then (ht u).l else (ht u).r) = v at hn ⊢
      simp only [List.length_cons] at hlt
      cases p with
      | nil => simp at hlt
      | cons b2 p2 =>
        have hv := hn v (by simp [walk_nodes])
        have hs : ¬ sshort v < 256 := by rw [sshort_small v hv.2]; omega
        rw [if_neg hs]
        exact ih v n t o (fun x hx => hn x (List.mem_cons_of_mem _ hx)) (by omega) ht1

/-- The decoder run over the first `n` bits of the code stream of `S`
puts the bytes whose codes lie completely inside those bits. -/
theorem decode_take (ht : Nat → node_t) (hcode : Nat → code_t)
    (hc : ∀ c, c < 256 → code_bits (hcode c) ≠ []
      ∧ (∀ x ∈ walk_nodes ht 510 (code_bits (hcode c)), 256 ≤ x ∧ x ≤ 510)
      ∧ walk ht 510 (code_bits (hcode c)) = c) :
    ∀ (S : List (Fin 256)) (rest : List Nat) (n t : Nat) (o : List Nat),
      (decode_list ht ((t + S.length : Nat) : Int) ((code_stream hcode S ++ rest).take n)
          ⟨510, t, o, false⟩).out = o ++ (S.take (symbols_within hcode S n)).map Fin.val
      ∧ (decode_list ht ((t + S.length : Nat) : Int) ((code_stream hcode S ++ rest).take n)
          ⟨510, t, o, false⟩).fault = false := by
  intro S
  induction S with
  | nil =>
    intro rest n t o
    rw [decode_list_stopped _ _ _ _ (Or.inl (by simp))]
    simp [symbols_within]
  | cons c S ih =>
    intro rest n t o
    obtain ⟨h1, h2, h3⟩ := hc c.val c.isLt
    simp only [code_stream, List.append_assoc, symbols_within]
    by_cases hn : (code_bits (hcode c.val)).length ≤ n
    · rw [if_pos hn, List.take_append_eq_append_take, List.take_of_length_le hn]
      rw [decode_symbol ht _ _ 510 _ t o h1 h2 (by rw [h3]; exact c.isLt)
        (by simp only [List.length_cons]; omega)]
      rw [h3]
      cases S with
      | nil =>
        rw [if_pos (by simp)]
        rw [decode_list_stopped _ _ _ _ (Or.inl (by simp))]
        simp [symbols_within]
      | cons c2 S2 =>
        rw [if_neg (by simp only [List.length_cons]; omega)]
        have := ih rest (n - (code_bits (hcode c.val)).length) (t + 1) (o ++ [c.val])
        have e : t + 1 + (c2 :: S2).length = t + (c :: c2 :: S2).length := by
          simp only [List.length_cons]; omega
        rw [e] at this
        simpa [TSIZE_pred, List.append_assoc] using this
    · rw [if_neg hn, List.take_append_eq_append_take]
      have e0 : n - (code_bits (hcode c.val)).length = 0 := by omega
      rw [e0, List.take_zero, List.append_nil]
      have := decode_part ht ((t + (c :: S).length : Nat) : Int) _ 510 n t o h2 (by omega)
        (by simp only [List.length_cons]; omega)
      simpa using this

theorem code_stream_append (hcode : Nat → code_t) (S1 S2 : List (Fin 256)) :
    code_stream hcode (S1 ++ S2) = code_stream hcode S1 ++ code_stream hcode S2 := by
  induction S1 with
  | nil => rfl
  | cons c S ih =>
    rw [List.cons_append]
    simp only [code_stream]
    rw [ih, List.append_assoc]

/-- What `symbols_within` counts: the codes of that many bytes fit into
`n` bits, and the code of one byte more does not. -/
theorem symbols_within_spec (hcode : Nat → code_t) : ∀ (S : List (Fin 256)) (n : Nat),
    symbols_within hcode S n ≤ S.length
      ∧ (code_stream hcode (S.take (symbols_within hcode S n))).length ≤ n
      ∧ (symbols_within hcode S n < S.length →
          n < (code_stream hcode (S.take (symbols_within hcode S n + 1))).length) := by
  intro S
  induction S with
  | nil => intro n; simp [symbols_within, code_stream]
  | cons c S ih =>
    intro n
    simp only [symbols_within]
    by_cases hn : (code_bits (hcode c.val)).length ≤ n
    · rw [if_pos hn]
      obtain ⟨i1, i2, i3⟩ := ih (n - (code_bits (hcode c.val)).length)
      refine ⟨by simp only [List.length_cons]; omega, ?_, ?_⟩
      · simp only [List.take_succ_cons, code_stream, List.length_append]; omega
      · intro h
        simp only [List.length_cons] at h
        have := i3 (by omega)
        simp only [List.take_succ_cons, code_stream, List.length_append]; omega
    · rw [if_neg hn]
      refine ⟨Nat.zero_le _, by simp [code_stream], ?_⟩
      intro _
      simp only [Nat.zero_add, List.take_succ_cons, List.take_zero, code_stream,
        List.length_append, List.length_nil]
      omega

/-- The function `extract` on an archive as in `extract_codes` cut after
`n` bytes of payload: it writes the bytes of `S` whose codes lie completely
inside the payload bytes kept. -/
theorem extract_codes_take (cnt : Nat → Nat) (S : List (Fin 256)) (x : Nat)
    (hx : soff64 (x % 2 ^ 64) = (S.length : Int)) (rest : List Nat)
    (hrest : ∀ b ∈ rest, b ≤ 1) (n : Nat) :
    extract (HEADER ++ le_bytes 8 x ++ tree_table (built cnt) (TSIZE - 256)
        ++ (pack (code_stream (code_of (built cnt)) S ++ rest)).take n)
      = some (outcome.finished
          ((S.take (symbols_within (code_of (built cnt)) S (8 * n))).map Fin.val)) := by
  obtain ⟨ht, h1, h2⟩ := extract_archive x (built cnt) (built_child_small _)
    ((pack (code_stream (code_of (built cnt)) S ++ rest)).take n)
  rw [h2, hx]
  obtain ⟨pad, hp⟩ := bits_of_pack _
    (mem_append_le_one _ _ (code_stream_le_one (code_of (built cnt)) S) hrest)
  rw [bits_of_take, hp, List.append_assoc]
  have hd := decode_take ht (code_of (built cnt))
    (fun c hc => code_walk cnt ht h1 c hc) S (rest ++ pad) (8 * n) 0 []
  rw [Nat.zero_add] at hd
  rw [TSIZE_pred, hd.1, hd.2]
  simp

theorem take_header (n : Nat) (hn : 1032 ≤ n) (X Y : List Nat) (hX : X.length = 1032) :
    (X ++ Y).take n = X ++ Y.take (n - 1032) := by
  rw [List.take_append_eq_append_take, hX, List.take_of_length_le (by omega)]

/-- Truncation when the cell `htree[-1].k` lies apart from `buf` and
`hcode`: for every input `S` of fewer than `2 ^ 63` bytes and every cut of
the archive after `n ≥ 1032` bytes, `extract` signals no error and writes the
first bytes of `S`, as many as have their codes completely inside the
payload bytes kept. -/
theorem truncation_apart (oob : code_t) (S : List (Fin 256)) (n : Nat)
    (hlen : S.length < 2 ^ 63) (hn : 1032 ≤ n) :
    ∃ A, compress oob_cell.apart oob S = some A
      ∧ extract (A.take n) = some (outcome.finished
          ((S.take (symbols_within (code_of (built (input_counts S))) S
            (8 * (n - 1032)))).map Fin.val)) := by
  refine ⟨_, compress_eq oob S, ?_⟩
  rw [take_header n hn _ _ (header_length S _)]
  exact extract_codes_take _ S _ (ftell_soff64 S hlen) _ (code_bits_le_one _) _

end Haffman

namespace Haffman

/-! ## Block flushing -/

/-- Unpacking a packed bit list gives the list back followed by fewer than
eight zero bits. -/
theorem bits_of_pack_pad (all : List Nat) (hall : ∀ x ∈ all, x ≤ 1) :
    bits_of (pack all)
      = all ++ List.replicate (8 * ((all.length + 7) / 8) - all.length) 0 := by
  apply List.ext_getElem
  · rw [bits_of_length, pack_length, List.length_append, List.length_replicate]; omega
  · intro i h1 h2
    simp only [bits_of, List.getElem_map, List.getElem_range]
    rw [pack_getD, pack_byte_bit all hall _ _ (Nat.mod_lt _ (by decide))]
    have e : 8 * (i / 8) + i % 8 = i := by omega
    rw [e]
    by_cases hi : i < all.length
    · rw [List.getD_eq_getElem _ _ hi, List.getElem_append_left hi]
    · rw [List.getD_eq_default _ _ (by omega), List.getElem_append_right (by omega),
        List.getElem_replicate]

theorem unbounded_payload_eq (bits : List Nat) (hbits : ∀ x ∈ bits, x ≤ 1) :
    unbounded_payload bits = pack bits := by
  have hw := write_bits_pack bits [] (fun _ => 0) (by simp) hbits
    (fun j => (pack_byte_nil j).symm)
  simp only [List.length_nil, cursor_at_zero, List.nil_append, Nat.zero_add] at hw
  obtain ⟨hw1, hw2⟩ := hw
  unfold unbounded_payload pack
  rw [hw2]
  simp only [cursor_at]
  have e : (if bits.length % 8 > 0 then bits.length / 8 + 1 else bits.length / 8)
      = (bits.length + 7) / 8 := by split <;> omega
  rw [e]
  exact List.map_congr_left (fun j _ => hw1 j)

/-- Block flushing on a zeroed block: for every block size `bs ≥ 1` the
payload written by the encode loop started on a zeroed block is the payload
obtained by packing the whole bit stream of the loop into one unbounded
zero-filled buffer; read back bit by bit it is that stream, in order,
followed by fewer than eight zero bits. -/
theorem flush_zero_block (bs : Nat) (hbs : 1 ≤ bs) (hcode : Nat → code_t)
    (oob : code_t) (S : List (Fin 256)) :
    payload bs (fun _ => 0) hcode oob S
        = unbounded_payload (code_stream hcode S ++ code_bits oob)
      ∧ bits_of (payload bs (fun _ => 0) hcode oob S)
        = (code_stream hcode S ++ code_bits oob)
          ++ List.replicate (8 * (((code_stream hcode S ++ code_bits oob).length + 7) / 8)
              - (code_stream hcode S ++ code_bits oob).length) 0 := by
  have h1 := stream_le_one hcode oob S
  refine ⟨?_, ?_⟩
  · rw [payload_eq bs hbs, unbounded_payload_eq _ h1]
  · rw [payload_eq bs hbs, bits_of_pack_pad _ h1]

/-- In a linked tree the path of one leaf is not the beginning of the path
of another. -/
theorem path_not_initial (ht : Nat → node_t) (hl : linked ht) (a b : Nat) (ha : a < 256)
    (hb : b < 256) (hab : a ≠ b) (t : List Nat)
    (h : path_bits ht TSIZE b = path_bits ht TSIZE a ++ t) : False := by
  have wa := walk_path ht hl (510 - a) a (by omega) (Nat.le_refl _)
  have wb := walk_path ht hl (510 - b) b (by omega) (Nat.le_refl _)
  rw [h, walk_append, walk_nodes_append, wa.1] at wb
  cases t with
  | nil => exact hab wb.1
  | cons x xs =>
    have := wb.2 a (List.mem_append_right _ (by simp [walk_nodes]))
    omega

/-- C17. Prefix-free codes: for every table of 256 counts and every two
distinct symbols `a` and `b`, the code of `a` is not a prefix of the code of
`b`; in particular the two codes are different. -/
theorem C17_prefix_free (cnt : Nat → Nat) (a b : Nat) (ha : a < 256) (hb : b < 256)
    (hab : a ≠ b) :
    ∃ hcode, precalc (built cnt) 256 = some hcode
      ∧ (¬ ∃ t, code_bits (hcode b) = code_bits (hcode a) ++ t)
      ∧ code_bits (hcode a) ≠ code_bits (hcode b) := by
  have hl := built_linked cnt
  refine ⟨_, precalc_eq _ hl 256 (Nat.le_refl _), ?_, ?_⟩
  · simp only [if_pos ha, if_pos hb, code_bits_code_of]
    rintro ⟨t, ht⟩
    exact path_not_initial _ hl a b ha hb hab t ht
  · simp only [if_pos ha, if_pos hb, code_bits_code_of]
    intro h
    exact path_not_initial _ hl a b ha hb hab [] (by rw [List.append_nil]; exact h.symm)

/-- C17 for the symbols 0 and 255 of the all-zero table. -/
theorem C17_prefix_free_witness :
    ∃ hcode, precalc (built (fun _ => 0)) 256 = some hcode
      ∧ (¬ ∃ t, code_bits (hcode 255) = code_bits (hcode 0) ++ t)
      ∧ code_bits (hcode 0) ≠ code_bits (hcode 255) :=
  C17_prefix_free (fun _ => 0) 0 255 (by decide) (by decide) (by decide)

/-! ## Code length bound -/

/-- The path of an internal node has at most as many bits as there are
nodes of larger index. -/
theorem path_length_internal (ht : Nat → node_t) (hl : linked ht) : ∀ n v, 256 ≤ v →
    v ≤ 510 → 510 - v ≤ n → (path_bits ht TSIZE v).length ≤ 510 - v := by
  intro n
  induction n with
  | zero =>
    intro v _ h2 h3
    have e : v = 510 := by omega
    rw [e, path_bits_root]; exact Nat.le_refl _
  | succ n ih =>
    intro v h1 h2 h3
    by_cases e : v = 510
    · rw [e, path_bits_root]; exact Nat.zero_le _
    · have hp := hl.par v (by omega)
      rw [path_bits_step ht hl v (by omega), List.length_append, List.length_singleton]
      have := ih (ht v).p hp.1 hp.2.1 (by omega)
      omega

theorem path_length_leaf (ht : Nat → node_t) (hl : linked ht) (s : Nat) (hs : s < 256) :
    1 ≤ (path_bits ht TSIZE s).length ∧ (path_bits ht TSIZE s).length ≤ 255 := by
  have hp := hl.par s (by omega)
  rw [path_bits_step ht hl s (by omega), List.length_append, List.length_singleton]
  have := path_length_internal ht hl (510 - (ht s).p) (ht s).p hp.1 hp.2.1 (Nat.le_refl _)
  omega

theorem touched_bytes_eq : ∀ (n a : Nat),
    touched_bytes (cursor_at a) n = (List.range n).map (fun i => (a + i) / 8) := by
  intro n
  induction n with
  | zero => intro a; rfl
  | succ n ih =>
    intro a
    simp only [touched_bytes, advance_cursor_at, ih]
    rw [List.range_succ_eq_map]
    simp only [List.map_cons, List.map_map, Nat.add_zero, cursor_at]
    congr 1
    apply List.map_congr_left
    intro i _
    simp only [Function.comp, Nat.succ_eq_add_one]
    have e : a + 1 + i = a + (i + 1) := by omega
    rw [e]

/-- C15. Code length bound: for every table of 256 counts and every symbol
`s`, `hcode_rec` returns, with a length `k` between 1 and 255; the `k` calls
of `write_bit` it makes, and the `k` calls of `read_bit` of the encode loop,
dereference bytes 0..31 only, inside the 33 bytes of `code_t.c`, and the
bytes from 32 on stay zero. -/
theorem C15_code_length_bound (cnt : Nat → Nat) (s : Nat) (hs : s < 256) :
    ∃ r hcode, hcode_rec (built cnt) TSIZE s ⟨fun _ => 0, ⟨0, 0⟩, 0⟩ = some r
      ∧ precalc (built cnt) 256 = some hcode
      ∧ (hcode s).k = r.k ∧ (hcode s).c = r.c
      ∧ 1 ≤ r.k ∧ r.k ≤ 255
      ∧ r.cur = cursor_at r.k.toNat
      ∧ (∀ j ∈ touched_bytes ⟨0, 0⟩ r.k.toNat, j < 32)
      ∧ (read_bits r.c r.k.toNat ⟨0, 0⟩).2 = cursor_at r.k.toNat
      ∧ (∀ j, 32 ≤ j → r.c j = 0) := by
  have hl := built_linked cnt
  have hlen := path_length_leaf _ hl s hs
  have hb := path_bits_le_one (built cnt) TSIZE s
  have hw := write_bits_pack (path_bits (built cnt) TSIZE s) [] (fun _ => 0) (by simp) hb
    (fun j => (pack_byte_nil j).symm)
  simp only [List.length_nil, cursor_at_zero, List.nil_append, Nat.zero_add] at hw
  refine ⟨_, _, hcode_rec_eq _ hl TSIZE s _ (by omega) (by unfold TSIZE; omega),
    precalc_eq _ hl 256 (Nat.le_refl _), ?_, ?_, ?_, ?_, ?_, ?_, ?_, ?_⟩
  · simp only [if_pos hs, code_of, Int.zero_add]
  · simp only [if_pos hs, code_of]
  · simp only [Int.zero_add]; exact_mod_cast hlen.1
  · simp only [Int.zero_add]; exact_mod_cast hlen.2
  · simp only [Int.zero_add, Int.toNat_ofNat]; exact hw.2
  · simp only [Int.zero_add, Int.toNat_ofNat]
    intro j hj
    rw [← cursor_at_zero, touched_bytes_eq] at hj
    obtain ⟨i, hi, rfl⟩ := List.mem_map.1 hj
    have := List.mem_range.1 hi
    omega
  · simp only [Int.zero_add, Int.toNat_ofNat]
    have := read_bits_generic (write_bits (fun _ => 0) ⟨0, 0⟩ (path_bits (built cnt) TSIZE s)).1
      (path_bits (built cnt) TSIZE s).length 0
    rw [cursor_at_zero] at this
    rw [this, Nat.zero_add]
  · intro j hj
    simp only []
    rw [hw.1 j, pack_byte_beyond _ _ (by omega)]

/-- C15 for the symbol 200 of the all-zero table. -/
theorem C15_code_length_bound_witness :
    ∃ r hcode, hcode_rec (built (fun _ => 0)) TSIZE 200 ⟨fun _ => 0, ⟨0, 0⟩, 0⟩ = some r
      ∧ precalc (built (fun _ => 0)) 256 = some hcode
      ∧ (hcode 200).k = r.k ∧ (hcode 200).c = r.c
      ∧ 1 ≤ r.k ∧ r.k ≤ 255
      ∧ r.cur = cursor_at r.k.toNat
      ∧ (∀ j ∈ touched_bytes ⟨0, 0⟩ r.k.toNat, j < 32)
      ∧ (read_bits r.c r.k.toNat ⟨0, 0⟩).2 = cursor_at r.k.toNat
      ∧ (∀ j, 32 ≤ j → r.c j = 0) :=
  C15_code_length_bound (fun _ => 0) 200 (by decide)

end Haffman

namespace Haffman

/-! ## The builder step by step -/

theorem build_state_succ (cnt : Nat → Nat) (n : Nat) :
    build_state cnt (n + 1) = build_step (256 + n) (build_state cnt n) := rfl

theorem build_state_final (cnt : Nat → Nat) : (build_state cnt 255).htree = built cnt := rfl

theorem build_state_tree_inv (cnt : Nat → Nat) (n : Nat) (hn : n ≤ 255) :
    tree_inv (table_htree cnt) n (build_state cnt n) := tree_inv_loop _ n hn

theorem build_state_two (cnt : Nat → Nat) (n : Nat) (hn : n < 255) :
    ∃ l r m2, (build_state cnt n).mintree = l :: r :: m2 :=
  tree_inv_two _ n _ hn (build_state_tree_inv cnt n (by omega))

/-- Later passes of the builder loop leave alone what earlier passes have
settled: the weights of the nodes that exist, the parents of the nodes that
have left the set, and the children of the nodes built; and a node of the
set either stays in it or gets a parent of larger index. -/
theorem build_state_frame (cnt : Nat → Nat) (n : Nat) : ∀ d, n + d ≤ 255 →
    (∀ x, x < 256 + n →
        ((build_state cnt (n + d)).htree x).k = ((build_state cnt n).htree x).k)
    ∧ (∀ x, x < 256 + n → x ∉ (build_state cnt n).mintree →
        x ∉ (build_state cnt (n + d)).mintree
        ∧ ((build_state cnt (n + d)).htree x).p = ((build_state cnt n).htree x).p)
    ∧ (∀ j, 256 ≤ j → j < 256 + n →
        ((build_state cnt (n + d)).htree j).l = ((build_state cnt n).htree j).l
        ∧ ((build_state cnt (n + d)).htree j).r = ((build_state cnt n).htree j).r)
    ∧ (∀ x, x ∈ (build_state cnt n).mintree →
        x ∈ (build_state cnt (n + d)).mintree
        ∨ 256 + n ≤ ((build_state cnt (n + d)).htree x).p) := by
  intro d
  induction d with
  | zero =>
    intro _
    exact ⟨fun _ _ => rfl, fun _ _ h => ⟨h, rfl⟩, fun _ _ _ => ⟨rfl, rfl⟩, fun _ h => Or.inl h⟩
  | succ d ih =>
    intro hd
    obtain ⟨i1, i2, i3, i4⟩ := ih (by omega)
    obtain ⟨l, r, m2, hmt⟩ := build_state_two cnt (n + d) (by omega)
    have inv := build_state_tree_inv cnt (n + d) (by omega)
    obtain ⟨hk, -, hL, -, hR, -, hP, hPl, hPr, hmem, -⟩ :=
      build_step_facts (256 + (n + d)) l r m2 (build_state cnt (n + d)) hmt
    have hin : ∀ x, x ∈ (build_state cnt (n + d)).mintree ↔ x = l ∨ x = r ∨ x ∈ m2 := by
      intro x; rw [hmt]; simp
    have e : n + (d + 1) = (n + d) + 1 := rfl
    rw [e, build_state_succ]
    refine ⟨?_, ?_, ?_, ?_⟩
    · intro x hx
      rw [hk x (by omega)]; exact i1 x hx
    · intro x hx hnx
      obtain ⟨a1, a2⟩ := i2 x hx hnx
      have a3 := (not_congr (hin x)).1 a1
      simp only [not_or] at a3
      refine ⟨?_, ?_⟩
      · intro h
        rcases (hmem x).1 h with h | h
        · omega
        · exact a3.2.2 h
      · rw [hP x a3.1 a3.2.1]; exact a2
    · intro j h1 h2
      rw [hL j (by omega), hR j (by omega)]
      exact i3 j h1 h2
    · intro x hx
      rcases i4 x hx with h | h
      · rcases (hin x).1 h with h1 | h1 | h1
        · right; rw [h1, hPl]; omega
        · right; rw [h1, hPr]; omega
        · left; exact (hmem x).2 (Or.inr h1)
      · have hx1 : x ∉ (build_state cnt (n + d)).mintree := by
          intro hx2
          have := inv.pkeep x (Or.inl hx2)
          have hx3 := inv.mem_lt x hx2
          rw [this] at h
          simp only [table_htree, init_htree, TSIZE_pred] at h
          split at h <;> omega
        have a3 := (not_congr (hin x)).1 hx1
        simp only [not_or] at a3
        right
        rw [hP x a3.1 a3.2.1]; exact h

/-- The state when node `256 + n` is about to be built, seen from the
finished tree: the weights are the final ones, the set holds the nodes of
smaller index whose parent has index `256 + n` or more, and its two first
elements are the children of node `256 + n`. -/
theorem build_state_final_view (cnt : Nat → Nat) (n : Nat) (hn : n < 255) :
    (∀ x, x < 256 + n → ((build_state cnt n).htree x).k = (built cnt x).k)
    ∧ (∀ x, x ∈ (build_state cnt n).mintree ↔ (x < 256 + n ∧ 256 + n ≤ (built cnt x).p))
    ∧ (∃ m2, (build_state cnt n).mintree
        = (built cnt (256 + n)).l :: (built cnt (256 + n)).r :: m2) := by
  obtain ⟨f1, f2, -, f4⟩ := build_state_frame cnt n (255 - n) (by omega)
  have e : n + (255 - n) = 255 := by omega
  rw [e, build_state_final] at f1 f2 f4
  have hm : (build_state cnt 255).mintree = [510] := build_mintree (table_htree cnt)
  rw [hm] at f2 f4
  have inv := build_state_tree_inv cnt n (by omega)
  refine ⟨fun x hx => (f1 x hx).symm, ?_, ?_⟩
  · intro x
    constructor
    · intro hx
      have hlt := inv.mem_lt x hx
      refine ⟨hlt, ?_⟩
      rcases f4 x hx with h | h
      · simp only [List.mem_singleton] at h; omega
      · exact h
    · rintro ⟨h1, h2⟩
      by_contra hx
      have := (f2 x h1 hx).2
      have hp := (inv.par x h1 hx).2.1
      omega
  · obtain ⟨l, r, m2, hmt⟩ := build_state_two cnt n hn
    obtain ⟨-, -, -, hLi, -, hRi, -, -, -, -, -⟩ :=
      build_step_facts (256 + n) l r m2 (build_state cnt n) hmt
    obtain ⟨-, -, g3, -⟩ := build_state_frame cnt (n + 1) (254 - n) (by omega)
    have e2 : n + 1 + (254 - n) = 255 := by omega
    rw [e2, build_state_final] at g3
    obtain ⟨gl, gr⟩ := g3 (256 + n) (by omega) (by omega)
    rw [build_state_succ, hLi] at gl
    rw [build_state_succ, hRi] at gr
    exact ⟨m2, by rw [gl, gr]; exact hmt⟩

end Haffman

namespace Haffman

/-! ## Greedy selection -/

theorem greedy_inv_init (h0 : Nat → node_t) : greedy_inv 0 ⟨h0, fill_set h0 256⟩ :=
  ⟨fun j h1 h2 => by omega, fun j h1 h2 => by omega, fun j h1 h2 => by omega⟩

theorem greedy_inv_step (h0 : Nat → node_t) (n : Nat) (s : tree_state) (hn : n < 255)
    (inv : tree_inv h0 n s) (g : greedy_inv n s) :
    greedy_inv (n + 1) (build_step (256 + n) s) := by
  obtain ⟨l, r, m2, hmt⟩ := tree_inv_two h0 n s hn inv
  obtain ⟨hk, -, hL, hLi, hR, hRi, hP, hPl, hPr, hmem, -⟩ :=
    build_step_facts (256 + n) l r m2 s hmt
  have hsorted := inv.sorted
  rw [hmt] at hsorted
  obtain ⟨hl_all, hsorted2⟩ := List.pairwise_cons.1 hsorted
  obtain ⟨hr_all, _⟩ := List.pairwise_cons.1 hsorted2
  have hlr : klt s.htree l r := hl_all r (List.mem_cons_self _ _)
  have hlm : ∀ y ∈ m2, klt s.htree l y := fun y hy => hl_all y (List.mem_cons_of_mem _ hy)
  have hl : l < 256 + n := inv.mem_lt l (by rw [hmt]; simp)
  have hr : r < 256 + n := inv.mem_lt r (by rw [hmt]; simp)
  have hin : ∀ x, x ∈ s.mintree ↔ x = l ∨ x = r ∨ x ∈ m2 := by
    intro x; rw [hmt]; simp
  have hklt : ∀ a b, a ≠ 256 + n → b ≠ 256 + n →
      (klt (build_step (256 + n) s).htree a b ↔ klt s.htree a b) :=
    fun a b ha hb => klt_congr _ _ a b (hk a ha) (hk b hb)
  -- a node without parent after the pass had none before it
  have hback : ∀ j x, j ≤ 256 + n → x < j →
      (x ∈ (build_step (256 + n) s).mintree ∨ j ≤ ((build_step (256 + n) s).htree x).p) →
      (x ∈ s.mintree ∨ j ≤ (s.htree x).p) := by
    intro j x hj hx h
    rcases h with h | h
    · rcases (hmem x).1 h with h1 | h1
      · omega
      · left; exact (hin x).2 (Or.inr (Or.inr h1))
    · by_cases h1 : x = l
      · left; exact (hin x).2 (Or.inl h1)
      by_cases h2 : x = r
      · left; exact (hin x).2 (Or.inr (Or.inl h2))
      rw [hP x h1 h2] at h
      right; exact h
  have hnow : ∀ x, x < 256 + n →
      (x ∈ (build_step (256 + n) s).mintree
        ∨ 256 + n ≤ ((build_step (256 + n) s).htree x).p) → x ∈ s.mintree := by
    intro x hx h
    rcases hback (256 + n) x (Nat.le_refl _) hx h with h1 | h1
    · exact h1
    · by_contra h2
      have := (inv.par x hx h2).2.1
      omega
  refine ⟨?_, ?_, ?_⟩
  · intro j h1 h2 x hx hc
    by_cases hj : j = 256 + n
    · subst hj
      rw [hLi]
      rcases (hin x).1 (hnow x hx hc) with h | h | h
      · exact Or.inl h
      · right; rw [h, hklt l r (by omega) (by omega)]; exact hlr
      · right; rw [hklt l x (by omega) (by omega)]; exact hlm x h
    · have kd := inv.kids j h1 (by omega)
      rw [hL j hj]
      rcases g.least j h1 (by omega) x hx (hback j x (by omega) hx hc) with h | h
      · exact Or.inl h
      · right; rw [hklt _ _ (by omega) (by omega)]; exact h
  · intro j h1 h2 x hx hc hxl
    by_cases hj : j = 256 + n
    · subst hj
      rw [hLi] at hxl
      rw [hRi]
      rcases (hin x).1 (hnow x hx hc) with h | h | h
      · exact absurd h hxl
      · exact Or.inl h
      · right; rw [hklt r x (by omega) (by omega)]; exact hr_all x h
    · have kd := inv.kids j h1 (by omega)
      rw [hL j hj] at hxl
      rw [hR j hj]
      rcases g.second j h1 (by omega) x hx (hback j x (by omega) hx hc) hxl with h | h
      · exact Or.inl h
      · right; rw [hklt _ _ (by omega) (by omega)]; exact h
  · intro j h1 h2
    by_cases hj : j = 256 + n
    · subst hj
      rw [hLi, hRi, hklt l r (by omega) (by omega)]; exact hlr
    · have kd := inv.kids j h1 (by omega)
      rw [hL j hj, hR j hj, hklt _ _ (by omega) (by omega)]
      exact g.lr j h1 (by omega)

theorem greedy_inv_loop (h0 : Nat → node_t) (n : Nat) (hn : n ≤ 255) :
    greedy_inv n (build_loop n ⟨h0, fill_set h0 256⟩) := by
  induction n with
  | zero => exact greedy_inv_init h0
  | succ n ih =>
    exact greedy_inv_step h0 n _ (by omega) (tree_inv_loop h0 n (by omega)) (ih (by omega))

/-- In the finished tree the left child of every internal node comes
before its right child in comparator order. -/
theorem built_children_order (cnt : Nat → Nat) (j : Nat) (h1 : 256 ≤ j) (h2 : j ≤ 510) :
    klt (built cnt) (built cnt j).l (built cnt j).r :=
  (greedy_inv_loop (table_htree cnt) 255 (Nat.le_refl _)).lr j h1 (by omega)

/-- C13. Greedy selection: for every table of 256 counts and every `i` in
256..510, when node `i` is about to be built the priority set holds exactly
the nodes of index below `i` that get their parent at `i` or later, it is in
`setcomp` order over weights that are already the final ones, its first
element becomes the left child of `i` and its second the right child: the
left child is the minimum of the set under (weight, then index) and the
right child the minimum of the rest. -/
theorem C13_greedy_selection (cnt : Nat → Nat) (i : Nat) (h1 : 256 ≤ i) (h2 : i ≤ 510) :
    (∀ x, x ∈ (build_state cnt (i - 256)).mintree ↔ (x < i ∧ i ≤ (built cnt x).p))
    ∧ (build_state cnt (i - 256)).mintree.Pairwise (klt (build_state cnt (i - 256)).htree)
    ∧ (∀ x ∈ (build_state cnt (i - 256)).mintree,
        ((build_state cnt (i - 256)).htree x).k = (built cnt x).k)
    ∧ (∃ m2, (build_state cnt (i - 256)).mintree = (built cnt i).l :: (built cnt i).r :: m2)
    ∧ (built cnt i).l ≠ (built cnt i).r
    ∧ (∀ x ∈ (build_state cnt (i - 256)).mintree,
        x = (built cnt i).l ∨ klt (built cnt) (built cnt i).l x)
    ∧ (∀ x ∈ (build_state cnt (i - 256)).mintree, x ≠ (built cnt i).l →
        x = (built cnt i).r ∨ klt (built cnt) (built cnt i).r x) := by
  have hi : 256 + (i - 256) = i := by omega
  obtain ⟨v1, v2, v3⟩ := build_state_final_view cnt (i - 256) (by omega)
  rw [hi] at v1 v2 v3
  have inv := build_state_tree_inv cnt (i - 256) (by omega)
  have g := greedy_inv_loop (table_htree cnt) 255 (Nat.le_refl _)
  have hk := (built_linked cnt).kids i h1 h2
  refine ⟨v2, inv.sorted, ?_, v3, hk.2.2.1, ?_, ?_⟩
  · intro x hx
    exact v1 x ((v2 x).1 hx).1
  · intro x hx
    have hx2 := (v2 x).1 hx
    exact g.least i h1 (by omega) x hx2.1 (Or.inr hx2.2)
  · intro x hx hxl
    have hx2 := (v2 x).1 hx
    exact g.second i h1 (by omega) x hx2.1 (Or.inr hx2.2) hxl

/-- C13 for the last node, 510, of the all-zero table. -/
theorem C13_greedy_selection_witness :
    (∀ x, x ∈ (build_state (fun _ => 0) (510 - 256)).mintree
        ↔ (x < 510 ∧ 510 ≤ (built (fun _ => 0) x).p))
    ∧ (build_state (fun _ => 0) (510 - 256)).mintree.Pairwise
        (klt (build_state (fun _ => 0) (510 - 256)).htree)
    ∧ (∀ x ∈ (build_state (fun _ => 0) (510 - 256)).mintree,
        ((build_state (fun _ => 0) (510 - 256)).htree x).k = (built (fun _ => 0) x).k)
    ∧ (∃ m2, (build_state (fun _ => 0) (510 - 256)).mintree
        = (built (fun _ => 0) 510).l :: (built (fun _ => 0) 510).r :: m2)
    ∧ (built (fun _ => 0) 510).l ≠ (built (fun _ => 0) 510).r
    ∧ (∀ x ∈ (build_state (fun _ => 0) (510 - 256)).mintree,
        x = (built (fun _ => 0) 510).l
          ∨ klt (built (fun _ => 0)) (built (fun _ => 0) 510).l x)
    ∧ (∀ x ∈ (build_state (fun _ => 0) (510 - 256)).mintree,
        x ≠ (built (fun _ => 0) 510).l →
        x = (built (fun _ => 0) 510).r
          ∨ klt (built (fun _ => 0)) (built (fun _ => 0) 510).r x) :=
  C13_greedy_selection (fun _ => 0) 510 (by decide) (by decide)

/-! ## Merged weights -/

/-- C18. Merged weights are monotone: when the counts add up to less than
`2 ^ 64`, the weight of internal node `i` is at most that of node `i + 1`
for every `i` in 256..509, and internal nodes leave the priority set in
index order: of two internal nodes `i < j` below 510 the parent of `i` has
an index not above that of the parent of `j`, and with the same parent `i`
is its left and `j` its right child. -/
theorem C18_merged_weights_monotone (cnt : Nat → Nat) (htot : total_count cnt < 2 ^ 64) :
    (∀ i, 256 ≤ i → i ≤ 509 → (built cnt i).k ≤ (built cnt (i + 1)).k)
    ∧ (∀ i j, 256 ≤ i → i < j → j < 510 →
        (built cnt i).p ≤ (built cnt j).p
        ∧ ((built cnt i).p = (built cnt j).p →
            (built cnt (built cnt i).p).l = i ∧ (built cnt (built cnt j).p).r = j)) := by
  have w := weight_inv_built cnt htot
  have hl := built_linked cnt
  refine ⟨?_, ?_⟩
  · intro i h1 h2
    exact w.kmono i (i + 1) h1 (by omega) (by omega)
  · intro i j h1 h2 h3
    refine ⟨built_internal_mono cnt htot i j h1 (by omega) h3, ?_⟩
    intro hp
    have hk : klt (built cnt) i j := by
      have := w.kmono i j h1 (by omega) (by omega)
      unfold klt
      unfold built at *
      omega
    have pi := hl.par i (by omega)
    have pj := hl.par j (by omega)
    have ho := built_children_order cnt (built cnt i).p pi.1 pi.2.1
    rcases pi.2.2.2 with a | a
    · refine ⟨a, ?_⟩
      rcases pj.2.2.2 with b | b
      · rw [← hp, a] at b; omega
      · exact b
    · exfalso
      rcases pj.2.2.2 with b | b
      · rw [← hp] at b
        rw [a, b] at ho
        exact klt_asymm _ hk ho
      · rw [← hp, a] at b; omega

/-- C18 for the table of the input "aaaabbbccd". -/
theorem C18_merged_weights_monotone_witness :
    (∀ i, 256 ≤ i → i ≤ 509 →
        (built (fun x => ([97, 97, 97, 97, 98, 98, 98, 99, 99, 100] : List Nat).count x) i).k
          ≤ (built (fun x => ([97, 97, 97, 97, 98, 98, 98, 99, 99, 100] : List Nat).count x)
              (i + 1)).k)
    ∧ (∀ i j, 256 ≤ i → i < j → j < 510 →
        (built (fun x => ([97, 97, 97, 97, 98, 98, 98, 99, 99, 100] : List Nat).count x) i).p
          ≤ (built (fun x => ([97, 97, 97, 97, 98, 98, 98, 99, 99, 100] : List Nat).count x) j).p
        ∧ ((built (fun x => ([97, 97, 97, 97, 98, 98, 98, 99, 99, 100] : List Nat).count x) i).p
            = (built (fun x => ([97, 97, 97, 97, 98, 98, 98, 99, 99, 100] : List Nat).count x)
                j).p →
            (built (fun x => ([97, 97, 97, 97, 98, 98, 98, 99, 99, 100] : List Nat).count x)
              (built (fun x => ([97, 97, 97, 97, 98, 98, 98, 99, 99, 100] : List Nat).count x)
                i).p).l = i
            ∧ (built (fun x => ([97, 97, 97, 97, 98, 98, 98, 99, 99, 100] : List Nat).count x)
              (built (fun x => ([97, 97, 97, 97, 98, 98, 98, 99, 99, 100] : List Nat).count x)
                j).p).r = j)) :=
  C18_merged_weights_monotone _ aaaabbbccd_total

end Haffman

namespace Haffman

/-! ## Weights are subtree sums -/

theorem indicator_sum (c : Nat) : ∀ n,
    ((List.range n).map (fun b => if c = b then 1 else 0)).sum = if c < n then 1 else 0 := by
  intro n
  induction n with
  | zero => simp
  | succ n ih =>
    rw [List.range_succ, List.map_append, List.sum_append, ih]
    simp only [List.map_cons, List.map_nil, List.sum_cons, List.sum_nil, Nat.add_zero]
    by_cases h1 : c < n
    · rw [if_pos h1, if_neg (by omega), if_pos (by omega)]
    · rw [if_neg h1]
      by_cases h2 : c = n
      · rw [if_pos h2, if_pos (by omega)]
      · rw [if_neg h2, if_neg (by omega)]

/-- The counts of an input add up to its length. -/
theorem total_count_input (S : List (Fin 256)) : total_count (input_counts S) = S.length := by
  induction S with
  | nil =>
    have e : input_counts [] = fun _ => 0 := by funext b; simp [input_counts]
    unfold total_count
    rw [e]
    apply List.sum_eq_zero
    intro x hx
    obtain ⟨_, _, h⟩ := List.mem_map.1 hx
    exact h.symm
  | cons c S ih =>
    unfold total_count input_counts at ih ⊢
    have e : (fun b => List.count b (List.map Fin.val (c :: S)))
        = (fun b => List.count b (List.map Fin.val S) + (if c.val = b then 1 else 0)) := by
      funext b
      simp only [List.map_cons, List.count_cons, beq_iff_eq]
    rw [e, List.sum_map_add, ih, indicator_sum, if_pos c.isLt, List.length_cons]

theorem table_k_eq (cnt : Nat → Nat) (htot : total_count cnt < 2 ^ 64) :
    ((List.range 256).map (fun x => (table_htree cnt x).k)).sum = total_count cnt := by
  unfold total_count
  congr 1
  apply List.map_congr_left
  intro x hx
  have hx2 := List.mem_range.1 hx
  have := count_le_total cnt x hx2
  simp only [table_htree, if_pos hx2]
  exact Nat.mod_eq_of_lt (by omega)

/-- Without wraparound the weight of the root is the sum of the counts. -/
theorem built_root_weight (cnt : Nat → Nat) (htot : total_count cnt < 2 ^ 64) :
    (built cnt 510).k = total_count cnt := by
  have w := (weight_inv_built cnt htot).sum
  rw [build_mintree, table_k_eq cnt htot] at w
  simpa using w

theorem built_leaf_weight (cnt : Nat → Nat) (htot : total_count cnt < 2 ^ 64) (s : Nat)
    (hs : s < 256) : (built cnt s).k = cnt s := by
  rw [built_leaf_k cnt s hs]
  have := count_le_total cnt s hs
  exact Nat.mod_eq_of_lt (by omega)

theorem built_weight_sum (cnt : Nat → Nat) (htot : total_count cnt < 2 ^ 64) (j : Nat)
    (h1 : 256 ≤ j) (h2 : j ≤ 510) :
    (built cnt j).k = (built cnt (built cnt j).l).k + (built cnt (built cnt j).r).k :=
  (weight_inv_built cnt htot).ksum j h1 (by omega)

/-- Without wraparound the weight of a node is the sum of the counts of
the leaves below it. -/
theorem built_subtree_count (cnt : Nat → Nat) (htot : total_count cnt < 2 ^ 64) :
    ∀ n v, v ≤ 510 → v < n → (built cnt v).k = subtree_count (built cnt) cnt n v := by
  intro n
  induction n with
  | zero => intro v _ h; omega
  | succ n ih =>
    intro v hv hn
    simp only [subtree_count]
    by_cases h : v < 256
    · rw [if_pos h]; exact built_leaf_weight cnt htot v h
    · rw [if_neg h]
      have hk := (built_linked cnt).kids v (by omega) hv
      rw [built_weight_sum cnt htot v (by omega) hv,
        ih _ (by omega) (by omega), ih _ (by omega) (by omega)]

/-- C14. Weights are subtree sums: for every input of fewer than `2 ^ 64`
bytes, in the tree `compress` builds every internal node has exactly the sum
of the weights of its two children (a sum below `2 ^ 64`, so no wraparound),
every node has the sum of the counts of the leaves below it, every leaf has
the number of occurrences of its byte, and the root has the length of the
input. -/
theorem C14_weights_are_subtree_sums (S : List (Fin 256)) (hlen : S.length < 2 ^ 64) :
    (∀ i, 256 ≤ i → i ≤ 510 →
        ((build (counted_htree S)).htree i).k
          = ((build (counted_htree S)).htree ((build (counted_htree S)).htree i).l).k
            + ((build (counted_htree S)).htree ((build (counted_htree S)).htree i).r).k
        ∧ ((build (counted_htree S)).htree ((build (counted_htree S)).htree i).l).k
            + ((build (counted_htree S)).htree ((build (counted_htree S)).htree i).r).k
          < 2 ^ 64)
    ∧ (∀ v, v ≤ 510 →
        ((build (counted_htree S)).htree v).k
          = subtree_count (build (counted_htree S)).htree (input_counts S) TSIZE v)
    ∧ (∀ s, s < 256 → ((build (counted_htree S)).htree s).k = (S.map Fin.val).count s)
    ∧ ((build (counted_htree S)).htree 510).k = S.length := by
  rw [compress_tree_eq]
  have htot : total_count (input_counts S) < 2 ^ 64 := by rw [total_count_input]; exact hlen
  have hroot := built_root_weight _ htot
  rw [total_count_input] at hroot
  have w := weight_inv_built _ htot
  refine ⟨?_, ?_, ?_, hroot⟩
  · intro i h1 h2
    have hs := built_weight_sum _ htot i h1 h2
    refine ⟨hs, ?_⟩
    rw [← hs]
    have := w.kmono i 510 h1 h2 (by omega)
    have e : ((build (table_htree (input_counts S))).htree 510).k = S.length := hroot
    rw [e] at this
    exact Nat.lt_of_le_of_lt this hlen
  · intro v hv
    exact built_subtree_count _ htot TSIZE v hv (by unfold TSIZE; omega)
  · intro s hs
    exact built_leaf_weight _ htot s hs

/-- C14 at the input "aaaabbbccd". -/
theorem C14_weights_are_subtree_sums_witness :
    (∀ i, 256 ≤ i → i ≤ 510 →
        ((build (counted_htree [97, 97, 97, 97, 98, 98, 98, 99, 99, 100])).htree i).k
          = ((build (counted_htree [97, 97, 97, 97, 98, 98, 98, 99, 99, 100])).htree
              ((build (counted_htree [97, 97, 97, 97, 98, 98, 98, 99, 99, 100])).htree i).l).k
            + ((build (counted_htree [97, 97, 97, 97, 98, 98, 98, 99, 99, 100])).htree
              ((build (counted_htree [97, 97, 97, 97, 98, 98, 98, 99, 99, 100])).htree i).r).k
        ∧ ((build (counted_htree [97, 97, 97, 97, 98, 98, 98, 99, 99, 100])).htree
              ((build (counted_htree [97, 97, 97, 97, 98, 98, 98, 99, 99, 100])).htree i).l).k
            + ((build (counted_htree [97, 97, 97, 97, 98, 98, 98, 99, 99, 100])).htree
              ((build (counted_htree [97, 97, 97, 97, 98, 98, 98, 99, 99, 100])).htree i).r).k
          < 2 ^ 64)
    ∧ (∀ v, v ≤ 510 →
        ((build (counted_htree [97, 97, 97, 97, 98, 98, 98, 99, 99, 100])).htree v).k
          = subtree_count (build (counted_htree [97, 97, 97, 97, 98, 98, 98, 99, 99, 100])).htree
              (input_counts [97, 97, 97, 97, 98, 98, 98, 99, 99, 100]) TSIZE v)
    ∧ (∀ s, s < 256 →
        ((build (counted_htree [97, 97, 97, 97, 98, 98, 98, 99, 99, 100])).htree s).k
          = (([97, 97, 97, 97, 98, 98, 98, 99, 99, 100] : List (Fin 256)).map Fin.val).count s)
    ∧ ((build (counted_htree [97, 97, 97, 97, 98, 98, 98, 99, 99, 100])).htree 510).k
        = ([97, 97, 97, 97, 98, 98, 98, 99, 99, 100] : List (Fin 256)).length :=
  C14_weights_are_subtree_sums [97, 97, 97, 97, 98, 98, 98, 99, 99, 100] (by decide)

end Haffman

namespace Haffman

/-! ## The flat table -/

theorem flat_mult_cases (x : Nat) :
    (x < 256 ∧ flat_mult x = 1) ∨ (256 ≤ x ∧ x < 384 ∧ flat_mult x = 2)
      ∨ (384 ≤ x ∧ x < 448 ∧ flat_mult x = 4) ∨ (448 ≤ x ∧ x < 480 ∧ flat_mult x = 8)
      ∨ (480 ≤ x ∧ x < 496 ∧ flat_mult x = 16) ∨ (496 ≤ x ∧ x < 504 ∧ flat_mult x = 32)
      ∨ (504 ≤ x ∧ x < 508 ∧ flat_mult x = 64) ∨ (508 ≤ x ∧ x < 510 ∧ flat_mult x = 128)
      ∨ (510 ≤ x ∧ flat_mult x = 256) := by
  unfold flat_mult
  split_ifs <;> omega

theorem flat_mult_mono (x y : Nat) (h : x ≤ y) : flat_mult x ≤ flat_mult y := by
  have hx := flat_mult_cases x
  have hy := flat_mult_cases y
  omega

theorem flat_mult_le (x : Nat) : flat_mult x ≤ 256 := by
  have hx := flat_mult_cases x
  omega

set_option maxRecDepth 100000 in
theorem flat_mult_sum : ∀ n, n < 255 →
    flat_mult (256 + n) = flat_mult (2 * n) + flat_mult (2 * n + 1) := by
  decide

theorem flat_mult_leaf (x : Nat) (h : x < 256) : flat_mult x = 1 := by
  unfold flat_mult; rw [if_pos h]

/-- An element that comes after every element of the set is inserted at the
end. -/
theorem set_insert_last (ht : Nat → node_t) (x : Nat) : ∀ (m : List Nat),
    (∀ y ∈ m, klt ht y x) → set_insert ht x m = m ++ [x] := by
  intro m
  induction m with
  | nil => intro _; rfl
  | cons z zs ih =>
    intro h
    have hz := h z (List.mem_cons_self _ _)
    have h1 : ¬ setcomp ht x z = true := fun e => klt_asymm ht hz ((setcomp_iff _ _ _).1 e)
    have h2 : setcomp ht z x = true := (setcomp_iff _ _ _).2 hz
    simp only [set_insert]
    rw [if_neg h1, if_pos h2, ih (fun y hy => h y (List.mem_cons_of_mem _ hy))]
    rfl

theorem fill_set_flat (ht : Nat → node_t) (c : Nat) : ∀ n,
    (∀ x, x < n → (ht x).k = c) → fill_set ht n = List.range n := by
  intro n
  induction n with
  | zero => intro _; rfl
  | succ n ih =>
    intro h
    have e := ih (fun x hx => h x (by omega))
    simp only [fill_set]
    rw [e, List.range_succ]
    apply set_insert_last
    intro y hy
    have hy2 := List.mem_range.1 hy
    right
    exact ⟨by rw [h y (by omega), h n (by omega)], hy2⟩

theorem build_state_zero (cnt : Nat → Nat) :
    build_state cnt 0 = ⟨table_htree cnt, fill_set (table_htree cnt) 256⟩ := by
  simp only [build_state, build_loop]

theorem flat_inv_init (cnt : Nat → Nat) (c : Nat) (hc : c < 2 ^ 56)
    (hflat : ∀ i, i < 256 → cnt i = c) : flat_inv c 0 (build_state cnt 0) := by
  have hk : ∀ x, x < 256 → (table_htree cnt x).k = c := by
    intro x hx
    simp only [table_htree, if_pos hx, hflat x hx]
    exact Nat.mod_eq_of_lt (by omega)
  refine ⟨?_, ?_, ?_⟩
  · rw [build_state_zero]
    simp only [fill_set_flat _ c 256 hk, Nat.mul_zero, Nat.sub_zero, List.range_eq_range']
  · intro x hx
    rw [build_state_zero]
    simp only [hk x (by omega), flat_mult_leaf x (by omega), Nat.mul_one]
  · intro j hj; omega

theorem flat_inv_step (c : Nat) (hc : c < 2 ^ 56) (n : Nat) (s : tree_state) (hn : n < 255)
    (f : flat_inv c n s) : flat_inv c (n + 1) (build_step (256 + n) s) := by
  have hmt : s.mintree = 2 * n :: (2 * n + 1) :: List.range' (2 * n + 2) (254 - n) := by
    rw [f.mt]
    have e : 256 - n = (254 - n) + 1 + 1 := by omega
    rw [e, List.range'_succ, List.range'_succ]
  obtain ⟨hk, hki, hL, hLi, hR, hRi, -, -, -, -, hmt2⟩ :=
    build_step_facts (256 + n) (2 * n) (2 * n + 1) _ s hmt
  have hnew : ((build_step (256 + n) s).htree (256 + n)).k = c * flat_mult (256 + n) := by
    rw [hki, f.wt _ (by omega), f.wt _ (by omega), flat_mult_sum n hn, Nat.mul_add]
    apply Nat.mod_eq_of_lt
    have h1 := flat_mult_sum n hn
    have h2 := flat_mult_le (256 + n)
    have h3 : c * (flat_mult (2 * n) + flat_mult (2 * n + 1)) ≤ c * 256 := by
      apply Nat.mul_le_mul_left; omega
    rw [Nat.mul_add] at h3
    omega
  have hwt : ∀ x, x < 256 + (n + 1) →
      ((build_step (256 + n) s).htree x).k = c * flat_mult x := by
    intro x hx
    by_cases e : x = 256 + n
    · rw [e]; exact hnew
    · rw [hk x e]; exact f.wt x (by omega)
  refine ⟨?_, hwt, ?_⟩
  · rw [hmt2, set_insert_last]
    · have e1 : 256 - (n + 1) = (254 - n) + 1 := by omega
      have e2 : 2 * (n + 1) = 2 * n + 2 := by omega
      rw [e1, e2, List.range'_concat]
      congr 2
      omega
    · intro y hy
      have hy2 := List.mem_range'_1.1 hy
      unfold klt
      rw [hwt y (by omega), hwt (256 + n) (by omega)]
      have := Nat.mul_le_mul_left c (flat_mult_mono y (256 + n) (by omega))
      omega
  · intro j hj
    by_cases e : j = n
    · rw [e, hLi, hRi]; exact ⟨rfl, rfl⟩
    · rw [hL _ (by omega), hR _ (by omega)]
      exact f.lr j (by omega)

theorem flat_inv_loop (cnt : Nat → Nat) (c : Nat) (hc : c < 2 ^ 56)
    (hflat : ∀ i, i < 256 → cnt i = c) : ∀ n, n ≤ 255 → flat_inv c n (build_state cnt n) := by
  intro n
  induction n with
  | zero => intro _; exact flat_inv_init cnt c hc hflat
  | succ n ih =>
    intro hn
    rw [build_state_succ]
    exact flat_inv_step c hc n _ (by omega) (ih (by omega))

/-- The tree of a flat table: node `256 + j` has the children `2 j` and
`2 j + 1`, and so node `x` has the parent `256 + x / 2`. -/
theorem flat_tree (cnt : Nat → Nat) (c : Nat) (hc : c < 2 ^ 56)
    (hflat : ∀ i, i < 256 → cnt i = c) :
    (∀ j, j < 255 → (built cnt (256 + j)).l = 2 * j ∧ (built cnt (256 + j)).r = 2 * j + 1)
    ∧ (∀ x, x < 510 → (built cnt x).p = 256 + x / 2) := by
  have f := flat_inv_loop cnt c hc hflat 255 (Nat.le_refl _)
  rw [← build_state_final]
  refine ⟨f.lr, ?_⟩
  intro x hx
  have hj := f.lr (x / 2) (by omega)
  have hk := (build_linked (table_htree cnt)).kids (256 + x / 2) (by omega) (by omega)
  have e : (build_state cnt 255).htree = (build (table_htree cnt)).htree := rfl
  rw [e] at hj ⊢
  rw [hj.1, hj.2] at hk
  by_cases h2 : x % 2 = 0
  · have e2 : 2 * (x / 2) = x := by omega
    rw [e2] at hk
    exact hk.2.2.2.1
  · have e2 : 2 * (x / 2) + 1 = x := by omega
    rw [e2] at hk
    exact hk.2.2.2.2

/-- In the tree of a flat table the path of a node is the path of node
`256 + x / 2` followed by the last binary digit of `x`. -/
theorem flat_path (cnt : Nat → Nat) (c : Nat) (hc : c < 2 ^ 56)
    (hflat : ∀ i, i < 256 → cnt i = c) (x : Nat) (hx : x < 510) :
    path_bits (built cnt) TSIZE x = path_bits (built cnt) TSIZE (256 + x / 2) ++ [x % 2] := by
  obtain ⟨t1, t2⟩ := flat_tree cnt c hc hflat
  rw [path_bits_step _ (built_linked cnt) x hx, t2 x hx, (t1 (x / 2) (by omega)).1]
  congr 2
  split <;> omega

/-- In the tree of a flat table the path of a leaf is the eight binary
digits of its index, the most significant first. -/
theorem flat_digits (cnt : Nat → Nat) (c : Nat) (hc : c < 2 ^ 56)
    (hflat : ∀ i, i < 256 → cnt i = c) (s : Nat) (hs : s < 256) :
    path_bits (built cnt) TSIZE s
      = [s / 128 % 2, s / 64 % 2, s / 32 % 2, s / 16 % 2, s / 8 % 2, s / 4 % 2,
          s / 2 % 2, s % 2] := by
  have p0 := flat_path cnt c hc hflat s (by omega)
  have p1 := flat_path cnt c hc hflat (256 + s / 2) (by omega)
  have p2 := flat_path cnt c hc hflat (384 + s / 4) (by omega)
  have p3 := flat_path cnt c hc hflat (448 + s / 8) (by omega)
  have p4 := flat_path cnt c hc hflat (480 + s / 16) (by omega)
  have p5 := flat_path cnt c hc hflat (496 + s / 32) (by omega)
  have p6 := flat_path cnt c hc hflat (504 + s / 64) (by omega)
  have p7 := flat_path cnt c hc hflat (508 + s / 128) (by omega)
  have e1 : 256 + (256 + s / 2) / 2 = 384 + s / 4 := by omega
  have e2 : 256 + (384 + s / 4) / 2 = 448 + s / 8 := by omega
  have e3 : 256 + (448 + s / 8) / 2 = 480 + s / 16 := by omega
  have e4 : 256 + (480 + s / 16) / 2 = 496 + s / 32 := by omega
  have e5 : 256 + (496 + s / 32) / 2 = 504 + s / 64 := by omega
  have e6 : 256 + (504 + s / 64) / 2 = 508 + s / 128 := by omega
  have e7 : 256 + (508 + s / 128) / 2 = 510 := by omega
  have b1 : (256 + s / 2) % 2 = s / 2 % 2 := by omega
  have b2 : (384 + s / 4) % 2 = s / 4 % 2 := by omega
  have b3 : (448 + s / 8) % 2 = s / 8 % 2 := by omega
  have b4 : (480 + s / 16) % 2 = s / 16 % 2 := by omega
  have b5 : (496 + s / 32) % 2 = s / 32 % 2 := by omega
  have b6 : (504 + s / 64) % 2 = s / 64 % 2 := by omega
  have b7 : (508 + s / 128) % 2 = s / 128 % 2 := by omega
  rw [e1, b1] at p1
  rw [e2, b2] at p2
  rw [e3, b3] at p3
  rw [e4, b4] at p4
  rw [e5, b5] at p5
  rw [e6, b6] at p6
  rw [e7, b7, path_bits_root] at p7
  rw [p0, p1, p2, p3, p4, p5, p6, p7]
  rfl

/-- C20. Flat distribution: when all 256 counts are equal to the same
`c < 2 ^ 56`, every symbol `s` gets a code of length 8 whose bits, in
root-to-leaf order, are the binary digits of `s` from the most significant
to the least significant; the parent of leaf `s` is node `256 + s / 2`, whose
left child it is exactly when `s` is even (and right child when odd). -/
theorem C20_flat_distribution (cnt : Nat → Nat) (c : Nat) (hc : c < 2 ^ 56)
    (hflat : ∀ i, i < 256 → cnt i = c) (s : Nat) (hs : s < 256) :
    ∃ hcode, precalc (built cnt) 256 = some hcode
      ∧ (hcode s).k = 8
      ∧ code_bits (hcode s)
        = [s / 128 % 2, s / 64 % 2, s / 32 % 2, s / 16 % 2, s / 8 % 2, s / 4 % 2,
            s / 2 % 2, s % 2]
      ∧ (built cnt s).p = 256 + s / 2
      ∧ ((built cnt (256 + s / 2)).l = s ↔ s % 2 = 0)
      ∧ ((built cnt (256 + s / 2)).r = s ↔ s % 2 = 1) := by
  have hl := built_linked cnt
  obtain ⟨t1, t2⟩ := flat_tree cnt c hc hflat
  have hp := flat_digits cnt c hc hflat s hs
  refine ⟨_, precalc_eq _ hl 256 (Nat.le_refl _), ?_, ?_, t2 s (by omega), ?_, ?_⟩
  · simp only [if_pos hs, code_of, hp]
    rfl
  · simp only [if_pos hs, code_bits_code_of, hp]
  · rw [(t1 (s / 2) (by omega)).1]; omega
  · rw [(t1 (s / 2) (by omega)).2]; omega

/-- C20 for the table of an input holding each byte value once and the
symbol 0xA5. -/
theorem C20_flat_distribution_witness :
    ∃ hcode, precalc (built (fun _ => 1)) 256 = some hcode
      ∧ (hcode 165).k = 8
      ∧ code_bits (hcode 165)
        = [165 / 128 % 2, 165 / 64 % 2, 165 / 32 % 2, 165 / 16 % 2, 165 / 8 % 2, 165 / 4 % 2,
            165 / 2 % 2, 165 % 2]
      ∧ (built (fun _ => 1) 165).p = 256 + 165 / 2
      ∧ ((built (fun _ => 1) (256 + 165 / 2)).l = 165 ↔ 165 % 2 = 0)
      ∧ ((built (fun _ => 1) (256 + 165 / 2)).r = 165 ↔ 165 % 2 = 1) :=
  C20_flat_distribution (fun _ => 1) 1 (by decide) (fun _ _ => rfl) 165 (by decide)

end Haffman

namespace Haffman

/-! ## Code lengths of prefix-free codes -/

/-- Kraft's inequality in integers: for a family of words none of which
begins another, all of length at most `N`, the numbers `2 ^ (N - length)`
add up to at most `2 ^ N`. -/
theorem kraft_sum : ∀ (N : Nat) (S : Finset Nat) (c : Nat → List Bool),
    (∀ a ∈ S, ∀ b ∈ S, a ≠ b → ¬ ∃ t, c b = c a ++ t) →
    (∀ a ∈ S, (c a).length ≤ N) →
    ∑ a ∈ S, 2 ^ (N - (c a).length) ≤ 2 ^ N := by
  intro N
  induction N with
  | zero =>
    intro S c hpf hlen
    have hnil : ∀ a ∈ S, c a = [] := fun a ha =>
      List.eq_nil_of_length_eq_zero (Nat.le_zero.1 (hlen a ha))
    have hcard : S.card ≤ 1 := by
      rw [Finset.card_le_one]
      intro a ha b hb
      by_contra hab
      exact hpf a ha b hb hab ⟨[], by rw [hnil a ha, hnil b hb]; rfl⟩
    calc ∑ a ∈ S, 2 ^ (0 - (c a).length) = ∑ _a ∈ S, 1 :=
          Finset.sum_congr rfl (fun a _ => by simp)
      _ = S.card := by simp
      _ ≤ 2 ^ 0 := by simpa using hcard
  | succ N ih =>
    intro S c hpf hlen
    by_cases hex : ∃ a ∈ S, c a = []
    · obtain ⟨a, ha, hca⟩ := hex
      have hS : S = {a} := by
        rw [Finset.eq_singleton_iff_unique_mem]
        refine ⟨ha, ?_⟩
        intro b hb
        by_contra hba
        exact hpf a ha b hb (fun e => hba e.symm) ⟨c b, by rw [hca]; rfl⟩
      rw [hS, Finset.sum_singleton, hca]
      simp
    · have hne : ∀ a ∈ S, c a ≠ [] := fun a ha e => hex ⟨a, ha, e⟩
      have hcons : ∀ a ∈ S, ∃ h, c a = h :: (c a).tail := by
        intro a ha
        cases hc : c a with
        | nil => exact absurd hc (hne a ha)
        | cons h t => exact ⟨h, rfl⟩
      have hterm : ∀ a ∈ S, 2 ^ (N + 1 - (c a).length) = 2 ^ (N - (c a).tail.length) := by
        intro a ha
        obtain ⟨h, hh⟩ := hcons a ha
        congr 1
        rw [List.length_tail]
        have := hlen a ha
        have h1 : 0 < (c a).length := List.length_pos.2 (hne a ha)
        omega
      have hpart : ∀ (v : Bool),
          ∑ a ∈ S.filter (fun a => (c a).head? = some v), 2 ^ (N - (c a).tail.length)
            ≤ 2 ^ N := by
        intro v
        apply ih _ (fun a => (c a).tail)
        · intro a ha b hb hab
          rw [Finset.mem_filter] at ha hb
          rintro ⟨t, ht⟩
          obtain ⟨h1, hh1⟩ := hcons a ha.1
          obtain ⟨h2, hh2⟩ := hcons b hb.1
          have e1 : h1 = v := by
            have := ha.2; rw [hh1] at this; simpa using this
          have e2 : h2 = v := by
            have := hb.2; rw [hh2] at this; simpa using this
          apply hpf a ha.1 b hb.1 hab
          refine ⟨t, ?_⟩
          rw [hh2, hh1, ht, e1, e2]
          rfl
        · intro a ha
          rw [Finset.mem_filter] at ha
          have := hlen a ha.1
          rw [List.length_tail]
          omega
      have hsplit := Finset.sum_filter_add_sum_filter_not S
        (fun a => (c a).head? = some false) (fun a => 2 ^ (N - (c a).tail.length))
      have htrue : S.filter (fun a => ¬ (c a).head? = some false)
          = S.filter (fun a => (c a).head? = some true) := by
        apply Finset.filter_congr
        intro a ha
        obtain ⟨h, hh⟩ := hcons a ha
        rw [hh]
        cases h <;> simp
      rw [htrue] at hsplit
      rw [Finset.sum_congr rfl hterm, ← hsplit, pow_succ]
      have h0 := hpart false
      have h1 := hpart true
      omega

/-! ## Exchanging and shortening code lengths -/

theorem sum_two (M : Finset Nat) (f : Nat → Nat) (p q : Nat) (hp : p ∈ M) (hq : q ∈ M)
    (hpq : p ≠ q) :
    ∑ z ∈ M, f z = f p + f q + ∑ z ∈ (M.erase p).erase q, f z := by
  rw [← Finset.add_sum_erase M f hp,
    ← Finset.add_sum_erase (M.erase p) f (Finset.mem_erase.2 ⟨fun e => hpq e.symm, hq⟩)]
  omega

theorem swap_cost (wp wq lp lq : Nat) (hw : wp ≤ wq) (hl : lp ≤ lq) :
    wp * lq + wq * lp ≤ wp * lp + wq * lq := by
  obtain ⟨d, rfl⟩ := Nat.exists_eq_add_of_le hw
  obtain ⟨e, rfl⟩ := Nat.exists_eq_add_of_le hl
  nlinarith [Nat.zero_le (d * e)]

/-- Exchanging the lengths of a lighter, shorter-coded node and a heavier,
longer-coded one keeps the Kraft sum and does not raise the cost. -/
theorem exchange (M : Finset Nat) (w l : Nat → Nat) (N : Nat) (p q : Nat) (hp : p ∈ M)
    (hq : q ∈ M) (hpq : p ≠ q) (hw : w p ≤ w q) (hl : l p ≤ l q) :
    (∑ z ∈ M, 2 ^ (N - (if z = p then l q else if z = q then l p else l z))
        = ∑ z ∈ M, 2 ^ (N - l z))
    ∧ (∑ z ∈ M, w z * (if z = p then l q else if z = q then l p else l z)
        ≤ ∑ z ∈ M, w z * l z) := by
  have hrest : ∀ (g : Nat → Nat → Nat),
      ∑ z ∈ (M.erase p).erase q, g z (if z = p then l q else if z = q then l p else l z)
        = ∑ z ∈ (M.erase p).erase q, g z (l z) := by
    intro g
    apply Finset.sum_congr rfl
    intro z hz
    rw [Finset.mem_erase, Finset.mem_erase] at hz
    rw [if_neg hz.2.1, if_neg hz.1]
  have hqp : q ≠ p := fun e => hpq e.symm
  constructor
  · rw [sum_two M _ p q hp hq hpq, sum_two M (fun z => 2 ^ (N - l z)) p q hp hq hpq,
      hrest (fun _ t => 2 ^ (N - t))]
    simp only [if_true, if_neg hqp]
    omega
  · rw [sum_two M _ p q hp hq hpq, sum_two M (fun z => w z * l z) p q hp hq hpq,
      hrest (fun z t => w z * t)]
    simp only [if_true, if_neg hqp]
    have := swap_cost (w p) (w q) (l p) (l q) hw hl
    omega

/-- When a single node has the greatest length, shortening its code by one
bit keeps the Kraft sum within `2 ^ N`. -/
theorem shorten (M : Finset Nat) (l : Nat → Nat) (N : Nat) (x0 : Nat) (hx0 : x0 ∈ M)
    (hL : 1 ≤ l x0) (hN : l x0 ≤ N) (huniq : ∀ y ∈ M, y ≠ x0 → l y < l x0)
    (hk : ∑ z ∈ M, 2 ^ (N - l z) ≤ 2 ^ N) :
    ∑ z ∈ M, 2 ^ (N - (if z = x0 then l x0 - 1 else l z)) ≤ 2 ^ N := by
  rw [← Finset.add_sum_erase M _ hx0] at hk ⊢
  have hrest : ∑ z ∈ M.erase x0, 2 ^ (N - (if z = x0 then l x0 - 1 else l z))
      = ∑ z ∈ M.erase x0, 2 ^ (N - l z) := by
    apply Finset.sum_congr rfl
    intro z hz
    rw [Finset.mem_erase] at hz
    rw [if_neg hz.1]
  rw [hrest]
  simp only [if_true]
  have e1 : N - (l x0 - 1) = (N - l x0) + 1 := by omega
  rw [e1, pow_succ]
  have hdvd : 2 ^ (N - l x0) * 2 ∣ ∑ z ∈ M.erase x0, 2 ^ (N - l z) := by
    apply Finset.dvd_sum
    intro z hz
    rw [Finset.mem_erase] at hz
    have := huniq z hz.2 hz.1
    rw [← pow_succ]
    exact pow_dvd_pow 2 (by omega)
  have hdvdN : 2 ^ (N - l x0) * 2 ∣ 2 ^ N := by
    rw [← pow_succ]
    exact pow_dvd_pow 2 (by omega)
  obtain ⟨A, hA⟩ := hdvd
  obtain ⟨B, hB⟩ := hdvdN
  rw [hA, hB] at hk ⊢
  have hd : 0 < 2 ^ (N - l x0) := Nat.two_pow_pos _
  generalize 2 ^ (N - l x0) = d at hk hd ⊢
  have h1 : d * (1 + 2 * A) ≤ d * (2 * B) := by nlinarith
  have h2 : 1 + 2 * A ≤ 2 * B := Nat.le_of_mul_le_mul_left h1 hd
  have h3 : A + 1 ≤ B := by omega
  calc d * 2 + d * 2 * A = d * 2 * (A + 1) := by ring
    _ ≤ d * 2 * B := Nat.mul_le_mul_left _ h3

end Haffman

namespace Haffman

/-- Among the length assignments within the Kraft bound there is, for any
given one, one of no greater cost that gives the two lightest nodes `a` and
`b` the same length, at least 1. -/
theorem level_two (M : Finset Nat) (w : Nat → Nat) (N a b : Nat) (ha : a ∈ M) (hb : b ∈ M)
    (hab : a ≠ b) (hwa : ∀ x ∈ M, x ≠ a → w a ≤ w x)
    (hwb : ∀ x ∈ M, x ≠ a → x ≠ b → w b ≤ w x) :
    ∀ (k : Nat) (l : Nat → Nat), ∑ z ∈ M, l z = k → (∀ z ∈ M, l z ≤ N) →
      ∑ z ∈ M, 2 ^ (N - l z) ≤ 2 ^ N →
      ∃ l2 : Nat → Nat, (∀ z ∈ M, l2 z ≤ N) ∧ ∑ z ∈ M, 2 ^ (N - l2 z) ≤ 2 ^ N
        ∧ ∑ z ∈ M, w z * l2 z ≤ ∑ z ∈ M, w z * l z ∧ l2 a = l2 b ∧ 1 ≤ l2 a := by
  intro k
  induction k using Nat.strong_induction_on with
  | _ k ih =>
    intro l hsum hbound hkraft
    obtain ⟨x0, hx0, hmax⟩ := Finset.exists_max_image M l ⟨a, ha⟩
    by_cases hL0 : l x0 = 0
    · exfalso
      have ea : l a = 0 := Nat.le_zero.1 (hL0 ▸ hmax a ha)
      have eb : l b = 0 := Nat.le_zero.1 (hL0 ▸ hmax b hb)
      rw [sum_two M _ a b ha hb hab, ea, eb] at hkraft
      have : 0 < 2 ^ N := Nat.two_pow_pos N
      simp only [Nat.sub_zero] at hkraft
      omega
    by_cases huniq : ∀ y ∈ M, y ≠ x0 → l y < l x0
    · -- a single node of greatest length: shorten it and go on
      have hk2 := shorten M l N x0 hx0 (by omega) (hbound x0 hx0) huniq hkraft
      have hb2 : ∀ z ∈ M, (if z = x0 then l x0 - 1 else l z) ≤ N := by
        intro z hz
        split
        · have := hbound x0 hx0; omega
        · exact hbound z hz
      have hcost : ∑ z ∈ M, w z * (if z = x0 then l x0 - 1 else l z) ≤ ∑ z ∈ M, w z * l z := by
        apply Finset.sum_le_sum
        intro z _
        apply Nat.mul_le_mul_left
        split
        · rename_i e; rw [e]; omega
        · exact Nat.le_refl _
      have hless : ∑ z ∈ M, (if z = x0 then l x0 - 1 else l z) < k := by
        rw [← hsum, ← Finset.add_sum_erase M _ hx0, ← Finset.add_sum_erase M l hx0]
        have hrest : ∑ z ∈ M.erase x0, (if z = x0 then l x0 - 1 else l z)
            = ∑ z ∈ M.erase x0, l z := by
          apply Finset.sum_congr rfl
          intro z hz
          rw [Finset.mem_erase] at hz
          rw [if_neg hz.1]
        rw [hrest]
        simp only [if_true]
        omega
      obtain ⟨l2, g1, g2, g3, g4, g5⟩ := ih _ hless _ rfl hb2 hk2
      exact ⟨l2, g1, g2, Nat.le_trans g3 hcost, g4, g5⟩
    · -- two nodes of greatest length: move `a` and `b` there
      push_neg at huniq
      obtain ⟨y0, hy0, hy0x, hy0l⟩ := huniq
      have ey0 : l y0 = l x0 := Nat.le_antisymm (hmax y0 hy0) hy0l
      have hLN : l x0 ≤ N := hbound x0 hx0
      have step1 : ∃ l1 : Nat → Nat, (∀ z ∈ M, l1 z ≤ l x0)
          ∧ ∑ z ∈ M, 2 ^ (N - l1 z) ≤ 2 ^ N
          ∧ ∑ z ∈ M, w z * l1 z ≤ ∑ z ∈ M, w z * l z ∧ l1 a = l x0
          ∧ ∃ y1 ∈ M, y1 ≠ a ∧ l1 y1 = l x0 := by
        by_cases h : l a = l x0
        · refine ⟨l, hmax, hkraft, Nat.le_refl _, h, ?_⟩
          by_cases hxa : x0 = a
          · exact ⟨y0, hy0, by rw [← hxa]; exact hy0x, ey0⟩
          · exact ⟨x0, hx0, hxa, rfl⟩
        · have hxa : x0 ≠ a := fun e => h (by rw [e])
          have hax : a ≠ x0 := fun e => hxa e.symm
          obtain ⟨x1, x2⟩ := exchange M w l N a x0 ha hx0 hax (hwa x0 hx0 hxa) (hmax a ha)
          refine ⟨fun z => if z = a then l x0 else if z = x0 then l a else l z, ?_, ?_, x2, ?_, ?_⟩
          · intro z hz
            simp only []
            split
            · exact Nat.le_refl _
            · split
              · exact hmax a ha
              · exact hmax z hz
          · rw [x1]; exact hkraft
          · simp only [if_true]
          · refine ⟨y0, hy0, ?_, ?_⟩
            · intro e; rw [e] at ey0; exact h ey0
            · have hya : y0 ≠ a := by intro e; rw [e] at ey0; exact h ey0
              simp only [if_neg hya, if_neg hy0x]
              exact ey0
      obtain ⟨l1, b1, k1, c1, a1, y1, hy1, hy1a, ey1⟩ := step1
      by_cases h : l1 b = l x0
      · exact ⟨l1, fun z hz => Nat.le_trans (b1 z hz) hLN, k1, c1, by rw [a1, h],
          by rw [a1]; omega⟩
      · have hy1b : y1 ≠ b := fun e => h (by rw [← e]; exact ey1)
        have hby1 : b ≠ y1 := fun e => hy1b e.symm
        have hlb : l1 b ≤ l1 y1 := by rw [ey1]; exact b1 b hb
        obtain ⟨x1, x2⟩ := exchange M w l1 N b y1 hb hy1 hby1 (hwb y1 hy1 hy1a hy1b) hlb
        refine ⟨fun z => if z = b then l1 y1 else if z = y1 then l1 b else l1 z,
          ?_, ?_, Nat.le_trans x2 c1, ?_, ?_⟩
        · intro z hz
          simp only []
          split
          · rw [ey1]; exact hLN
          · split
            · exact Nat.le_trans (b1 b hb) hLN
            · exact Nat.le_trans (b1 z hz) hLN
        · rw [x1]; exact k1
        · have hya : a ≠ y1 := fun e => hy1a e.symm
          simp only [if_neg hab, if_neg hya, if_true]
          rw [a1, ey1]
        · have hya : a ≠ y1 := fun e => hy1a e.symm
          simp only [if_neg hab, if_neg hya]
          rw [a1]; omega

end Haffman

namespace Haffman

/-- The set before and after the pass that builds node `256 + n`, over the
final weights: the pass takes the two lightest nodes of the set out and puts
the new node in. -/
theorem merge_view (cnt : Nat → Nat) (n : Nat) (hn : n < 255) :
    ∃ R : Finset Nat,
      (build_state cnt n).mintree.toFinset
        = insert (built cnt (256 + n)).l (insert (built cnt (256 + n)).r R)
      ∧ (build_state cnt (n + 1)).mintree.toFinset = insert (256 + n) R
      ∧ (built cnt (256 + n)).l ∉ insert (built cnt (256 + n)).r R
      ∧ (built cnt (256 + n)).r ∉ R ∧ 256 + n ∉ R
      ∧ (∀ x ∈ (build_state cnt n).mintree.toFinset, x ≠ (built cnt (256 + n)).l →
          (built cnt (built cnt (256 + n)).l).k ≤ (built cnt x).k)
      ∧ (∀ x ∈ (build_state cnt n).mintree.toFinset, x ≠ (built cnt (256 + n)).l →
          x ≠ (built cnt (256 + n)).r →
          (built cnt (built cnt (256 + n)).r).k ≤ (built cnt x).k) := by
  obtain ⟨-, f2, m2, hmt⟩ := build_state_final_view cnt n hn
  have inv := build_state_tree_inv cnt n (by omega)
  have hs := inv.sorted
  rw [hmt] at hs
  obtain ⟨s1, s2⟩ := List.pairwise_cons.1 hs
  obtain ⟨s3, -⟩ := List.pairwise_cons.1 s2
  have irr : ∀ a, ¬ klt (build_state cnt n).htree a a := by
    intro a h
    rcases h with h | h
    · omega
    · omega
  have g := greedy_inv_loop (table_htree cnt) 255 (Nat.le_refl _)
  have kle : ∀ a b, klt (built cnt) a b → (built cnt a).k ≤ (built cnt b).k := by
    intro a b h
    rcases h with h | h
    · omega
    · omega
  refine ⟨m2.toFinset, ?_, ?_, ?_, ?_, ?_, ?_, ?_⟩
  · rw [hmt, List.toFinset_cons, List.toFinset_cons]
  · have hmem := (build_step_facts (256 + n) _ _ m2 (build_state cnt n) hmt).2.2.2.2.2.2.2.2.2.1
    ext y
    rw [build_state_succ]
    simp only [List.mem_toFinset, Finset.mem_insert]
    exact hmem y
  · intro h
    rw [← List.toFinset_cons, List.mem_toFinset] at h
    exact irr _ (s1 _ h)
  · intro h
    rw [List.mem_toFinset] at h
    exact irr _ (s3 _ h)
  · intro h
    rw [List.mem_toFinset] at h
    have := inv.mem_lt (256 + n) (by rw [hmt]; simp [h])
    omega
  · intro x hx hne
    rw [List.mem_toFinset] at hx
    obtain ⟨h1, h2⟩ := (f2 x).1 hx
    rcases g.least (256 + n) (by omega) (by omega) x h1 (Or.inr h2) with h | h
    · exact absurd h hne
    · exact kle _ _ h
  · intro x hx hne hne2
    rw [List.mem_toFinset] at hx
    obtain ⟨h1, h2⟩ := (f2 x).1 hx
    rcases g.second (256 + n) (by omega) (by omega) x h1 (Or.inr h2) hne with h | h
    · exact absurd h hne2
    · exact kle _ _ h

/-- The depths in the finished tree cost no more, over the nodes of the set
at any pass and the final weights, than any lengths within the Kraft
bound. -/
theorem merge_optimal (cnt : Nat → Nat) (htot : total_count cnt < 2 ^ 64) :
    ∀ d n, n + d = 255 → ∀ (len : Nat → Nat) (N : Nat),
      (∀ x ∈ (build_state cnt n).mintree.toFinset, len x ≤ N) →
      ∑ x ∈ (build_state cnt n).mintree.toFinset, 2 ^ (N - len x) ≤ 2 ^ N →
      ∑ x ∈ (build_state cnt n).mintree.toFinset,
          (built cnt x).k * (path_bits (built cnt) TSIZE x).length
        ≤ ∑ x ∈ (build_state cnt n).mintree.toFinset, (built cnt x).k * len x := by
  intro d
  induction d with
  | zero =>
    intro n hn len N _ _
    have e : n = 255 := by omega
    subst e
    have hm : (build_state cnt 255).mintree = [510] := build_mintree (table_htree cnt)
    rw [hm]
    simp only [List.toFinset_cons, List.toFinset_nil, insert_emptyc_eq, Finset.sum_singleton]
    rw [path_bits_root]
    simp
  | succ d ih =>
    intro n hn len N hbound hkraft
    have hn2 : n < 255 := by omega
    obtain ⟨R, e1, e2, n1, n2, n3, hwa, hwb⟩ := merge_view cnt n hn2
    have hl := built_linked cnt
    obtain ⟨k1, k2, k3, k4, k5⟩ := hl.kids (256 + n) (by omega) (by omega)
    have hsum := built_weight_sum cnt htot (256 + n) (by omega) (by omega)
    have dl := path_bits_step _ hl (built cnt (256 + n)).l (by omega)
    have dr := path_bits_step _ hl (built cnt (256 + n)).r (by omega)
    rw [k4] at dl
    rw [k5] at dr
    have dl2 := congrArg List.length dl
    have dr2 := congrArg List.length dr
    simp only [List.length_append, List.length_singleton] at dl2 dr2
    have ml : (built cnt (256 + n)).l ∈ (build_state cnt n).mintree.toFinset := by
      rw [e1]; exact Finset.mem_insert_self _ _
    have mr : (built cnt (256 + n)).r ∈ (build_state cnt n).mintree.toFinset := by
      rw [e1]; exact Finset.mem_insert_of_mem (Finset.mem_insert_self _ _)
    obtain ⟨l2, b2, kr2, c2, eq2, pos2⟩ :=
      level_two _ (fun x => (built cnt x).k) N _ _ ml mr k3 hwa hwb _ len rfl hbound hkraft
    refine Nat.le_trans ?_ c2
    have hiR : ∀ z ∈ R, z ≠ 256 + n := fun z hz e => n3 (e ▸ hz)
    have hbl := b2 _ ml
    have ih2 := ih (n + 1) (by omega) (fun z => if z = 256 + n then l2 (built cnt (256 + n)).l - 1
      else l2 z) N
      (by
        intro z hz
        simp only []
        split
        · omega
        · rw [e2, Finset.mem_insert] at hz
          rcases hz with hz | hz
          · rename_i hne; exact absurd hz hne
          · exact b2 z (by rw [e1]; exact Finset.mem_insert_of_mem (Finset.mem_insert_of_mem hz)))
      (by
        rw [e2, Finset.sum_insert n3]
        rw [e1, Finset.sum_insert n1, Finset.sum_insert n2, ← eq2] at kr2
        have hrest : ∑ z ∈ R, 2 ^ (N - (if z = 256 + n then l2 (built cnt (256 + n)).l - 1
            else l2 z)) = ∑ z ∈ R, 2 ^ (N - l2 z) := by
          apply Finset.sum_congr rfl
          intro z hz
          rw [if_neg (hiR z hz)]
        rw [hrest]
        simp only [if_true]
        have e : N - (l2 (built cnt (256 + n)).l - 1) = (N - l2 (built cnt (256 + n)).l) + 1 := by
          omega
        rw [e, pow_succ]
        omega)
    rw [e2, Finset.sum_insert n3, Finset.sum_insert n3] at ih2
    have hrest : ∑ z ∈ R, (built cnt z).k * (if z = 256 + n then l2 (built cnt (256 + n)).l - 1
        else l2 z) = ∑ z ∈ R, (built cnt z).k * l2 z := by
      apply Finset.sum_congr rfl
      intro z hz
      rw [if_neg (hiR z hz)]
    rw [hrest] at ih2
    simp only [if_true] at ih2
    rw [e1, Finset.sum_insert n1, Finset.sum_insert n2, Finset.sum_insert n1,
      Finset.sum_insert n2]
    rw [← eq2, dl2, dr2]
    rw [hsum] at ih2
    obtain ⟨mu, hmu⟩ : ∃ mu, l2 (built cnt (256 + n)).l = mu + 1 := ⟨_, (Nat.sub_add_cancel pos2).symm⟩
    rw [hmu] at ih2 ⊢
    simp only [Nat.add_sub_cancel] at ih2
    generalize (built cnt (built cnt (256 + n)).l).k = wl at ih2 ⊢
    generalize (built cnt (built cnt (256 + n)).r).k = wr at ih2 ⊢
    generalize (path_bits (built cnt) TSIZE (256 + n)).length = di at ih2 ⊢
    generalize ∑ z ∈ R, (built cnt z).k * (path_bits (built cnt) TSIZE z).length = A at ih2 ⊢
    generalize ∑ z ∈ R, (built cnt z).k * l2 z = B at ih2 ⊢
    nlinarith [ih2]

/-- The set before the first pass holds the 256 leaves. -/
theorem build_state_leaves (cnt : Nat → Nat) :
    (build_state cnt 0).mintree.toFinset = Finset.range 256 := by
  rw [build_state_zero]
  ext x
  simp only [List.mem_toFinset, Finset.mem_range]
  exact (fill_set_spec _ 256).2.2.1 x

theorem one_hot_getD (n s a : Nat) (ha : a < n) :
    ((List.range n).map (fun i => decide (i = s))).getD a false = decide (a = s) := by
  rw [List.getD_eq_getElem _ _ (by simp only [List.length_map, List.length_range]; exact ha)]
  simp only [List.getElem_map, List.getElem_range]

/-- No word of the one-hot code starts another. -/
theorem one_hot_free (a b : Nat) (ha : a < 256) (_hb : b < 256) (hab : a ≠ b) :
    ¬ ∃ t, one_hot_code b = one_hot_code a ++ t := by
  rintro ⟨t, ht⟩
  have hlen := congrArg List.length ht
  simp only [one_hot_code, List.length_append, List.length_map, List.length_range] at hlen
  have ht0 : t = [] := List.eq_nil_of_length_eq_zero (by omega)
  subst ht0
  rw [List.append_nil] at ht
  have h := congrArg (fun l => l.getD a false) ht
  simp only [one_hot_code] at h
  rw [one_hot_getD 256 b a ha, one_hot_getD 256 a a ha] at h
  simp only [decide_True, decide_eq_true_eq] at h
  exact hab h

/-- C19. Optimality: for every table of 256 counts with total below
`2 ^ 64`, the code table is produced, and the sum over the 256 symbols of
count times code length is at most the same sum for any binary code over the
256 symbols in which no word starts another. -/
theorem C19_optimality (cnt : Nat → Nat) (htot : total_count cnt < 2 ^ 64)
    (code : Nat → List Bool)
    (hfree : ∀ a b, a < 256 → b < 256 → a ≠ b → ¬ ∃ t, code b = code a ++ t) :
    ∃ hcode, precalc (built cnt) 256 = some hcode
      ∧ weighted_length cnt (fun s => (hcode s).k.toNat)
          ≤ weighted_length cnt (fun s => (code s).length) := by
  have hl := built_linked cnt
  refine ⟨_, precalc_eq _ hl 256 (Nat.le_refl _), ?_⟩
  have hbound : ∀ a ∈ Finset.range 256,
      (code a).length ≤ ∑ s ∈ Finset.range 256, (code s).length := by
    intro a ha
    exact Finset.single_le_sum (f := fun s => (code s).length) (fun _ _ => Nat.zero_le _) ha
  have hkraft := kraft_sum (∑ s ∈ Finset.range 256, (code s).length) (Finset.range 256) code
    (fun a ha b hb hab => hfree a b (Finset.mem_range.1 ha) (Finset.mem_range.1 hb) hab) hbound
  have h0 := merge_optimal cnt htot 255 0 (by omega) (fun s => (code s).length) _
    (by rw [build_state_leaves]; exact hbound) (by rw [build_state_leaves]; exact hkraft)
  rw [build_state_leaves] at h0
  unfold weighted_length
  have e1 : ∑ s ∈ Finset.range 256,
      cnt s * ((fun a => if a < 256 then code_of (built cnt) a else hcode_zero a) s).k.toNat
      = ∑ x ∈ Finset.range 256, (built cnt x).k * (path_bits (built cnt) TSIZE x).length := by
    apply Finset.sum_congr rfl
    intro s hs
    have hs2 := Finset.mem_range.1 hs
    simp only [if_pos hs2, code_of, Int.toNat_ofNat]
    rw [built_leaf_weight cnt htot s hs2]
  have e2 : ∑ s ∈ Finset.range 256, cnt s * (code s).length
      = ∑ x ∈ Finset.range 256, (built cnt x).k * (code x).length := by
    apply Finset.sum_congr rfl
    intro s hs
    rw [built_leaf_weight cnt htot s (Finset.mem_range.1 hs)]
  rw [e1, e2]
  exact h0

/-- C19 at the counts of the input "aaaabbbccd" against the one-hot code of
256-bit words. -/
theorem C19_optimality_witness :
    total_count (fun x => ([97, 97, 97, 97, 98, 98, 98, 99, 99, 100] : List Nat).count x) < 2 ^ 64
    ∧ (∀ a b, a < 256 → b < 256 → a ≠ b → ¬ ∃ t, one_hot_code b = one_hot_code a ++ t)
    ∧ ∃ hcode,
        precalc (built (fun x => ([97, 97, 97, 97, 98, 98, 98, 99, 99, 100] : List Nat).count x))
          256 = some hcode
        ∧ weighted_length (fun x => ([97, 97, 97, 97, 98, 98, 98, 99, 99, 100] : List Nat).count x)
            (fun s => (hcode s).k.toNat)
          ≤ weighted_length (fun x => ([97, 97, 97, 97, 98, 98, 98, 99, 99, 100] : List Nat).count x)
            (fun s => (one_hot_code s).length) :=
  ⟨aaaabbbccd_total, one_hot_free, C19_optimality _ aaaabbbccd_total one_hot_code one_hot_free⟩

end Haffman

namespace Haffman

/-! ## The counting loop's last increment in `buf` -/

set_option maxRecDepth 100000 in
theorem or_one_fin : ∀ y : Fin 256, y.val % 2 = 0 → (y.val ||| 1) % 256 = y.val + 1 := by
  decide

theorem or_one_even (y : Nat) (hy : y < 256) (he : y % 2 = 0) : (y ||| 1) % 256 = y + 1 :=
  or_one_fin ⟨y, hy⟩ he

theorem getD_mid_ne (A B : List Nat) (b c i : Nat) (h : i ≠ A.length) :
    (A ++ b :: B).getD i 0 = (A ++ c :: B).getD i 0 := by
  by_cases hi : i < A.length
  · rw [List.getD_append _ _ _ _ hi, List.getD_append _ _ _ _ hi]
  · rw [List.getD_append_right _ _ _ _ (by omega), List.getD_append_right _ _ _ _ (by omega)]
    obtain ⟨k, hk⟩ : ∃ k, i - A.length = k + 1 := ⟨i - A.length - 1, by omega⟩
    rw [hk, List.getD_cons_succ, List.getD_cons_succ]

theorem getD_mid_eq (A B : List Nat) (b : Nat) : (A ++ b :: B).getD A.length 0 = b := by
  rw [List.getD_append_right _ _ _ _ (Nat.le_refl _), Nat.sub_self, List.getD_cons_zero]

/-- Changing bit number `8 m` of a bit list from 0 to 1 leaves the other
packed bytes as they are. -/
theorem pack_byte_flip_ne (A B : List Nat) (m j : Nat) (hA : A.length = 8 * m) (hj : j ≠ m) :
    pack_byte (A ++ 1 :: B) j = pack_byte (A ++ 0 :: B) j := by
  unfold pack_byte
  rw [getD_mid_ne A B 1 0 (8 * j) (by omega), getD_mid_ne A B 1 0 (8 * j + 1) (by omega),
    getD_mid_ne A B 1 0 (8 * j + 2) (by omega), getD_mid_ne A B 1 0 (8 * j + 3) (by omega),
    getD_mid_ne A B 1 0 (8 * j + 4) (by omega), getD_mid_ne A B 1 0 (8 * j + 5) (by omega),
    getD_mid_ne A B 1 0 (8 * j + 6) (by omega), getD_mid_ne A B 1 0 (8 * j + 7) (by omega)]

/-- Changing bit number `8 m` of a bit list from 0 to 1 adds 1 to packed
byte number `m`, which is even before. -/
theorem pack_byte_flip_eq (A B : List Nat) (m : Nat) (hA : A.length = 8 * m) :
    pack_byte (A ++ 1 :: B) m = pack_byte (A ++ 0 :: B) m + 1
      ∧ pack_byte (A ++ 0 :: B) m % 2 = 0 := by
  unfold pack_byte
  have e1 : (A ++ 1 :: B).getD (8 * m) 0 = 1 := by rw [← hA]; exact getD_mid_eq A B 1
  have e0 : (A ++ 0 :: B).getD (8 * m) 0 = 0 := by rw [← hA]; exact getD_mid_eq A B 0
  rw [e1, e0, getD_mid_ne A B 1 0 (8 * m + 1) (by omega),
    getD_mid_ne A B 1 0 (8 * m + 2) (by omega), getD_mid_ne A B 1 0 (8 * m + 3) (by omega),
    getD_mid_ne A B 1 0 (8 * m + 4) (by omega), getD_mid_ne A B 1 0 (8 * m + 5) (by omega),
    getD_mid_ne A B 1 0 (8 * m + 6) (by omega), getD_mid_ne A B 1 0 (8 * m + 7) (by omega)]
  omega

/-- The packing of a bit list with bit number `8 m` clear, with the byte 1
under byte number `m = bs - 16`: the packing of the list with that bit set. -/
theorem or_block_pack (bs m : Nat) (A B : List Nat) (hA : A.length = 8 * m)
    (hm : m + 16 = bs) (hbits : ∀ b ∈ A ++ 0 :: B, b ≤ 1) :
    or_block bs (fun a => if a + 16 = bs then 1 else 0) (pack (A ++ 0 :: B))
      = pack (A ++ 1 :: B) := by
  have hlen : (A ++ 1 :: B).length = (A ++ 0 :: B).length := by
    simp only [List.length_append, List.length_cons]
  apply List.ext_getElem
  · rw [or_block_length, pack_length, pack_length, hlen]
  · intro i h1 h2
    have hlt := pack_byte_lt _ hbits i
    simp only [or_block, List.getElem_map, List.getElem_range, pack_getD]
    have hr : (pack (A ++ 1 :: B))[i] = pack_byte (A ++ 1 :: B) i := by
      simp only [pack, List.getElem_map, List.getElem_range]
    rw [hr]
    by_cases him : i = m
    · subst him
      obtain ⟨f1, f2⟩ := pack_byte_flip_eq A B i hA
      rw [if_pos (by omega), if_pos hm, f1]
      exact or_one_even _ hlt f2
    · rw [pack_byte_flip_ne A B m i hA him]
      by_cases hb : i < bs
      · rw [if_pos hb, if_neg (by omega), Nat.or_zero]
        exact Nat.mod_eq_of_lt hlt
      · rw [if_neg hb]

/-! ## The codes of a flat table -/

theorem flat_code_bits (cnt : Nat → Nat) (c : Nat) (hc : c < 2 ^ 56)
    (hflat : ∀ i, i < 256 → cnt i = c) (s : Nat) (hs : s < 256) :
    code_bits (code_of (built cnt) s)
      = [s / 128 % 2, s / 64 % 2, s / 32 % 2, s / 16 % 2, s / 8 % 2, s / 4 % 2,
          s / 2 % 2, s % 2] := by
  rw [code_bits_code_of, flat_digits cnt c hc hflat s hs]

theorem flat_stream_length (cnt : Nat → Nat) (c : Nat) (hc : c < 2 ^ 56)
    (hflat : ∀ i, i < 256 → cnt i = c) (P : List (Fin 256)) :
    (code_stream (code_of (built cnt)) P).length = 8 * P.length := by
  induction P with
  | nil => rfl
  | cons x P ih =>
    simp only [code_stream, List.length_append, List.length_cons, ih,
      flat_code_bits cnt c hc hflat x.val x.isLt, List.length_nil]
    omega

/-- With the codes of a flat table the number of bytes whose codes lie
inside the first `n` bits is `n / 8`, or the whole input. -/
theorem flat_symbols_within (cnt : Nat → Nat) (c : Nat) (hc : c < 2 ^ 56)
    (hflat : ∀ i, i < 256 → cnt i = c) :
    ∀ (S : List (Fin 256)) (n : Nat),
      symbols_within (code_of (built cnt)) S n = min (n / 8) S.length := by
  intro S
  induction S with
  | nil => intro n; simp [symbols_within]
  | cons x S ih =>
    intro n
    have hl : (code_bits (code_of (built cnt) x.val)).length = 8 := by
      rw [flat_code_bits cnt c hc hflat x.val x.isLt]; rfl
    simp only [symbols_within, hl, List.length_cons]
    by_cases hn : 8 ≤ n
    · rw [if_pos hn, ih]
      omega
    · rw [if_neg hn]
      omega

/-! ## An input whose archive reaches byte `BUF_SIZE - 16` of the block -/

theorem finRange_take :
    (List.finRange 256).take 16 = 0 :: ((List.finRange 256).take 16).tail := by
  have e : List.finRange 256 = 0 :: (List.finRange 255).map Fin.succ :=
    List.finRange_succ_eq_map 255
  rw [e]
  generalize (List.finRange 255).map Fin.succ = l
  rfl

theorem spill_input_eq :
    spill_input = ((List.replicate 1023 (List.finRange 256)).flatten
        ++ (List.finRange 256).drop 16) ++ 0 :: ((List.finRange 256).take 16).tail := by
  unfold spill_input
  rw [List.append_assoc]
  exact congrArg (fun t => (List.replicate 1023 (List.finRange 256)).flatten
    ++ ((List.finRange 256).drop 16 ++ t)) finRange_take

theorem spill_output_eq :
    spill_output = ((List.replicate 1023 (List.finRange 256)).flatten
        ++ (List.finRange 256).drop 16) ++ 128 :: ((List.finRange 256).take 16).tail := by
  unfold spill_output
  rw [List.append_assoc]

theorem spill_head_length :
    ((List.replicate 1023 (List.finRange 256)).flatten
        ++ (List.finRange 256).drop 16).length = 262128 := by
  simp only [List.length_append, List.length_flatten, List.map_replicate, List.sum_replicate,
    List.length_drop, List.length_finRange, smul_eq_mul]

theorem spill_tail_length : (((List.finRange 256).take 16).tail).length = 15 := by
  simp only [List.length_tail, List.length_take, List.length_finRange]
  rfl

theorem spill_input_length : spill_input.length = 262144 := by
  rw [spill_input_eq, List.length_append, spill_head_length, List.length_cons,
    spill_tail_length]

theorem spill_output_length : spill_output.length = 262144 := by
  rw [spill_output_eq, List.length_append, spill_head_length, List.length_cons,
    spill_tail_length]

/-- Every byte value occurs 1024 times in `spill_input`. -/
theorem spill_input_counts (i : Nat) (hi : i < 256) : input_counts spill_input i = 1024 := by
  unfold input_counts
  have e : i = Fin.val (⟨i, hi⟩ : Fin 256) := rfl
  rw [e, List.count_map_of_injective _ _ Fin.val_injective]
  have h1 : List.count (⟨i, hi⟩ : Fin 256) (List.finRange 256) = 1 :=
    List.count_eq_one_of_mem (List.nodup_finRange 256) (List.mem_finRange _)
  have h2 : List.count (⟨i, hi⟩ : Fin 256) ((List.finRange 256).drop 16)
      + List.count (⟨i, hi⟩ : Fin 256) ((List.finRange 256).take 16) = 1 := by
    rw [Nat.add_comm, ← List.count_append, List.take_append_drop]
    exact h1
  unfold spill_input
  rw [List.count_append, List.count_append, List.count_flatten, List.map_replicate,
    List.sum_replicate, h1, h2]
  rfl

/-- The bit stream of an input with a flat table and byte 0 behind `P`,
and the same with 128 in the place of that byte: they differ in the first
bit of the code of that byte only. -/
theorem spilled_stream (S P Q : List (Fin 256)) (c : Nat) (hc : c < 2 ^ 56)
    (hflat : ∀ i, i < 256 → input_counts S i = c) (hS : S = P ++ 0 :: Q) (r : List Nat) :
    code_stream (code_of (built (input_counts S))) S ++ r
        = code_stream (code_of (built (input_counts S))) P
          ++ 0 :: ([0, 0, 0, 0, 0, 0, 0]
            ++ (code_stream (code_of (built (input_counts S))) Q ++ r))
      ∧ code_stream (code_of (built (input_counts S))) (P ++ 128 :: Q) ++ r
        = code_stream (code_of (built (input_counts S))) P
          ++ 1 :: ([0, 0, 0, 0, 0, 0, 0]
            ++ (code_stream (code_of (built (input_counts S))) Q ++ r))
      ∧ (code_stream (code_of (built (input_counts S))) P).length = 8 * P.length
      ∧ (code_stream (code_of (built (input_counts S))) Q).length = 8 * Q.length := by
  have h0 : code_bits (code_of (built (input_counts S)) (0 : Fin 256).val)
      = [0, 0, 0, 0, 0, 0, 0, 0] := by
    rw [flat_code_bits _ c hc hflat _ (0 : Fin 256).isLt]; rfl
  have h128 : code_bits (code_of (built (input_counts S)) (128 : Fin 256).val)
      = [1, 0, 0, 0, 0, 0, 0, 0] := by
    rw [flat_code_bits _ c hc hflat _ (128 : Fin 256).isLt]; rfl
  refine ⟨?_, ?_, flat_stream_length _ c hc hflat P, flat_stream_length _ c hc hflat Q⟩
  · generalize code_of (built (input_counts S)) = hcode at h0 h128 ⊢
    rw [hS, code_stream_append]
    simp only [code_stream, h0, List.append_assoc, List.cons_append, List.nil_append]
  · generalize code_of (built (input_counts S)) = hcode at h0 h128 ⊢
    rw [code_stream_append]
    simp only [code_stream, h128, List.append_assoc, List.cons_append, List.nil_append]

/-- The payload of an input with a flat table whose byte number `bs - 16`
is 0, written with block size `bs` when the cell `htree[-1].k` is the end of
`buf`: it holds the code of 128 in the place of the code of that byte. -/
theorem payload_spilled (bs : Nat) (oob : code_t) (S P Q : List (Fin 256)) (c : Nat)
    (hc : c < 2 ^ 56) (hflat : ∀ i, i < 256 → input_counts S i = c)
    (hS : S = P ++ 0 :: Q) (hP : P.length + 16 = bs) :
    payload bs (block_start bs oob_cell.buf_end S) (code_of (built (input_counts S))) oob S
      = pack (code_stream (code_of (built (input_counts S))) (P ++ 128 :: Q)
          ++ code_bits oob) := by
  rw [payload_under bs (by omega) _ (block_start_lt _ _ _), block_start_buf_end]
  obtain ⟨e0, e1, hlen, -⟩ := spilled_stream S P Q c hc hflat hS (code_bits oob)
  have hle := stream_le_one (code_of (built (input_counts S))) oob S
  rw [e0] at hle
  rw [e0, e1, or_block_pack bs P.length _ _ hlen hP hle]

/-- The archive of an input with a flat table whose byte number
`BUF_SIZE - 16` is 0, written when the cell `htree[-1].k` is the end of
`buf`: its payload holds the code of 128 in the place of the code of that
byte. -/
theorem compress_spilled (oob : code_t) (S P Q : List (Fin 256)) (c : Nat) (hc : c < 2 ^ 56)
    (hflat : ∀ i, i < 256 → input_counts S i = c)
    (hS : S = P ++ 0 :: Q) (hP : P.length + 16 = BUF_SIZE) :
    compress oob_cell.buf_end oob S = some (HEADER ++ le_bytes 8 (ftell_end S)
      ++ tree_table (built (input_counts S)) (TSIZE - 256)
      ++ pack (code_stream (code_of (built (input_counts S))) (P ++ 128 :: Q)
          ++ code_bits oob)) := by
  rw [compress_buf_end]
  obtain ⟨e0, e1, hlen, -⟩ := spilled_stream S P Q c hc hflat hS (code_bits oob)
  have hle := stream_le_one (code_of (built (input_counts S))) oob S
  rw [e0] at hle
  rw [e0, e1, or_block_pack BUF_SIZE P.length _ _ hlen hP hle]

/-- The packed byte that holds the code of the byte 0 standing behind `8 m`
bits. -/
theorem pack_byte_zero_code (A R : List Nat) (m : Nat) (hA : A.length = 8 * m) :
    pack_byte (A ++ 0 :: ([0, 0, 0, 0, 0, 0, 0] ++ R)) m = 0 := by
  have h : ∀ t, t < 8 → (A ++ 0 :: ([0, 0, 0, 0, 0, 0, 0] ++ R)).getD (A.length + t) 0 = 0 := by
    intro t ht
    rw [List.getD_append_right _ _ _ _ (by omega), Nat.add_sub_cancel_left]
    interval_cases t <;> rfl
  have h0 := h 0 (by omega)
  rw [Nat.add_zero] at h0
  unfold pack_byte
  rw [← hA, h0, h 1 (by omega), h 2 (by omega), h 3 (by omega), h 4 (by omega),
    h 5 (by omega), h 6 (by omega), h 7 (by omega)]

theorem spill_head_block :
    ((List.replicate 1023 (List.finRange 256)).flatten
        ++ (List.finRange 256).drop 16).length + 16 = BUF_SIZE := by
  rw [spill_head_length]; rfl

theorem spill_output_getD : (spill_output.map Fin.val).getD 262128 0 = 128 := by
  rw [spill_output_eq, List.map_append, List.map_cons]
  have h := getD_mid_eq
    (((List.replicate 1023 (List.finRange 256)).flatten
      ++ (List.finRange 256).drop 16).map Fin.val)
    ((((List.finRange 256).take 16).tail).map Fin.val) (Fin.val (128 : Fin 256))
  rw [List.length_map, spill_head_length] at h
  exact h

theorem spill_input_getD : (spill_input.map Fin.val).getD 262128 0 = 0 := by
  rw [spill_input_eq, List.map_append, List.map_cons]
  have h := getD_mid_eq
    (((List.replicate 1023 (List.finRange 256)).flatten
      ++ (List.finRange 256).drop 16).map Fin.val)
    ((((List.finRange 256).take 16).tail).map Fin.val) (Fin.val (0 : Fin 256))
  rw [List.length_map, spill_head_length] at h
  exact h

theorem spill_soff64 :
    soff64 (ftell_end spill_input % 2 ^ 64) = (spill_output.length : Int) := by
  rw [ftell_soff64 spill_input (by rw [spill_input_length]; norm_num), spill_input_length,
    spill_output_length]

/-- The archive of `spill_input` written when the cell `htree[-1].k` is the
end of `buf`: the archive of `spill_output` but for the length of the input
and its tree. -/
theorem compress_spill_input (oob : code_t) :
    compress oob_cell.buf_end oob spill_input
      = some (HEADER ++ le_bytes 8 (ftell_end spill_input)
        ++ tree_table (built (input_counts spill_input)) (TSIZE - 256)
        ++ pack (code_stream (code_of (built (input_counts spill_input))) spill_output
            ++ code_bits oob)) := by
  rw [spill_output_eq]
  exact compress_spilled oob spill_input _ _ 1024 (by norm_num) spill_input_counts
    spill_input_eq spill_head_block

/-- C1 (the code at a failing input). When the cell `htree[-1].k` is the end
of `buf`, the last pass of the counting loop leaves the byte 1 in
`buf[BUF_SIZE - 16]` and the encode loop writes its bits onto it.  For the
input `spill_input`, 262144 bytes with 0 at place 262128, `compress` returns
an archive and `extract` on that archive returns having written
`spill_output`, which has 128 at place 262128: not the input. -/
theorem C1_round_trip_spilled (oob : code_t) :
    ∃ A, compress oob_cell.buf_end oob spill_input = some A
      ∧ extract A = some (outcome.finished (spill_output.map Fin.val))
      ∧ (spill_output.map Fin.val).getD 262128 0 = 128
      ∧ (spill_input.map Fin.val).getD 262128 0 = 0
      ∧ spill_input.length = 262144 := by
  refine ⟨_, compress_spill_input oob, ?_, spill_output_getD, spill_input_getD,
    spill_input_length⟩
  have h := extract_codes (input_counts spill_input) spill_output (ftell_end spill_input)
    spill_soff64 (code_bits oob) (code_bits_le_one _) []
  rw [List.append_nil] at h
  exact h

/-- C12 (the code at a failing input). When the cell `htree[-1].k` is the
end of `buf`, `extract` on the archive of `spill_input` followed by any bytes
`T` (none, for one) writes `spill_output`: as many bytes as the input has,
but 128 at place 262128 where the input has 0. -/
theorem C12_spilled_archive_followed (oob : code_t) (T : List Nat) :
    ∃ A, compress oob_cell.buf_end oob spill_input = some A
      ∧ extract (A ++ T) = some (outcome.finished (spill_output.map Fin.val))
      ∧ (spill_output.map Fin.val).length = spill_input.length
      ∧ (spill_output.map Fin.val).getD 262128 0 = 128
      ∧ (spill_input.map Fin.val).getD 262128 0 = 0 := by
  refine ⟨_, compress_spill_input oob, ?_, ?_, spill_output_getD, spill_input_getD⟩
  · rw [List.append_assoc]
    exact extract_codes (input_counts spill_input) spill_output (ftell_end spill_input)
      spill_soff64 (code_bits oob) (code_bits_le_one _) T
  · rw [List.length_map, spill_output_length, spill_input_length]

theorem spill_output_take :
    spill_output.take 262129 = ((List.replicate 1023 (List.finRange 256)).flatten
        ++ (List.finRange 256).drop 16) ++ [128] := by
  rw [spill_output_eq]
  have e : 262129 = ((List.replicate 1023 (List.finRange 256)).flatten
      ++ (List.finRange 256).drop 16).length + 1 := by rw [spill_head_length]
  rw [e, List.take_append]
  rfl

/-- C11 (the code at a failing input). When the cell `htree[-1].k` is the
end of `buf`, `extract` on the archive of `spill_input` cut after the header,
the tree table and 262129 bytes of payload (a proper prefix of the archive)
signals no error and writes 262129 bytes, the last of which is 128, where the
input has 0 at that place. -/
theorem C11_spilled_archive_cut (oob : code_t) :
    ∃ A, compress oob_cell.buf_end oob spill_input = some A
      ∧ 1032 + 262129 < A.length
      ∧ extract (A.take (1032 + 262129))
        = some (outcome.finished ((spill_output.take 262129).map Fin.val))
      ∧ ((spill_output.take 262129).map Fin.val).length = 262129
      ∧ ((spill_output.take 262129).map Fin.val).getD 262128 0 = 128
      ∧ (spill_input.map Fin.val).getD 262128 0 = 0 := by
  refine ⟨_, compress_spill_input oob, ?_, ?_, ?_, ?_, spill_input_getD⟩
  · rw [List.length_append, header_length, pack_length, List.length_append,
      flat_stream_length _ 1024 (by norm_num) spill_input_counts, spill_output_length]
    omega
  · rw [take_header _ (by omega) _ _ (header_length spill_input _)]
    have h := extract_codes_take (input_counts spill_input) spill_output
      (ftell_end spill_input) spill_soff64 (code_bits oob) (code_bits_le_one _)
      (1032 + 262129 - 1032)
    rw [flat_symbols_within _ 1024 (by norm_num) spill_input_counts, spill_output_length] at h
    have e : min (8 * (1032 + 262129 - 1032) / 8) 262144 = 262129 := by norm_num
    rw [e] at h
    exact h
  · rw [List.length_map, List.length_take, spill_output_length]
    rfl
  · rw [spill_output_take, List.map_append]
    have h := getD_mid_eq
      (((List.replicate 1023 (List.finRange 256)).flatten
        ++ (List.finRange 256).drop 16).map Fin.val) [] (Fin.val (128 : Fin 256))
    rw [List.length_map, spill_head_length] at h
    exact h

/-- C16 (the code at a failing input). When the cell `htree[-1].k` is the
end of `buf`, the encode loop with the block size 262144 of the source does
not start on a zeroed block.  For the input `spill_input` the payload it
writes, 262144 bytes or more so that the whole first block is flushed, has
the byte 1 at place 262128, where packing the bit stream of the loop into a
zero-filled buffer gives 0, with the bits of the pass for `EOF` or without
them. -/
theorem C16_first_block_spilled (oob : code_t) :
    (payload BUF_SIZE (block_start BUF_SIZE oob_cell.buf_end spill_input)
        (code_of (built (input_counts spill_input))) oob spill_input).getD 262128 0 = 1
      ∧ (unbounded_payload
          (code_stream (code_of (built (input_counts spill_input))) spill_input
            ++ code_bits oob)).getD 262128 0 = 0
      ∧ (unbounded_payload
          (code_stream (code_of (built (input_counts spill_input))) spill_input)).getD
            262128 0 = 0
      ∧ BUF_SIZE ≤ (payload BUF_SIZE (block_start BUF_SIZE oob_cell.buf_end spill_input)
          (code_of (built (input_counts spill_input))) oob spill_input).length := by
  have hp := payload_spilled BUF_SIZE oob spill_input _ _ 1024 (by norm_num)
    spill_input_counts spill_input_eq spill_head_block
  obtain ⟨e0, e1, hlen, -⟩ := spilled_stream spill_input _ _ 1024 (by norm_num)
    spill_input_counts spill_input_eq (code_bits oob)
  obtain ⟨d0, -, -, -⟩ := spilled_stream spill_input _ _ 1024 (by norm_num)
    spill_input_counts spill_input_eq []
  rw [List.append_nil] at d0
  rw [spill_head_length] at hlen
  refine ⟨?_, ?_, ?_, ?_⟩
  · rw [hp, pack_getD, e1, (pack_byte_flip_eq _ _ 262128 hlen).1,
      pack_byte_zero_code _ _ 262128 hlen]
  · rw [unbounded_payload_eq _ (stream_le_one _ oob spill_input), pack_getD, e0,
      pack_byte_zero_code _ _ 262128 hlen]
  · rw [unbounded_payload_eq _ (code_stream_le_one _ spill_input), pack_getD, d0,
      pack_byte_zero_code _ _ 262128 hlen]
  · rw [hp, ← spill_output_eq, pack_length, List.length_append,
      flat_stream_length _ 1024 (by norm_num) spill_input_counts, spill_output_length]
    unfold BUF_SIZE
    omega

end Haffman
